import Mathlib

/-!
# Verification of the cartconf Cartesian-configuration compiler

Shallow embedding of the core of `cartconf` (files `src/cartconf/utils.py`,
`src/cartconf/tokens.py`, `src/cartconf/filters.py`, `src/cartconf/parser.py`)
and proofs settling the frozen claims about it.

Modelling conventions:
* Python `dict` is modelled as an insertion-ordered association list with
  unique keys (`Dict`); `d[k] = v` updates the value in place when the key
  exists and appends at the end otherwise, exactly like CPython dicts.
* Python exceptions (`ValueError`, `TypeError`, `KeyError` escaping, regex
  errors, …) are modelled by `Option`/abort flags: a `none` result marks the
  point where the Python code raises.
* Machine-level caveats: Python parses size numerals with `float`; the model
  parses the same decimal syntax into exact rationals (`ℚ`).  The claims
  settled here do not depend on IEEE rounding at the 17th significant digit.
-/

namespace Cartconf

/-- Values stored in an emitted dictionary: ordinary strings, the `dep` list
of strings, and the two file maps (string → string). -/
inductive Value where
  | str (s : String)
  | strList (l : List String)
  | strMap (m : List (String × String))
deriving DecidableEq, Repr

/-- Dictionary keys: plain strings, or the tuples `(base, suffix1, …)`
produced by the `Suffix` operation (`tokens.py`, `Suffix.apply_to_dict`). -/
inductive Key where
  | plain (s : String)
  | tup (base : String) (sufs : List String)
deriving DecidableEq, Repr

/-- Insertion-ordered association list modelling a Python dict. -/
abbrev Dict := List (Key × Value)

/-- Python `d[k] = v`: update in place when present, append otherwise. -/
def dictSet (d : Dict) (k : Key) (v : Value) : Dict :=
  if d.any (fun e => e.1 = k) then
    d.map (fun e => if e.1 = k then (k, v) else e)
  else
    d ++ [(k, v)]

/-- Python `d[k]` / `d.get(k)`. -/
def dictLookup (d : Dict) (k : Key) : Option Value :=
  (d.find? (fun e => e.1 = k)).map (·.2)

/-- Python `del d[k]` / `d.pop(k)` (key removal, order of the rest kept). -/
def dictErase (d : Dict) (k : Key) : Dict :=
  d.filter (fun e => ¬ e.1 = k)

/-- Membership of a key in a dict (`k in d`). -/
def dictMem (d : Dict) (k : Key) : Bool :=
  d.any (fun e => e.1 = k)

/-- Modelled from the spec: the module `cartconf/constants.py` is imported by
`utils.py` and `tokens.py` but is not present under `src/`; the spec lists the
reserved keys as `name`, `shortname`, `dep`, `_name_map_file`,
`_short_name_map_file`. -/
def reservedKeys : List String :=
  ["name", "shortname", "dep", "_name_map_file", "_short_name_map_file"]

/-- `key not in reserved_keys` for a dict key: a tuple key is never equal to
a string, so tuple keys are never reserved. -/
def keyReserved (k : Key) : Bool :=
  match k with
  | .plain s => reservedKeys.contains s
  | .tup _ _ => false

/-- `"".join(key)` for a tuple key, the key itself for a plain one
(used by the regex operators and `del`, `tokens.py` lines 296–347). -/
def keyStr (k : Key) : String :=
  match k with
  | .plain s => s
  | .tup b sufs => b ++ String.join sufs

/-! ## Numeric parsing (`utils.py`)

Python `float(s)` / `int(s)` are modelled for the decimal forms
`[+-]digits[.digits]` / `[+-]digits`; other forms (exponents, `inf`,
underscores, surrounding whitespace) are out of the modelled fragment and
return `none`, as do the strings on which Python itself raises. -/

/-- Digits of a string as a natural number, `none` when a non-digit occurs
or the list is empty. -/
def digitsToNat : List Char → Option ℕ
  | [] => none
  | l => l.foldlM (fun acc c => if c.isDigit then some (acc * 10 + (c.toNat - 48)) else none) 0

/-- Split a leading sign off a numeral. -/
def splitSign : List Char → (Bool × List Char)
  | '-' :: rest => (true, rest)
  | '+' :: rest => (false, rest)
  | l => (false, l)

/-- Python `int(s)` on the modelled fragment. -/
def pyParseInt (s : String) : Option ℤ :=
  let (neg, body) := splitSign s.toList
  (digitsToNat body).map (fun n => if neg then -(n : ℤ) else (n : ℤ))

/-- Python `float(s)` on the modelled fragment, as an exact rational. -/
def pyParseFloat (s : String) : Option ℚ :=
  let (neg, body) := splitSign s.toList
  let ip := body.takeWhile (fun c => ¬ c = '.')
  let rest := body.dropWhile (fun c => ¬ c = '.')
  let core : Option ℚ :=
    match rest with
    | [] => (digitsToNat ip).map (fun n => (n : ℚ))
    | _ :: frac =>
      if frac.any (fun c => c = '.') then none
      else if ip.isEmpty ∧ frac.isEmpty then none
      else
        (if ip.isEmpty then some 0 else (digitsToNat ip).map (fun n => (n : ℚ))).bind
          (fun ipart =>
            (if frac.isEmpty then some 0 else
              (digitsToNat frac).map (fun n => (n : ℚ) / (10 : ℚ) ^ frac.length)).map
              (fun fpart => ipart + fpart))
  core.map (fun q => if neg then -q else q)

/-- Python `int(q)` on a float value: truncation toward zero. -/
def pyTrunc (q : ℚ) : ℤ :=
  if 0 ≤ q then ⌊q⌋ else -⌊-q⌋

/-- The `orders` table of `convert_data_size` (`utils.py` lines 19–24). -/
def ordersLookup (c : Char) : Option ℤ :=
  if c = 'B' then some 1
  else if c = 'K' then some 1024
  else if c = 'M' then some (1024 * 1024)
  else if c = 'G' then some (1024 * 1024 * 1024)
  else if c = 'T' then some (1024 * 1024 * 1024 * 1024)
  else none

/-- Is the character one of the unit letters `BbKkMmGgTt`? -/
def isOrderChar (c : Char) : Bool :=
  c = 'B' ∨ c = 'b' ∨ c = 'K' ∨ c = 'k' ∨ c = 'M' ∨ c = 'm' ∨
  c = 'G' ∨ c = 'g' ∨ c = 'T' ∨ c = 't'

/-- `utils.convert_data_size(size, default_suffix)` (lines 11–31).
`re.findall("([BbKkMmGgTt])", size[-1])` inspects only the last character;
when absent, the default suffix is appended and used.  `none` models the
exceptions Python raises (empty string, unparsable numeral, an unknown
default suffix reaching the `orders` table). -/
def convertDataSize (size : String) (defaultSuffix : String) : Option ℤ :=
  match size.toList.getLast? with
  | none => none
  | some last =>
    let (orderChar, numPart) :=
      if isOrderChar last then (last, size.toList.dropLast)
      else (defaultSuffix.toList.headD ' ', size.toList)
    (pyParseFloat (String.mk numPart)).bind (fun q =>
      (ordersLookup orderChar.toUpper).map (fun m => pyTrunc (q * (m : ℚ))))

/-- `utils.compare_string(str1, str2)` (lines 34–59): when either string
contains a unit letter anywhere, both are converted as data sizes with
default suffix `M`; otherwise both are parsed with `int`.  Returns
`Ordering` for -1/0/1; `none` models a raised exception. -/
def compareString (s1 s2 : String) : Option Ordering :=
  if s1.toList.any isOrderChar ∨ s2.toList.any isOrderChar then
    (convertDataSize s1 "M").bind (fun v1 =>
      (convertDataSize s2 "M").map (fun v2 => compare v1 v2))
  else
    (pyParseInt s1).bind (fun v1 =>
      (pyParseInt s2).map (fun v2 => compare v1 v2))

/-- `compare_string` as called on dictionary values: both operands must be
strings, anything else models Python's `TypeError` inside `re.findall`. -/
def compareValues (v1 v2 : Value) : Option Ordering :=
  match v1, v2 with
  | .str s1, .str s2 => compareString s1 s2
  | _, _ => none

/-- Python `key.endswith(sep)` (character-list implementation so that the
kernel can evaluate it). -/
def pyEndsWith (key sep : String) : Bool :=
  key.toList.reverse.take sep.length = sep.toList.reverse

/-- Python `key.split(sep)[0]`: the prefix before the first occurrence of
`sep` (the whole string when `sep` does not occur). -/
def splitFirstL (sep : List Char) : List Char → List Char
  | [] => []
  | c :: rest =>
    if (c :: rest).take sep.length = sep then []
    else c :: splitFirstL sep rest

def splitFirst (key sep : String) : String :=
  String.mk (splitFirstL sep.toList key.toList)

/-- `tmp[k] = v` on a string-keyed association list with Python-dict
semantics (update in place or append). -/
def assocSet (tmp : List (String × Value)) (k : String) (v : Value) :
    List (String × Value) :=
  if tmp.any (fun e => e.1 = k) then
    tmp.map (fun e => if e.1 = k then (k, v) else e)
  else
    tmp ++ [(k, v)]

/-- One step of the `tmp_dict` accumulation of `apply_suffix_bounds`
(`utils.py` lines 67–84) for a single plain key `s` with value `v` of the
dictionary `d`.  Python's short-circuit `tmp_key not in d or
compare_string(...)` is kept: when the bare key is absent no comparison (and
hence no exception) happens.  `none` models a raised exception. -/
def suffixBoundStep (d : Dict) (tmp : List (String × Value)) (s : String) (v : Value) :
    Option (List (String × Value)) :=
  if pyEndsWith s "_max" then
    let tmpKey := splitFirst s "_max"
    match dictLookup d (.plain tmpKey) with
    | none => some (assocSet tmp tmpKey v)
    | some cur =>
      (compareValues cur v).map (fun o =>
        if o = Ordering.gt then assocSet tmp tmpKey v else tmp)
  else if pyEndsWith s "_min" then
    let tmpKey := splitFirst s "_min"
    match dictLookup d (.plain tmpKey) with
    | none => some (assocSet tmp tmpKey v)
    | some cur =>
      (compareValues cur v).map (fun o =>
        if o = Ordering.lt then assocSet tmp tmpKey v else tmp)
  else if pyEndsWith s "_fixed" then
    let tmpKey := splitFirst s "_fixed"
    some (assocSet tmp tmpKey v)
  else
    some tmp

/-- `utils.apply_suffix_bounds(d)` (lines 62–86): build `tmp_dict` by a pass
over the keys of `d` in order (tuple keys skipped), then write every entry
of `tmp_dict` back into `d`. -/
def applySuffixBounds (d : Dict) : Option Dict :=
  let tmp := d.foldlM (fun tmp e =>
    match e.1 with
    | .tup _ _ => some tmp
    | .plain s => suffixBoundStep d tmp s e.2) ([] : List (String × Value))
  tmp.map (fun t => t.foldl (fun d e => dictSet d (.plain e.1) e.2) d)

/-! ## Suffix flattening (`utils.drop_suffixes`, lines 89–133) -/

/-- The base name of a key (`k[0] if isinstance(k, tuple) else k`). -/
def genName (k : Key) : String :=
  match k with
  | .plain s => s
  | .tup b _ => b

/-- Processing of one (tuple) key of the original dictionary `d` inside
`drop_suffixes`; `dFlat` is the accumulator being mutated. -/
def dropSuffixStep (d : Dict) (skipdups : Bool) (dFlat : Dict) (k : Key) : Dict :=
  if keyReserved k then dFlat
  else
    match k with
    | .plain _ => dFlat
    | .tup base sufs =>
      let vk := (dictLookup d k).getD (.str "")
      if skipdups ∧ dictMem d (.plain base) ∧ dictLookup d (.plain base) = dictLookup d k then
        dictErase dFlat k
      else
        let canDropAll :=
          d.all (fun e => ¬ genName e.1 = base ∨ dictLookup d k = some e.2)
        let newKey : Key :=
          if skipdups ∧ canDropAll then .plain base
          else .plain (base ++ String.join sufs.reverse)
        let popped := (dictLookup dFlat k).getD vk
        dictSet (dictErase dFlat k) newKey popped

/-- `utils.drop_suffixes(d, skipdups)`: iterate over the keys of the original
`d` in order, threading the mutated copy `d_flat`. -/
def dropSuffixes (d : Dict) (skipdups : Bool) : Dict :=
  d.foldl (fun dFlat e => dropSuffixStep d skipdups dFlat e.1) d

/-! ## Joined names (`parser.Parser.join_names`, lines 1539–1555) -/

/-- Characters that are ordinary in a Python regular expression.  The dot is
included deliberately: `join_names` uses `re.sub(r"^" + cp, "", n)` where
`cp` is a literal character prefix of `n`, so the dot's wildcard meaning
still matches exactly the literal prefix (the pattern has no quantifiers and
is anchored).  Any other regex metacharacter makes the substitution diverge
from literal prefix stripping (or raises `re.error`), so the model returns
`none` for those. -/
def regexPlainChar (c : Char) : Bool :=
  c.isAlphanum ∨ c = '.' ∨ c = '_' ∨ c = '-' ∨ c = '=' ∨ c = ' ' ∨
  c = '/' ∨ c = '@' ∨ c = ':' ∨ c = '~' ∨ c = '!' ∨ c = '%' ∨
  c = ';' ∨ c = '<' ∨ c = '>' ∨ c = ','

/-- Python `s.split(".")` on a character list. -/
def splitOnDot : List Char → List (List Char)
  | [] => [[]]
  | c :: rest =>
    if c = '.' then [] :: splitOnDot rest
    else
      match splitOnDot rest with
      | [] => [[c]]
      | h :: t => (c :: h) :: t

/-- Python `".".join(parts)` on character lists. -/
def interDot : List (List Char) → List Char
  | [] => []
  | [x] => x
  | x :: rest => x ++ '.' :: interDot rest

/-- `Parser.join_names(n1, n2)`.  The source computes
`[x[0] == x[1] for x in zip(n1, n2)].index(0)`, which raises `ValueError`
when one name is a character prefix of the other (in particular when the
names are equal): that raise is the first `none`.  The trimmed common prefix
`cp` is then stripped from both names with `re.sub(r"^" + cp, "", ·)`; the
model covers the regex-ordinary fragment and returns `none` when `cp`
contains a metacharacter. -/
def joinNames (n1 n2 : String) : Option String :=
  let l1 := n1.toList
  let l2 := n2.toList
  match (l1.zip l2).findIdx? (fun p => ¬ p.1 = p.2) with
  | none => none
  | some i =>
    let commonPre := l1.take i
    let cp := interDot (splitOnDot commonPre).dropLast
    if cp.all regexPlainChar then
      let p1 := l1.drop cp.length
      let p2 := l2.drop cp.length
      some (String.mk (if ¬ cp = [] then cp ++ p1 ++ p2 else p1 ++ '.' :: p2))
    else none

/-! ## Labels (`parser.Label`, lines 20–53) and filters (`filters.py`) -/

/-- `Label(name)` or `Label(var_name, name)`: `name` is the bare value,
`var` the optional variant axis. -/
structure MLabel where
  name : String
  var : Option String
deriving DecidableEq, Repr

/-- `Label.long_name`: `(axis=value)` when an axis is present, the bare
value otherwise. -/
def longName (l : MLabel) : String :=
  match l.var with
  | some v => "(" ++ v ++ "=" ++ l.name ++ ")"
  | none => l.name

/-- `Label.__eq__` (asymmetric by design, `parser.py` lines 38–41): a stored
context label `s` equals a probe label `p` by long name when the probe has an
axis and by bare value otherwise.  All comparisons in the filter code are
oriented `stored == probe` with the probe coming from the filter. -/
def leqB (s p : MLabel) : Bool :=
  match p.var with
  | some _ => longName s = longName p
  | none => s.name = p.name

/-- Membership of a probe label in a stored collection (`x in ctx_set`,
`x in descendant_labels`): label hashing is value-based, so set membership
reduces to existence of an equal stored element. -/
def memCtx (stored : List MLabel) (p : MLabel) : Bool :=
  stored.any (fun s => leqB s p)

/-- A parsed filter in disjunctive normal form:
OR-list of AND-lists of adjacency sequences of labels. -/
abbrev LFilter := List (List (List MLabel))

/-- The default label used for the (unreachable) out-of-bounds accesses of
the matching loop. -/
def dfltLabel : MLabel := ⟨"", none⟩

/-- The `while` loop of `_match_adjacent` (`filters.py` lines 219-232),
rewritten with the change of variables `s = i - k` (so `i = s + k`), where
`i` is the context cursor and `k` the count of matched labels; `s` is the
start position of the current candidate occurrence.  The source transitions
are preserved exactly:
* `i -= k - 1; k = 0` on a mismatch with `k > 0` becomes `(s+1, 0)`;
* a label match advances `k` and then `i += 1` keeps `s`;
* a non-match (only possible with `k = 0`) advances `s`.
The loop is driven by structural fuel so that it stays kernel-computable;
`matchAdjacent` supplies more fuel than the loop can consume, so the
fuel-exhausted branch is unreachable (`matchLoopF_stable` below). -/
def matchLoopF (block ctx ctxSet : List MLabel) : ℕ → ℕ → ℕ → ℕ := fun fuel s k =>
  match fuel with
  | 0 => k
  | fuel + 1 =>
    if s + k < ctx.length then
      if 0 < k ∧ ¬ leqB (ctx.getD (s + k) dfltLabel) (block.getD k dfltLabel) then
        -- `i -= k - 1; k = 0`: the cursor lands on `s + 1`, the continuation
        -- of the iteration is inlined with `k = 0`.
        if leqB (ctx.getD (s + 1) dfltLabel) (block.getD 0 dfltLabel) then
          if block.length ≤ 1 then 1
          else if ¬ memCtx ctxSet (block.getD 1 dfltLabel) then 1
          else matchLoopF block ctx ctxSet fuel (s + 1) 1
        else matchLoopF block ctx ctxSet fuel (s + 2) 0
      else
        if leqB (ctx.getD (s + k) dfltLabel) (block.getD k dfltLabel) then
          if block.length ≤ k + 1 then k + 1
          else if ¬ memCtx ctxSet (block.getD (k + 1) dfltLabel) then k + 1
          else matchLoopF block ctx ctxSet fuel s (k + 1)
        else matchLoopF block ctx ctxSet fuel (s + 1) k
    else k

/-- Fuel sufficient for `matchLoopF` from any start state. -/
def matchFuel (block ctx : List MLabel) : ℕ :=
  (ctx.length + 1) * (block.length + 1) + block.length + 1

/-- `filters._match_adjacent(block, ctx, ctx_set)` (lines 204–232): number
of labels of `block` matched adjacently in `ctx`.  The source indexes
`block[0]`/`block[1]` directly (an empty sequence would raise; the filter
parser never produces one), reads `ctx[-1]` for the boundary case, and finds
the first occurrence of `block[0]` with `ctx.index`. -/
def matchAdjacent (block ctx ctxSet : List MLabel) : ℕ :=
  match block with
  | [] => 0
  | b0 :: rest =>
    if ¬ memCtx ctxSet b0 then 0
    else
      match rest with
      | [] => 1
      | b1 :: _ =>
        if ¬ memCtx ctxSet b1 then
          match ctx.getLast? with
          | some c => if leqB c b0 then 1 else 0
          | none => 0
        else
          matchLoopF block ctx ctxSet (matchFuel block ctx)
            (ctx.findIdx (fun c => leqB c b0)) 0

/-- `Filter.match(ctx, ctx_set)` (lines 25–40): some OR-word has every
AND-sequence fully matched. -/
def filterMatch (f : LFilter) (ctx ctxSet : List MLabel) : Bool :=
  f.any (fun word => word.all (fun block => matchAdjacent block ctx ctxSet = block.length))

/-- `filters._might_match_adjacent` (lines 235–251): the unmatched tail of
the sequence must lie inside the descendant labels. -/
def mightMatchAdjacent (block ctx ctxSet descLabels : List MLabel) : Bool :=
  (block.drop (matchAdjacent block ctx ctxSet)).all (fun e => memCtx descLabels e)

/-- `Filter.might_match(ctx, ctx_set, descendant_labels)` (lines 42–61). -/
def filterMightMatch (f : LFilter) (ctx ctxSet descLabels : List MLabel) : Bool :=
  f.any (fun word => word.all (fun block => mightMatchAdjacent block ctx ctxSet descLabels))

/-- `OnlyFilter.is_irrelevant`: already matched in this tree. -/
def onlyIsIrrelevant (f : LFilter) (ctx ctxSet _descLabels : List MLabel) : Bool :=
  filterMatch f ctx ctxSet

/-- `OnlyFilter.requires_action`: impossible to match in this tree. -/
def onlyRequiresAction (f : LFilter) (ctx ctxSet descLabels : List MLabel) : Bool :=
  ¬ filterMightMatch f ctx ctxSet descLabels

/-- `OnlyFilter.might_pass` (lines 94–108): if any sequence progressed
strictly beyond the previously failed context, answer `might_match`,
otherwise `False`. -/
def onlyMightPass (f : LFilter) (fctx fctxSet ctx ctxSet descLabels : List MLabel) : Bool :=
  if f.any (fun word => word.any (fun block =>
      matchAdjacent block fctx fctxSet < matchAdjacent block ctx ctxSet)) then
    filterMightMatch f ctx ctxSet descLabels
  else false

/-- `NoFilter.is_irrelevant`: cannot possibly match. -/
def noIsIrrelevant (f : LFilter) (ctx ctxSet descLabels : List MLabel) : Bool :=
  ¬ filterMightMatch f ctx ctxSet descLabels

/-- `NoFilter.requires_action`: already matches. -/
def noRequiresAction (f : LFilter) (ctx ctxSet _descLabels : List MLabel) : Bool :=
  filterMatch f ctx ctxSet

/-- `NoFilter.might_pass` (lines 131–145). -/
def noMightPass (f : LFilter) (fctx fctxSet ctx ctxSet _descLabels : List MLabel) : Bool :=
  if f.any (fun word => word.any (fun block =>
      matchAdjacent block ctx ctxSet < matchAdjacent block fctx fctxSet)) then
    ¬ filterMatch f ctx ctxSet
  else false

/-! ## Variable substitution (`tokens._substitution`, lines 446–474)

The pattern is `re.compile(r"\$\{(.+?)\}")`: a match needs `${`, at least one
character (any character, `}` included), then the first following `}`; the
lazy group takes the shortest closing. -/

/-- Python `str(val)` for the values a dictionary can hold.  Lists and maps
render in Python literal syntax; element strings are shown without repr
escaping (the claims never exercise quotes inside values). -/
def pyStr (v : Value) : String :=
  match v with
  | .str s => s
  | .strList l =>
    "[" ++ String.intercalate ", " (l.map (fun s => "'" ++ s ++ "'")) ++ "]"
  | .strMap m =>
    "\x7b" ++
      String.intercalate ", " (m.map (fun e => "'" ++ e.1 ++ "': '" ++ e.2 ++ "'")) ++
    "\x7d"

/-- Split a character list at the first `}`: returns the part before it and
the part after it. -/
def splitAtBrace : List Char → Option (List Char × List Char)
  | [] => none
  | c :: rest =>
    if c = '\x7d' then some ([], rest)
    else (splitAtBrace rest).map (fun p => (c :: p.1, p.2))

/-- The lazy group of a match starting right after `${`: at least one
character, then everything up to the first subsequent `}`; returns the group
and the characters after the closing brace. -/
def braceSplit : List Char → Option (List Char × List Char)
  | [] => none
  | c :: rest => (splitAtBrace rest).map (fun p => (c :: p.1, p.2))

theorem splitAtBrace_shrinks : ∀ (l pre post : List Char),
    splitAtBrace l = some (pre, post) → post.length < l.length := by
  intro l
  induction l with
  | nil => intro pre post h; simp [splitAtBrace] at h
  | cons c rest ih =>
    intro pre post h
    simp only [splitAtBrace] at h
    by_cases hc : c = '\x7d'
    · rw [if_pos hc] at h
      obtain ⟨h1, h2⟩ := Prod.mk.injEq .. ▸ Option.some.injEq .. ▸ h
      subst h2
      simp
    · rw [if_neg hc] at h
      match hs : splitAtBrace rest with
      | none => rw [hs] at h; simp at h
      | some (p1, p2) =>
        rw [hs] at h
        simp only [Option.map_some'] at h
        obtain ⟨h1, h2⟩ := Prod.mk.injEq .. ▸ Option.some.injEq .. ▸ h
        subst h2
        have := ih p1 p2 hs
        simp only [List.length_cons]
        omega

theorem braceSplit_shrinks : ∀ (l g after : List Char),
    braceSplit l = some (g, after) → after.length < l.length + 1 := by
  intro l g after h
  cases l with
  | nil => simp [braceSplit] at h
  | cons c rest =>
    simp only [braceSplit] at h
    match hs : splitAtBrace rest with
    | none => rw [hs] at h; simp at h
    | some (p1, p2) =>
      rw [hs] at h
      simp only [Option.map_some'] at h
      obtain ⟨h1, h2⟩ := Prod.mk.injEq .. ▸ Option.some.injEq .. ▸ h
      subst h2
      have := splitAtBrace_shrinks rest p1 p2 hs
      simp only [List.length_cons]
      omega

/-- The scan of `_substitution`: copy characters; at each `${…}` match look
the group up in the flattened dictionary; on success splice `str(val)` in
and continue after the match; on a missed lookup (`KeyError`) stop and copy
the rest — including the failing `${…}` text — verbatim.  Driven by
structural fuel for kernel computability; `substLoop` supplies one more
than the list length, which is always sufficient since every step consumes
at least one character. -/
def substLoopF (dflat : Dict) : ℕ → List Char → List Char := fun fuel l =>
  match fuel with
  | 0 => l
  | fuel + 1 =>
    match l with
    | [] => []
    | '$' :: '\x7b' :: rest =>
      (match braceSplit rest with
      | some (group, after) =>
        (match dictLookup dflat (.plain (String.mk group)) with
        | some v => (pyStr v).toList ++ substLoopF dflat fuel after
        | none => '$' :: '\x7b' :: rest)
      | none => '$' :: '\x7b' :: rest)
    | c :: rest => c :: substLoopF dflat fuel rest

def substLoop (dflat : Dict) (l : List Char) : List Char :=
  substLoopF dflat (l.length + 1) l

/-- `tokens._substitution(value, d)`: fast-path when no `$` occurs, otherwise
substitute against the suffix-flattened view `drop_suffixes(d)`. -/
def pySubstitution (value : String) (d : Dict) : String :=
  if value.toList.any (fun c => c = '$') then
    String.mk (substLoop (dropSuffixes d true) value.toList)
  else value

/-! ## Operations (`tokens.py`) -/

/-- The `LOperators` family.  `applyPreDict` carries the ordered string
pre-dict the parser accumulates from side-effect-free `Set` lines;
`updateFileMap` carries the already-resolved short filename. -/
inductive Op where
  | set (name value : String)
  | append (name value : String)
  | prepend (name value : String)
  | lazySet (name value : String)
  | regexSet (name value : String)
  | regexAppend (name value : String)
  | regexPrepend (name value : String)
  | del (name : String)
  | applyPreDict (payload : List (String × String))
  | updateFileMap (shortname : String) (name : String) (dest : String)
  | suffix (value : String)
deriving DecidableEq, Repr

/-- `re.compile("%s$" % name).match(keystr)`: with `re.match` the pattern is
anchored at the start, and the appended `$` anchors it at the end, so for a
metacharacter-free pattern it is string equality.  Patterns containing regex
metacharacters are outside the modelled fragment (`none`). -/
def pyRegexFullMatch (pattern s : String) : Option Bool :=
  if pattern.toList.all regexPlainChar ∧ ¬ pattern.toList.any (fun c => c = '.') then
    some (pattern = s)
  else none

/-- `tokens.LSet.apply_to_dict` and friends.  Returns `none` where the
Python code raises (`+=` on a non-string value, a regex pattern outside the
modelled fragment, `d[dest]` of `update_file_map` holding a non-map). -/
def applyOp (op : Op) (d : Dict) : Option Dict :=
  match op with
  | .set name value =>
    if reservedKeys.contains name then some d
    else some (dictSet d (.plain name) (.str (pySubstitution value d)))
  | .append name value =>
    if reservedKeys.contains name then some d
    else
      match (dictLookup d (.plain name)).getD (.str "") with
      | .str s => some (dictSet d (.plain name) (.str (s ++ pySubstitution value d)))
      | _ => none
  | .prepend name value =>
    if reservedKeys.contains name then some d
    else
      match (dictLookup d (.plain name)).getD (.str "") with
      | .str s => some (dictSet d (.plain name) (.str (pySubstitution value d ++ s)))
      | _ => none
  | .lazySet name value =>
    if reservedKeys.contains name ∨ dictMem d (.plain name) then some d
    else some (dictSet d (.plain name) (.str (pySubstitution value d)))
  | .regexSet name value =>
    let v := pySubstitution value d
    d.foldlM (fun acc e =>
      (pyRegexFullMatch name (keyStr e.1)).map (fun m =>
        if !(keyReserved e.1) && m then dictSet acc e.1 (.str v) else acc)) d
  | .regexAppend name value =>
    let v := pySubstitution value d
    d.foldlM (fun acc e =>
      (pyRegexFullMatch name (keyStr e.1)).bind (fun m =>
        if !(keyReserved e.1) && m then
          match dictLookup acc e.1 with
          | some (.str s) => some (dictSet acc e.1 (.str (s ++ v)))
          | _ => none
        else some acc)) d
  | .regexPrepend name value =>
    let v := pySubstitution value d
    d.foldlM (fun acc e =>
      (pyRegexFullMatch name (keyStr e.1)).bind (fun m =>
        if !(keyReserved e.1) && m then
          match dictLookup acc e.1 with
          | some (.str s) => some (dictSet acc e.1 (.str (v ++ s)))
          | _ => none
        else some acc)) d
  | .del name =>
    d.foldlM (fun acc e =>
      (pyRegexFullMatch name (keyStr e.1)).map (fun m =>
        if !(keyReserved e.1) && m then dictErase acc e.1 else acc)) d
  | .applyPreDict payload =>
    some (payload.foldl (fun acc e => dictSet acc (.plain e.1) (.str e.2)) d)
  | .updateFileMap shortname name dest =>
    match dictLookup d (.plain dest) with
    | none => some (dictSet d (.plain dest) (.strMap [(shortname, name)]))
    | some (.strMap m) =>
      let m' :=
        match m.find? (fun e => e.1 = shortname) with
        | some old => m.map (fun e =>
            if e.1 = shortname then (shortname, name ++ "." ++ old.2) else e)
        | none => m ++ [(shortname, name)]
      some (dictSet d (.plain dest) (.strMap m'))
    | some _ => none
  | .suffix value =>
    some (d.foldl (fun acc e =>
      if keyReserved e.1 then acc
      else
        let newKey : Key :=
          match e.1 with
          | .plain s => .tup s [value]
          | .tup b sufs => .tup b (sufs ++ [value])
        let popped := (dictLookup acc e.1).getD e.2
        dictSet (dictErase acc e.1) newKey popped) d)

/-! ## Node content (`parser.py`)

A node's `content` is a list of `(filename, linenum, obj)` triples where
`obj` is an operation (`LOperators`), an `OnlyFilter`/`NoFilter`/
`JoinFilter`, or a `Condition`/`NegativeCondition` carrying nested content.

Python compares such triples with `==`: `NoOnlyFilter.__eq__` compares the
parsed filter only (ignoring the stored source line and, for conditions, the
nested content), and operations compare by object identity.  The model uses
structural equality, which coincides with the Python behaviour on
parser-generated trees, where each triple comes from a distinct source
location (operations never occur in recorded failure lists, so their
identity semantics is never exercised by `might_pass`). -/

mutual
inductive CObj where
  | op (o : Op)
  | fOnly (f : LFilter) (line : String)
  | fNo (f : LFilter) (line : String)
  | fJoin (f : LFilter) (line : String)
  | cond (f : LFilter) (line : String) (content : List CItem)
  | ncond (f : LFilter) (line : String) (content : List CItem)

inductive CItem where
  | mk (filename : String) (linenum : ℕ) (obj : CObj)
end

/-- The object of a content triple. -/
def CItem.obj : CItem → CObj
  | .mk _ _ o => o

mutual
/-- Structural equality of content objects (see the comment above). -/
def cobjEq : CObj → CObj → Bool
  | .op o1, .op o2 => o1 = o2
  | .fOnly f1 l1, .fOnly f2 l2 => f1 = f2 ∧ l1 = l2
  | .fNo f1 l1, .fNo f2 l2 => f1 = f2 ∧ l1 = l2
  | .fJoin f1 l1, .fJoin f2 l2 => f1 = f2 ∧ l1 = l2
  | .cond f1 l1 c1, .cond f2 l2 c2 => f1 = f2 ∧ l1 = l2 ∧ clistEq c1 c2
  | .ncond f1 l1 c1, .ncond f2 l2 c2 => f1 = f2 ∧ l1 = l2 ∧ clistEq c1 c2
  | _, _ => false

def citemEq : CItem → CItem → Bool
  | .mk fn1 ln1 o1, .mk fn2 ln2 o2 => fn1 = fn2 ∧ ln1 = ln2 ∧ cobjEq o1 o2

def clistEq : List CItem → List CItem → Bool
  | [], [] => true
  | a :: as1, b :: bs => citemEq a b ∧ clistEq as1 bs
  | _, _ => false
end

/-- `t in lst` for content triples. -/
def citemMem (lst : List CItem) (t : CItem) : Bool :=
  lst.any (fun e => citemEq t e)

/-- A recorded failure case `(ctx, ctx_set, new_external_filters,
new_internal_filters)` (`parser.py` lines 1372–1375).  The stored set is
kept as its underlying list; every use is membership, which coincides. -/
structure FailedCase where
  fctx : List MLabel
  fctxSet : List MLabel
  ext : List CItem
  int : List CItem

/-- The variant tree (`parser.Node`).  `dep` holds the parsed dependency
filter; `labels` is the label set of the subtree. -/
inductive MNode where
  | mk (varName : Option String) (name : List MLabel) (dep : LFilter)
      (content : List CItem) (children : List MNode) (labels : List MLabel)
      (appendToShortname : Bool) (isDefault : Bool)
      (failedCases : List FailedCase)

def MNode.varName : MNode → Option String
  | .mk v _ _ _ _ _ _ _ _ => v

def MNode.name : MNode → List MLabel
  | .mk _ n _ _ _ _ _ _ _ => n

def MNode.dep : MNode → LFilter
  | .mk _ _ d _ _ _ _ _ _ => d

def MNode.content : MNode → List CItem
  | .mk _ _ _ c _ _ _ _ _ => c

def MNode.children : MNode → List MNode
  | .mk _ _ _ _ ch _ _ _ _ => ch

def MNode.labels : MNode → List MLabel
  | .mk _ _ _ _ _ l _ _ _ => l

def MNode.appendToShortname : MNode → Bool
  | .mk _ _ _ _ _ _ a _ _ => a

def MNode.isDefault : MNode → Bool
  | .mk _ _ _ _ _ _ _ d _ => d

def MNode.failedCases : MNode → List FailedCase
  | .mk _ _ _ _ _ _ _ _ f => f

/-- Replace the content of a node. -/
def MNode.withContent : MNode → List CItem → MNode
  | .mk v n d _ ch l a df f, c => .mk v n d c ch l a df f

/-- Replace the failed-case deque of a node. -/
def MNode.withFailedCases : MNode → List FailedCase → MNode
  | .mk v n d c ch l a df _, f => .mk v n d c ch l a df f

/-- Replace the children of a node. -/
def MNode.withChildren : MNode → List MNode → MNode
  | .mk v n d c _ l a df f, ch => .mk v n d c ch l a df f

/-- `obj.requires_action(ctx, ctx_set, labels)` dispatched on the object's
class (see `process_content`, `parser.py` line 1309): `Condition` inherits
from `NoFilter` ("the condition matches"), `NegativeCondition` from
`OnlyFilter` ("the filter cannot match in this subtree"). -/
def objRequiresAction (o : CObj) (ctx ctxSet labels : List MLabel) : Bool :=
  match o with
  | .op _ => false
  | .fOnly f _ => onlyRequiresAction f ctx ctxSet labels
  | .fNo f _ => noRequiresAction f ctx ctxSet labels
  | .fJoin _ _ => false
  | .cond f _ _ => noRequiresAction f ctx ctxSet labels
  | .ncond f _ _ => onlyRequiresAction f ctx ctxSet labels

/-- `obj.is_irrelevant(ctx, ctx_set, labels)`. -/
def objIsIrrelevant (o : CObj) (ctx ctxSet labels : List MLabel) : Bool :=
  match o with
  | .op _ => false
  | .fOnly f _ => onlyIsIrrelevant f ctx ctxSet labels
  | .fNo f _ => noIsIrrelevant f ctx ctxSet labels
  | .fJoin _ _ => false
  | .cond f _ _ => noIsIrrelevant f ctx ctxSet labels
  | .ncond f _ _ => onlyIsIrrelevant f ctx ctxSet labels

/-- `obj.might_pass(failed_ctx, failed_ctx_set, ctx, ctx_set, labels)`.
Only filters and conditions ever occur in recorded failure lists; for an
operation (on which Python would raise) the model conservatively reports
"might pass", which never prunes. -/
def objMightPass (o : CObj) (fctx fctxSet ctx ctxSet labels : List MLabel) : Bool :=
  match o with
  | .op _ => true
  | .fOnly f _ => onlyMightPass f fctx fctxSet ctx ctxSet labels
  | .fNo f _ => noMightPass f fctx fctxSet ctx ctxSet labels
  | .fJoin _ _ => true
  | .cond f _ _ => noMightPass f fctx fctxSet ctx ctxSet labels
  | .ncond f _ _ => onlyMightPass f fctx fctxSet ctx ctxSet labels

mutual
/-- Structural size of content objects, used as fuel for `process_content`
(each recursive call strictly decreases it). -/
def cobjSize : CObj → ℕ
  | .op _ => 1
  | .fOnly _ _ => 1
  | .fNo _ _ => 1
  | .fJoin _ _ => 1
  | .cond _ _ c => 1 + clistSize c
  | .ncond _ _ c => 1 + clistSize c

def citemSize : CItem → ℕ
  | .mk _ _ o => 1 + cobjSize o

def clistSize : List CItem → ℕ
  | [] => 1
  | a :: as1 => citemSize a + clistSize as1
end

/-- Result of `process_content` (`parser.py` lines 1290-1345):
`(ok, new_content, inner_fails, direct_fails)`.
* `new_content` — the entries moved into `new_content` by this call;
* `inner_fails` — entries appended to `new_internal_filters` by nested
  conditional blocks (the source shares that list across calls);
* `direct_fails` — entries appended to the `failed_filters` argument.
`none` models the `AttributeError` Python raises when a `JoinFilter`
reaches this code (it never does for parser-built trees).
On success both failure lists are empty.  The relative order of the two
failure lists is immaterial: every later use is membership or an
all-quantified check.  Driven by structural fuel for kernel computability;
`processContent` supplies more than `clistSize`, which is sufficient since
every recursive call strictly decreases that size. -/
def processContentF (ctx ctxSet labels : List MLabel) :
    ℕ → List CItem → Option (Bool × List CItem × List CItem × List CItem) := fun fuel items =>
  match fuel with
  | 0 => none
  | fuel + 1 =>
    match items with
    | [] => some (true, [], [], [])
    | t :: rest =>
      match t with
      | .mk _ _ obj =>
        match obj with
        | .op _ =>
          (processContentF ctx ctxSet labels fuel rest).map
            (fun r => (r.1, t :: r.2.1, r.2.2.1, r.2.2.2))
        | .fJoin _ _ => none
        | .fOnly _ _ =>
          if objRequiresAction obj ctx ctxSet labels then
            some (false, [], [], [t])
          else if objIsIrrelevant obj ctx ctxSet labels then
            processContentF ctx ctxSet labels fuel rest
          else
            (processContentF ctx ctxSet labels fuel rest).map
              (fun r => (r.1, t :: r.2.1, r.2.2.1, r.2.2.2))
        | .fNo _ _ =>
          if objRequiresAction obj ctx ctxSet labels then
            some (false, [], [], [t])
          else if objIsIrrelevant obj ctx ctxSet labels then
            processContentF ctx ctxSet labels fuel rest
          else
            (processContentF ctx ctxSet labels fuel rest).map
              (fun r => (r.1, t :: r.2.1, r.2.2.1, r.2.2.2))
        | .cond _ _ inner =>
          if objRequiresAction obj ctx ctxSet labels then
            match processContentF ctx ctxSet labels fuel inner with
            | none => none
            | some (okInner, ncInner, innerInner, directInner) =>
              if okInner then
                (processContentF ctx ctxSet labels fuel rest).map
                  (fun r => (r.1, ncInner ++ r.2.1,
                    (innerInner ++ directInner) ++ r.2.2.1, r.2.2.2))
              else
                some (false, [], innerInner ++ directInner, [t])
          else if objIsIrrelevant obj ctx ctxSet labels then
            processContentF ctx ctxSet labels fuel rest
          else
            (processContentF ctx ctxSet labels fuel rest).map
              (fun r => (r.1, t :: r.2.1, r.2.2.1, r.2.2.2))
        | .ncond _ _ inner =>
          if objRequiresAction obj ctx ctxSet labels then
            match processContentF ctx ctxSet labels fuel inner with
            | none => none
            | some (okInner, ncInner, innerInner, directInner) =>
              if okInner then
                (processContentF ctx ctxSet labels fuel rest).map
                  (fun r => (r.1, ncInner ++ r.2.1,
                    (innerInner ++ directInner) ++ r.2.2.1, r.2.2.2))
              else
                some (false, [], innerInner ++ directInner, [t])
          else if objIsIrrelevant obj ctx ctxSet labels then
            processContentF ctx ctxSet labels fuel rest
          else
            (processContentF ctx ctxSet labels fuel rest).map
              (fun r => (r.1, t :: r.2.1, r.2.2.1, r.2.2.2))

/-- `process_content` with its always-sufficient fuel. -/
def processContent (ctx ctxSet labels : List MLabel) (items : List CItem) :
    Option (Bool × List CItem × List CItem × List CItem) :=
  processContentF ctx ctxSet labels (clistSize items + 1) items

/-! ## The enumerator (`parser.py`, `Parser.get_dicts*`, lines 1238–1607)

Python's recursive generators are modelled eagerly: a call returns the full
list of dictionaries it would yield, the updated tree (threading the
`failed_cases` mutations), and an `ok` flag that is `false` when the
generator would raise midway (the already-emitted prefix is kept) or when
the structural fuel runs out.  Fuel only bounds the recursion depth of the
model; every theorem quantifies over it or fixes a sufficient amount. -/

/-- Parser configuration relevant to enumeration. -/
structure PCfg where
  defaults : Bool
  expandDefaults : List String

/-- Result of one (fully consumed) generator call. -/
structure ERes where
  dicts : List Dict
  node : MNode
  ok : Bool

/-- `".".join(str(label) for label in ls)` over long names. -/
def dotJoin (ls : List MLabel) : String :=
  String.intercalate "." (ls.map longName)

/-- The dependency rendering of `get_dicts_plain` (lines 1382–1384): for
each AND-word of `node.dep` and each sequence in it, render `ctx + dd`
dotted (with the context before extension by the node's own name). -/
def renderDeps (ctx : List MLabel) (dep : LFilter) : List String :=
  dep.flatMap (fun d => d.map (fun dd => dotJoin (ctx ++ dd)))

/-- The local `might_pass(failed_ctx, failed_ctx_set, failed_external,
failed_internal)` of `get_dicts_plain` (lines 1347–1370), deciding whether a
recorded failure case may turn out differently on this visit. -/
def failedCaseMightPass (fc : FailedCase) (content nodeContent : List CItem)
    (ctx ctxSet labels : List MLabel) : Bool :=
  let allContent := content ++ nodeContent
  if (fc.ext ++ fc.int).any (fun t => ¬ citemMem allContent t) then true
  else if fc.ext.any (fun t =>
      ¬ objMightPass t.obj fc.fctx fc.fctxSet ctx ctxSet labels) then false
  else if fc.int.any (fun t => ¬ citemMem nodeContent t) then true
  else if fc.int.any (fun t =>
      ¬ objMightPass t.obj fc.fctx fc.fctxSet ctx ctxSet labels) then false
  else true

/-- `Parser.num_failed_cases`. -/
def numFailedCases : ℕ := 5

/-- `add_failed_case()` (lines 1372–1377): push at the front, evict at the
back when the deque exceeds five entries. -/
def addFailedCase (cases : List FailedCase) (fc : FailedCase) : List FailedCase :=
  let cs := fc :: cases
  if numFailedCases < cs.length then cs.dropLast else cs

/-- The leaf dictionary construction of `get_dicts_plain` (lines 1440–1450):
seed with `name`, `dep`, `shortname`, apply every operation of the processed
content in order (a filter object remaining at a leaf is Python's
`AttributeError`, modelled by `none`), then apply the suffix bounds. -/
def buildLeafDict (name : String) (dep : List String) (short : String)
    (newContent : List CItem) : Option Dict :=
  let d0 : Dict :=
    [(.plain "name", .str name), (.plain "dep", .strList dep),
     (.plain "shortname", .str short)]
  (newContent.foldlM (fun d (t : CItem) =>
    match t.obj with
    | .op o => applyOp o d
    | _ => (none : Option Dict)) d0).bind applySuffixBounds

/-- `d1.copy(); d.update(d2); join names and shortnames` — the merge of two
joined dictionaries (`join_filters`, lines 1596–1607).  `none` when
`join_names` raises or a name field is not a string. -/
def mergeJoin (d1 d2 : Dict) : Option Dict :=
  let d := d2.foldl (fun acc e => dictSet acc e.1 e.2) d1
  match dictLookup d1 (.plain "name"), dictLookup d2 (.plain "name"),
      dictLookup d1 (.plain "shortname"), dictLookup d2 (.plain "shortname") with
  | some (.str n1), some (.str n2), some (.str s1), some (.str s2) =>
    (joinNames n1 n2).bind (fun n =>
      (joinNames s1 s2).map (fun sn =>
        dictSet (dictSet d (.plain "name") (.str n)) (.plain "shortname") (.str sn)))
  | _, _, _, _ => none

/-- Does the triple hold a `JoinFilter`? -/
def isJoinItem (t : CItem) : Bool :=
  match t.obj with
  | .fJoin _ _ => true
  | _ => false

/-- The rewrite of `join` clauses into independent `Only` filters
(`get_dicts_joined`, lines 1526–1531): one `OnlyFilter([word], …)` per
OR-word of every join, keeping the join's source position.  The stored
`line` string (`str(word)`) is never compared; the model stores `""`. -/
def joinsToOnlys (joins : List CItem) : List CItem :=
  joins.flatMap (fun t =>
    match t with
    | .mk fn ln obj =>
      match obj with
      | .fJoin f _ => f.map (fun word => CItem.mk fn ln (.fOnly [word] ""))
      | _ => [])

mutual

/-- `Parser.get_dicts_plain` (lines 1264–1450). -/
def getDictsPlain (fuel : ℕ) (cfg : PCfg) (node : MNode) (ctx : List MLabel)
    (content : List CItem) (shortname : List MLabel) (dep : List String) : ERes :=
  match fuel with
  | 0 => ⟨[], node, false⟩
  | fuel + 1 =>
    let dep1 := dep ++ renderDeps ctx node.dep
    let ctx1 := ctx ++ node.name
    let labels := node.labels
    let name := dotJoin ctx1
    -- check previously failed cases (lines 1395–1408); the first entry that
    -- cannot pass prunes the visit and moves to the front of the deque
    match node.failedCases.findIdx? (fun fc =>
        ¬ failedCaseMightPass fc content node.content ctx1 ctx1 labels) with
    | some i =>
      let fc := node.failedCases.getD i ⟨[], [], [], []⟩
      ⟨[], node.withFailedCases (fc :: node.failedCases.eraseIdx i), true⟩
    | none =>
      match processContent ctx1 ctx1 labels node.content with
      | none => ⟨[], node, false⟩
      | some (okInt, ncInt, innerInt, directInt) =>
        if ¬ okInt then
          let fc : FailedCase := ⟨ctx1, ctx1, [], innerInt ++ directInt⟩
          ⟨[], node.withFailedCases (addFailedCase node.failedCases fc), true⟩
        else
          match processContent ctx1 ctx1 labels content with
          | none => ⟨[], node, false⟩
          | some (okExt, ncExt, innerExt, directExt) =>
            if ¬ okExt then
              let fc : FailedCase := ⟨ctx1, ctx1, directExt, innerExt⟩
              ⟨[], node.withFailedCases (addFailedCase node.failedCases fc), true⟩
            else
              let newContent := ncInt ++ ncExt
              let shortname1 :=
                shortname ++ (if node.appendToShortname then node.name else [])
              let stopDefaults : Bool :=
                cfg.defaults &&
                  (match node.varName with
                  | none => true
                  | some v => !(decide (v ∈ cfg.expandDefaults)))
              let r := runChildren fuel cfg ctx1 newContent shortname1 dep1
                stopDefaults node.children 0
              let node1 := node.withChildren r.2.1
              if ¬ r.2.2 then ⟨r.1, node1, false⟩
              else if node.children.isEmpty then
                match buildLeafDict name dep1
                    (String.intercalate "." (shortname1.map (fun sn => sn.name)))
                    newContent with
                | some d => ⟨[d], node1, true⟩
                | none => ⟨[], node1, false⟩
              else ⟨r.1, node1, true⟩
termination_by structural fuel

/-- The children loop of `get_dicts_plain` (lines 1425–1438) with the
defaults-mode short-circuit: stop after a default child once at least one
dictionary has been produced (the counter accumulates across children). -/
def runChildren (fuel : ℕ) (cfg : PCfg) (ctx : List MLabel)
    (content : List CItem) (shortname : List MLabel) (dep : List String)
    (stopDefaults : Bool) (children : List MNode) (count : ℕ) :
    List Dict × List MNode × Bool :=
  match fuel with
  | 0 => ([], children, false)
  | fuel + 1 =>
    match children with
    | [] => ([], [], true)
    | n :: rest =>
      let r := getDictsJoined fuel cfg n ctx content shortname dep true false
      if ¬ r.ok then (r.dicts, r.node :: rest, false)
      else
        let count1 := count + r.dicts.length
        if stopDefaults && n.isDefault && decide (0 < count1) then
          (r.dicts, r.node :: rest, true)
        else
          let rr := runChildren fuel cfg ctx content shortname dep
            stopDefaults rest count1
          (r.dicts ++ rr.1, r.node :: rr.2.1, rr.2.2)
termination_by structural fuel

/-- `Parser.get_dicts_joined` (lines 1452–1537).  `parentGen` is the value
of `self.parent_generator` seen by this call; the source clears the global
flag, so every nested call receives `false`. -/
def getDictsJoined (fuel : ℕ) (cfg : PCfg) (node : MNode) (ctx : List MLabel)
    (content : List CItem) (shortname : List MLabel) (dep : List String)
    (skipdups : Bool) (parentGen : Bool) : ERes :=
  match fuel with
  | 0 => ⟨[], node, false⟩
  | fuel + 1 =>
    let joins := node.content.filter isJoinItem
    let newContent := node.content.filter (fun t => ¬ isJoinItem t)
    if joins.isEmpty then
      let r := getDictsPlain fuel cfg node ctx content shortname dep
      ⟨if parentGen then r.dicts.map (fun d => dropSuffixes d skipdups) else r.dicts,
        r.node, r.ok⟩
    else
      let onlys := joinsToOnlys joins
      let node2 := node.withContent newContent
      let r := joinFilters fuel cfg onlys node2 ctx content shortname dep
      -- `node.content = old_content[:]` (line 1537)
      ⟨if parentGen then r.dicts.map (fun d => dropSuffixes d skipdups) else r.dicts,
        r.node.withContent node.content, r.ok⟩
termination_by structural fuel

/-- `Parser.join_filters` (lines 1557–1607): select the first remaining
`Only` filter, enumerate with it appended to the node's content, and
cross-multiply with the recursive enumeration of the rest. -/
def joinFilters (fuel : ℕ) (cfg : PCfg) (onlys : List CItem) (node : MNode)
    (ctx : List MLabel) (content : List CItem) (shortname : List MLabel)
    (dep : List String) : ERes :=
  match fuel with
  | 0 => ⟨[], node, false⟩
  | fuel + 1 =>
    let contentOrig := node.content
    let node1 := node.withContent (contentOrig ++ onlys.take 1)
    match onlys.drop 1 with
    | [] => getDictsPlain fuel cfg node1 ctx content shortname dep
    | remains =>
      let r1 := getDictsPlain fuel cfg node1 ctx content shortname dep
      -- the products of the dictionaries already yielded are emitted even
      -- when the plain enumeration then stops with an error
      let rr := joinProducts fuel cfg remains (r1.node.withContent contentOrig)
        ctx content shortname dep contentOrig r1.dicts
      if ¬ r1.ok then ⟨rr.dicts, rr.node, false⟩ else rr
termination_by structural fuel

/-- The `for d1 in … : node.content = content_orig; for d2 in
join_filters(remains, …)` product loop of `join_filters`; the content is
reset before every inner call, and a failing `join_names` aborts keeping the
dictionaries already produced. -/
def joinProducts (fuel : ℕ) (cfg : PCfg) (remains : List CItem) (node : MNode)
    (ctx : List MLabel) (content : List CItem) (shortname : List MLabel)
    (dep : List String) (contentOrig : List CItem) (d1s : List Dict) :
    ERes :=
  match fuel with
  | 0 => ⟨[], node, false⟩
  | fuel + 1 =>
    match d1s with
    | [] => ⟨[], node, true⟩
    | d1 :: d1rest =>
      let r2 := joinFilters fuel cfg remains (node.withContent contentOrig)
        ctx content shortname dep
      match d1merged : r2.dicts.foldlM (fun acc d2 =>
          (mergeJoin d1 d2).map (fun d => acc ++ [d])) ([] : List Dict) with
      | none =>
        -- a partial prefix of merged dictionaries would have been yielded
        -- before `join_names` raises; compute it explicitly
        let pre := (r2.dicts.takeWhile (fun d2 => (mergeJoin d1 d2).isSome)).filterMap
          (fun d2 => mergeJoin d1 d2)
        ⟨pre, r2.node, false⟩
      | some merged =>
        if ¬ r2.ok then ⟨merged, r2.node, false⟩
        else
          let rr := joinProducts fuel cfg remains r2.node ctx content shortname dep
            contentOrig d1rest
          ⟨merged ++ rr.dicts, rr.node, rr.ok⟩
termination_by structural fuel

end

/-- The parser state seen by `get_dicts`: the tree and the one-shot
`parent_generator` flag (`Parser.__init__`, lines 577–583). -/
structure PState where
  node : MNode
  parentGen : Bool

/-- `Parser.get_dicts(skipdups=True)` consumed to a list: runs the joined
enumeration from the root with empty context and clears the
`parent_generator` flag (which the source never sets back). -/
def getDicts (fuel : ℕ) (cfg : PCfg) (st : PState) (skipdups : Bool) :
    ERes × PState :=
  let r := getDictsJoined fuel cfg st.node [] [] [] [] skipdups st.parentGen
  (r, ⟨r.node, false⟩)

/-! ## Specification-side definitions

The following definitions are written from the wording of the claims (not
from the source); they exist to be compared with the source-translated
functions above. -/

/-- C4, spec side: the longest common character prefix of two names. -/
def specCommonPre (l1 l2 : List Char) : List Char :=
  ((l1.zip l2).takeWhile (fun p => p.1 = p.2)).map (fun p => p.1)

/-- C4, spec side: trim a prefix back to (just before) its last dot;
without a dot the result is empty. -/
def specTrimToLastDot (l : List Char) : List Char :=
  ((l.reverse.dropWhile (fun c => ¬ c = '.')).drop 1).reverse

/-- C4, spec side: the claimed merged name — common prefix trimmed to the
last dot, then `prefix ++ suffix1 ++ suffix2`, or `suffix1 ++ "." ++
suffix2` when the trimmed prefix is empty.  The claim asserts this as a
total function of the two names. -/
def specJoinedName (n1 n2 : String) : String :=
  let pre := specTrimToLastDot (specCommonPre n1.toList n2.toList)
  let s1 := n1.toList.drop pre.length
  let s2 := n2.toList.drop pre.length
  String.mk (if ¬ pre = [] then pre ++ s1 ++ s2 else s1 ++ '.' :: s2)

/-- C3, spec side: the claimed new key for a tuple key `(base, sufs)` —
plain `base` when `skipdups` holds and every key sharing the base has the
same value, otherwise `base` with the reversed suffix chain appended. -/
def specC3NewKey (d : Dict) (skipdups : Bool) (base : String) (sufs : List String) : Key :=
  if skipdups ∧ d.all (fun e => ¬ genName e.1 = base ∨ dictLookup d (.tup base sufs) = some e.2) then
    .plain base
  else
    .plain (base ++ String.join sufs.reverse)

/-- C3, spec side: flattening with exactly the renaming the claim states —
every non-reserved tuple key is renamed by `specC3NewKey` (there is no
other rule). -/
def specC3Flatten (d : Dict) (skipdups : Bool) : Dict :=
  d.foldl (fun dFlat e =>
    match e.1 with
    | .plain _ => dFlat
    | .tup base sufs =>
      if keyReserved e.1 then dFlat
      else dictSet (dictErase dFlat e.1) (specC3NewKey d skipdups base sufs) e.2) d

/-- C3, amended: the rule the code actually implements adds a prior case —
under `skipdups`, a tuple key whose plain base key exists with the same
value is simply dropped (merged into the base), regardless of the other
keys sharing the base. -/
def specC3AmendedFlatten (d : Dict) (skipdups : Bool) : Dict :=
  d.foldl (fun dFlat e =>
    match e.1 with
    | .plain _ => dFlat
    | .tup base sufs =>
      if keyReserved e.1 then dFlat
      else if skipdups ∧ dictMem d (.plain base) ∧
          dictLookup d (.plain base) = dictLookup d (.tup base sufs) then
        dictErase dFlat e.1
      else dictSet (dictErase dFlat e.1) (specC3NewKey d skipdups base sufs) e.2) d

/-- C5, spec side: does the sequence occur contiguously at position `i` of
the context (label comparison oriented stored-vs-probe as everywhere)? -/
def matchesAt (block ctx : List MLabel) (i : ℕ) : Bool :=
  decide (i + block.length ≤ ctx.length) &&
  (List.range block.length).all (fun j =>
    leqB (ctx.getD (i + j) dfltLabel) (block.getD j dfltLabel))

/-- C5, spec side: the claimed sequence matching — start at the *first*
occurrence of `l₀` and require the following labels at consecutive
positions, except that when only `l₀` is in the context set and none of the
later labels are, the sequence matches exactly when `l₀` is the last
context element. -/
def specC5SeqMatch (block ctx ctxSet : List MLabel) : Bool :=
  match block with
  | [] => true
  | b0 :: rest =>
    if ¬ memCtx ctxSet b0 then false
    else if ¬ rest = [] ∧ rest.all (fun b => ¬ memCtx ctxSet b) then
      match ctx.getLast? with
      | some c => leqB c b0
      | none => false
    else matchesAt block ctx (ctx.findIdx (fun c => leqB c b0))

/-- C5, spec side: the claimed `match` — some disjunct with every conjunct
sequence matched per `specC5SeqMatch`. -/
def specC5Match (f : LFilter) (ctx ctxSet : List MLabel) : Bool :=
  f.any (fun word => word.all (fun block => specC5SeqMatch block ctx ctxSet))

/-- C6, spec side: the first `${name}` match in a character list, returned
as the split `(before, group, after)` — the text before the match, the lazy
group, and the text after the closing brace (`match.start()`/`match.end()`
rendered as list segments). -/
def specFindMatch : List Char → Option (List Char × List Char × List Char)
  | [] => none
  | '$' :: '\x7b' :: rest =>
    (match braceSplit rest with
    | some (g, after) => some ([], g, after)
    | none => none)
  | c :: rest =>
    (specFindMatch rest).map (fun m => (c :: m.1, m.2.1, m.2.2))

theorem specFindMatch_shrinks : ∀ (l pre g after : List Char),
    specFindMatch l = some (pre, g, after) → after.length < l.length := by
  intro l
  induction l using specFindMatch.induct with
  | case1 =>
    intro pre g after h
    simp [specFindMatch] at h
  | case2 rest g2 after2 hb =>
    intro pre g after h
    simp only [specFindMatch, hb] at h
    obtain ⟨h1, h2, h3⟩ := by simpa using h
    subst h3
    have hlen := braceSplit_shrinks rest g2 after2 hb
    simp only [List.length_cons]
    omega
  | case3 rest hb =>
    intro pre g after h
    simp only [specFindMatch, hb] at h
    exact absurd h (by simp)
  | case4 c rest hne ih =>
    intro pre g after h
    rw [specFindMatch.eq_def] at h
    split at h
    · simp at h
    · rename_i rest1 heq
      injection heq with hc hr
      exact (hne rest1 hc hr).elim
    · rename_i c1 rest1 hx1 heq
      injection heq with hc hr
      subst hc
      subst hr
      rcases hm : specFindMatch rest with _ | ⟨p1, g1, a1⟩
      · rw [hm] at h; simp at h
      · rw [hm] at h
        obtain ⟨h1, h2, h3⟩ := by simpa using h
        subst h3
        have := ih p1 g1 a1 hm
        simp only [List.length_cons]
        omega

/-- C6, spec side, the claim as stated: substitute each match; on the first
failed lookup abort, keeping the processed text before the failing match
and the remainder *after* the failing match (the match's own text is not
re-emitted).  Fuel-driven like `substLoopF`. -/
def specC6LoopF (dflat : Dict) : ℕ → List Char → List Char := fun fuel l =>
  match fuel with
  | 0 => l
  | fuel + 1 =>
    match specFindMatch l with
    | none => l
    | some (pre, g, after) =>
      match dictLookup dflat (.plain (String.mk g)) with
      | some v => pre ++ (pyStr v).toList ++ specC6LoopF dflat fuel after
      | none => pre ++ after

/-- C6, the claim as stated, at the `_substitution` entry point. -/
def specC6Subst (value : String) (d : Dict) : String :=
  if value.toList.any (fun c => c = '$') then
    String.mk (specC6LoopF (dropSuffixes d true) (value.length + 1) value.toList)
  else value

/-- C6, amended: on the first failed lookup the remainder from the *end of
the last successful match* — the text before the failing match, the failing
`${name}` itself, and everything after — is copied verbatim. -/
def specC6AmendedLoopF (dflat : Dict) : ℕ → List Char → List Char := fun fuel l =>
  match fuel with
  | 0 => l
  | fuel + 1 =>
    match specFindMatch l with
    | none => l
    | some (pre, g, after) =>
      match dictLookup dflat (.plain (String.mk g)) with
      | some v => pre ++ (pyStr v).toList ++ specC6AmendedLoopF dflat fuel after
      | none => l

/-- C6, amended, at the `_substitution` entry point. -/
def specC6AmendedSubst (value : String) (d : Dict) : String :=
  if value.toList.any (fun c => c = '$') then
    String.mk (specC6AmendedLoopF (dropSuffixes d true) (value.length + 1) value.toList)
  else value

/-! ## Concrete example trees

Trees as the parser builds them for small configurations (hand-translated
from the parsing rules of `parser.Parser._parse`; cross-checked against the
expected outputs in `spec.md` §8 and `tests/test_parser.py`). -/

/-- Unique keys (Python dicts cannot hold duplicates). -/
def keysUnique (d : Dict) : Prop :=
  (d.map (fun e => e.1)).Nodup

/-- The tree parsed from the two-line configuration
`foo = x` / `suffix _x`: a childless root whose content is the flushed
pre-dict followed by the suffix operation. -/
def exC1Tree : MNode :=
  .mk none [] []
    [.mk "<string>" 2 (.op (.applyPreDict [("foo", "x")])),
     .mk "<string>" 2 (.op (.suffix "_x"))]
    [] [] true false []

/-- Default parser configuration (`defaults=False`). -/
def cfgDefault : PCfg := ⟨false, []⟩

/-- First full consumption of `get_dicts()` on `exC1Tree`. -/
def exC1Run1 : ERes × PState := getDicts 20 cfgDefault ⟨exC1Tree, true⟩ true

/-- Second full consumption of `get_dicts()` against the same parser. -/
def exC1Run2 : ERes × PState := getDicts 20 cfgDefault exC1Run1.2 true

/-- The tree parsed from the empty configuration: a bare root node. -/
def exC2Tree : MNode := .mk none [] [] [] [] [] true false []

/-- C3 counterexample dictionary: a plain base key and two suffixed
variants of it, one agreeing and one disagreeing in value. -/
def exC3Dict : Dict :=
  [(.plain "a", .str "1"), (.tup "a" ["_x"], .str "1"), (.tup "a" ["_y"], .str "2")]

/-- C6 counterexample value and dictionary: the second substitution fails. -/
def exC6Value : String := "a${x}b${y}c"

def exC6Dict : Dict := [(.plain "x", .str "1")]

/-- C7 counterexample dictionary: a `_max`-suffixed key whose bare key is
absent. -/
def exC7Dict : Dict := [(.plain "x_max", .str "5")]

/-- The body of the `drop_suffixes` fold as a named step function (used to
relate the fold to its specification). -/
def c3CodeStep (d : Dict) (skipdups : Bool) (acc : Dict) (e : Key × Value) : Dict :=
  dropSuffixStep d skipdups acc e.1

/-- The body of the amended-specification fold as a named step function. -/
def c3SpecStep (d : Dict) (skipdups : Bool) (acc : Dict) (e : Key × Value) : Dict :=
  match e.1 with
  | .plain _ => acc
  | .tup base sufs =>
    if keyReserved e.1 then acc
    else if skipdups ∧ dictMem d (.plain base) ∧
        dictLookup d (.plain base) = dictLookup d (.tup base sufs) then
      dictErase acc e.1
    else dictSet (dictErase acc e.1) (specC3NewKey d skipdups base sufs) e.2

/-! ## Typing of emitted-dictionary values (used by the C2 invariant) -/

/-- Is the value a Python string? -/
def isStr : Value → Bool
  | .str _ => true
  | _ => false

/-- Is the value a list of strings? -/
def isStrList : Value → Bool
  | .strList _ => true
  | _ => false

/-- Is the value a string-to-string map? -/
def isStrMap : Value → Bool
  | .strMap _ => true
  | _ => false

/-- The typing discipline of one dictionary entry: `dep` holds a list of
strings (or a string once user post-processing overwrote it), the two map
keys hold maps (or, similarly, strings), and every other key — `name` and
`shortname` included — holds a string. -/
def keyVal (k : Key) (v : Value) : Prop :=
  if k = .plain "dep" then (isStrList v || isStr v) = true
  else if k = .plain "_name_map_file" ∨ k = .plain "_short_name_map_file" then
    (isStrMap v || isStr v) = true
  else isStr v = true

/-- The C2 invariant on a dictionary: `name`, `shortname` and `dep` are
present and every entry obeys the typing discipline. -/
def dictTyped (d : Dict) : Prop :=
  dictMem d (.plain "name") = true ∧ dictMem d (.plain "shortname") = true ∧
  dictMem d (.plain "dep") = true ∧ ∀ e ∈ d, keyVal e.1 e.2

/-- The operations the parser actually attaches to nodes: `update_file_map`
writes only to the two map-file destinations (the parser creates these
operations itself, for exactly those keys). -/
def opWf : Op → Prop
  | .updateFileMap _ _ dest =>
    dest = "_name_map_file" ∨ dest = "_short_name_map_file"
  | _ => True

mutual
/-- Well-formedness of the operations of a content triple (conditions
recursively). -/
def citemOpsWf : CItem → Prop
  | .mk _ _ (.op o) => opWf o
  | .mk _ _ (.cond _ _ inner) => clistOpsWf inner
  | .mk _ _ (.ncond _ _ inner) => clistOpsWf inner
  | .mk _ _ _ => True

def clistOpsWf : List CItem → Prop
  | [] => True
  | t :: rest => citemOpsWf t ∧ clistOpsWf rest
end

mutual
/-- Well-formedness of every operation in a tree. -/
def treeOpsWf : MNode → Prop
  | .mk _ _ _ c ch _ _ _ _ => clistOpsWf c ∧ treeListOpsWf ch

def treeListOpsWf : List MNode → Prop
  | [] => True
  | n :: rest => treeOpsWf n ∧ treeListOpsWf rest
end

/-! ## Cache soundness (used by the C9 transparency proof) -/

/-- Would this content triple, scanned by `process_content` at the given
context, fail on its own?  `Only`/`No` filters fail when they require
action; conditions fail when they require action and their nested content
fails; operations and joins never fail by themselves. -/
def itemFails (t : CItem) (ctx ctxSet labels : List MLabel) : Bool :=
  match t with
  | .mk _ _ obj =>
    match obj with
    | .fOnly _ _ => objRequiresAction obj ctx ctxSet labels
    | .fNo _ _ => objRequiresAction obj ctx ctxSet labels
    | .cond _ _ inner => objRequiresAction obj ctx ctxSet labels &&
        (match processContent ctx ctxSet labels inner with
         | some r => !r.1
         | none => false)
    | .ncond _ _ inner => objRequiresAction obj ctx ctxSet labels &&
        (match processContent ctx ctxSet labels inner with
         | some r => !r.1
         | none => false)
    | _ => false

mutual
/-- Clear every `failed_cases` deque of a tree. -/
def clearFC : MNode → MNode
  | .mk v n d c ch l a df _ => .mk v n d c (clearFCList ch) l a df []

def clearFCList : List MNode → List MNode
  | [] => []
  | n :: rest => clearFC n :: clearFCList rest
end

mutual
/-- No `join` clause nested inside this triple (conditions recursively). -/
def itemNoNestJoin : CItem → Bool
  | .mk _ _ (.cond _ _ inner) => listNoJoin inner
  | .mk _ _ (.ncond _ _ inner) => listNoJoin inner
  | .mk _ _ _ => true

/-- No `join` clause at the top level nor nested inside conditions. -/
def listNoJoin : List CItem → Bool
  | [] => true
  | t :: rest => !(isJoinItem t) && itemNoNestJoin t && listNoJoin rest
end

mutual
/-- No `join` clause nested inside any conditional block of the tree
(top-level joins of node contents are allowed: the enumerator rewrites
them). -/
def treeNoNestJoin : MNode → Bool
  | .mk _ _ _ c ch _ _ _ _ => c.all itemNoNestJoin && treeListNoNestJoin ch

def treeListNoNestJoin : List MNode → Bool
  | [] => true
  | n :: rest => treeNoNestJoin n && treeListNoNestJoin rest
end

mutual
/-- Soundness of the recorded failure cases of a tree enumerated from
context `ctx`: every recorded triple genuinely fails at the node's own
context.  This is the invariant that makes the failed-case pruning of
`get_dicts_plain` behave as a transparent cache. -/
def soundNode : MNode → List MLabel → Prop
  | .mk v n d c ch l a df fcs, ctx =>
    (∀ fc ∈ fcs, ∀ t ∈ fc.ext ++ fc.int,
      itemFails t (ctx ++ n) (ctx ++ n) l = true) ∧
    soundChildren ch (ctx ++ n)

def soundChildren : List MNode → List MLabel → Prop
  | [], _ => True
  | n :: rest, ctx => soundNode n ctx ∧ soundChildren rest ctx
end

mutual
/-- Every `failed_cases` deque of the tree holds at most five entries. -/
def boundedFC : MNode → Prop
  | .mk _ _ _ _ ch _ _ _ fcs => fcs.length ≤ numFailedCases ∧ boundedFCList ch

def boundedFCList : List MNode → Prop
  | [] => True
  | n :: rest => boundedFC n ∧ boundedFCList rest
end


mutual
/-- Structural size of a variant tree, driving strong inductions over
`MNode`. -/
def mnodeSize : MNode → ℕ
  | .mk _ _ _ _ ch _ _ _ _ => 1 + mlistSize ch

def mlistSize : List MNode → ℕ
  | [] => 1
  | n :: rest => mnodeSize n + mlistSize rest
end

/-- Cache-bisimulation relation between the results of enumerating the same
tree position with two failed-case caches: same emitted dictionaries, same
generator outcome, identical trees after clearing every deque, sound and
bounded caches, contents restored, and no nested joins below the resulting
children. -/
def BR (ctx : List MLabel) (c1 c2 : List CItem) (r1 r2 : ERes) : Prop :=
  r1.dicts = r2.dicts ∧ r1.ok = r2.ok ∧ clearFC r1.node = clearFC r2.node ∧
  soundNode r1.node ctx ∧ soundNode r2.node ctx ∧
  boundedFC r1.node ∧ boundedFC r2.node ∧
  r1.node.content = c1 ∧ r2.node.content = c2 ∧
  treeListNoNestJoin r1.node.children = true ∧
  treeListNoNestJoin r2.node.children = true

/-- `BR` for the children loop, whose result is a `(dicts, children, ok)`
triple. -/
def BRC (ctx : List MLabel) (r1 r2 : List Dict × List MNode × Bool) : Prop :=
  r1.1 = r2.1 ∧ r1.2.2 = r2.2.2 ∧ clearFCList r1.2.1 = clearFCList r2.2.1 ∧
  soundChildren r1.2.1 ctx ∧ soundChildren r2.2.1 ctx ∧
  boundedFCList r1.2.1 ∧ boundedFCList r2.2.1 ∧
  treeListNoNestJoin r1.2.1 = true ∧ treeListNoNestJoin r2.2.1 = true

/-- `BR` for `join_filters`/`join_products` results, whose node contents are
rewritten by the caller before any further use. -/
def BRJ (ctx : List MLabel) (r1 r2 : ERes) : Prop :=
  r1.dicts = r2.dicts ∧ r1.ok = r2.ok ∧ clearFC r1.node = clearFC r2.node ∧
  soundNode r1.node ctx ∧ soundNode r2.node ctx ∧
  boundedFC r1.node ∧ boundedFC r2.node ∧
  treeListNoNestJoin r1.node.children = true ∧
  treeListNoNestJoin r2.node.children = true

/-- The cache-transparency statement for `get_dicts_plain` at a given fuel. -/
def PlainBisimAt (fuel : ℕ) : Prop :=
  ∀ (cfg : PCfg) (n1 n2 : MNode) (ctx : List MLabel) (content : List CItem)
    (shortname : List MLabel) (dep : List String),
    clearFC n1 = clearFC n2 → soundNode n1 ctx → soundNode n2 ctx →
    boundedFC n1 → boundedFC n2 →
    listNoJoin n1.content = true →
    treeListNoNestJoin n1.children = true →
    treeListNoNestJoin n2.children = true →
    listNoJoin content = true →
    BR ctx n1.content n2.content
      (getDictsPlain fuel cfg n1 ctx content shortname dep)
      (getDictsPlain fuel cfg n2 ctx content shortname dep)

/-- The cache-transparency statement for the children loop at a given fuel. -/
def ChildrenBisimAt (fuel : ℕ) : Prop :=
  ∀ (cfg : PCfg) (ctx : List MLabel) (content : List CItem)
    (shortname : List MLabel) (dep : List String) (sd : Bool)
    (ch1 ch2 : List MNode) (count : ℕ),
    clearFCList ch1 = clearFCList ch2 →
    soundChildren ch1 ctx → soundChildren ch2 ctx →
    boundedFCList ch1 → boundedFCList ch2 →
    treeListNoNestJoin ch1 = true → treeListNoNestJoin ch2 = true →
    listNoJoin content = true →
    BRC ctx
      (runChildren fuel cfg ctx content shortname dep sd ch1 count)
      (runChildren fuel cfg ctx content shortname dep sd ch2 count)

/-- The cache-transparency statement for `get_dicts_joined` at a given fuel. -/
def JoinedBisimAt (fuel : ℕ) : Prop :=
  ∀ (cfg : PCfg) (n1 n2 : MNode) (ctx : List MLabel) (content : List CItem)
    (shortname : List MLabel) (dep : List String) (sk pg : Bool),
    clearFC n1 = clearFC n2 → soundNode n1 ctx → soundNode n2 ctx →
    boundedFC n1 → boundedFC n2 →
    treeNoNestJoin n1 = true → treeNoNestJoin n2 = true →
    listNoJoin content = true →
    BR ctx n1.content n2.content
      (getDictsJoined fuel cfg n1 ctx content shortname dep sk pg)
      (getDictsJoined fuel cfg n2 ctx content shortname dep sk pg)

/-- The cache-transparency statement for `join_filters` at a given fuel. -/
def FiltersBisimAt (fuel : ℕ) : Prop :=
  ∀ (cfg : PCfg) (onlys : List CItem) (n1 n2 : MNode) (ctx : List MLabel)
    (content : List CItem) (shortname : List MLabel) (dep : List String),
    clearFC n1 = clearFC n2 → soundNode n1 ctx → soundNode n2 ctx →
    boundedFC n1 → boundedFC n2 →
    listNoJoin n1.content = true →
    treeListNoNestJoin n1.children = true →
    treeListNoNestJoin n2.children = true →
    listNoJoin content = true → listNoJoin onlys = true →
    BRJ ctx
      (joinFilters fuel cfg onlys n1 ctx content shortname dep)
      (joinFilters fuel cfg onlys n2 ctx content shortname dep)

/-- The cache-transparency statement for the join product loop at a given
fuel. -/
def ProductsBisimAt (fuel : ℕ) : Prop :=
  ∀ (cfg : PCfg) (remains : List CItem) (n1 n2 : MNode) (ctx : List MLabel)
    (content : List CItem) (shortname : List MLabel) (dep : List String)
    (contentOrig : List CItem) (d1s : List Dict),
    clearFC n1 = clearFC n2 → soundNode n1 ctx → soundNode n2 ctx →
    boundedFC n1 → boundedFC n2 →
    treeListNoNestJoin n1.children = true →
    treeListNoNestJoin n2.children = true →
    listNoJoin content = true → listNoJoin contentOrig = true →
    listNoJoin remains = true →
    BRJ ctx
      (joinProducts fuel cfg remains n1 ctx content shortname dep contentOrig d1s)
      (joinProducts fuel cfg remains n2 ctx content shortname dep contentOrig d1s)

mutual
/-- The enumeration skeleton of a tree: everything except the per-node
contents and failure deques.  Enumeration never changes it. -/
def skel : MNode → MNode
  | .mk v n d _ ch l a df _ => .mk v n d [] (skelList ch) l a df []

def skelList : List MNode → List MNode
  | [] => []
  | n :: rest => skel n :: skelList rest
end

/-- A triple holding an `OnlyFilter` (the shape of a parsed root-level
`only X` line). -/
def isPureOnly (t : CItem) : Bool :=
  match t with
  | .mk _ _ (.fOnly _ _) => true
  | _ => false

/-- `ExtL l1 l2`: `l2` is `l1` with `OnlyFilter` triples inserted at
arbitrary positions — the relation between a content list and the same list
after extra root-level `only` clauses have been parsed into it. -/
inductive ExtL : List CItem → List CItem → Prop
  | nil : ExtL [] []
  | keep (t : CItem) {l1 l2 : List CItem} : ExtL l1 l2 → ExtL (t :: l1) (t :: l2)
  | ins (o : CItem) {l1 l2 : List CItem} (h : isPureOnly o = true) :
      ExtL l1 l2 → ExtL l1 (o :: l2)

/-- Only-monotonicity of `get_dicts_plain` at a given fuel for the
unfiltered run: with default-variant mode off, enumerating with extra
`only` triples inserted into the node content and the inherited content
emits a subsequence of the unfiltered dictionaries, whenever the unfiltered
enumeration ends without error.  The filtered run consumes any fuel: a
fuel-starved run only truncates its output. -/
def SubPlainAt (f1 : ℕ) : Prop :=
  ∀ (f2 : ℕ) (cfg : PCfg) (n1 n2 : MNode) (ctx : List MLabel)
    (c1 c2 : List CItem) (shortname : List MLabel) (dep : List String),
    cfg.defaults = false →
    skel n1 = skel n2 →
    clearFCList n1.children = clearFCList n2.children →
    ExtL n1.content n2.content → ExtL c1 c2 →
    soundNode n1 ctx → boundedFC n1 →
    listNoJoin n1.content = true →
    treeListNoNestJoin n1.children = true →
    listNoJoin c1 = true →
    (getDictsPlain f1 cfg n1 ctx c1 shortname dep).ok = true →
    List.Sublist (getDictsPlain f2 cfg n2 ctx c2 shortname dep).dicts
      (getDictsPlain f1 cfg n1 ctx c1 shortname dep).dicts

/-- Only-monotonicity of the children loop at a given fuel. -/
def SubChildrenAt (f1 : ℕ) : Prop :=
  ∀ (f2 : ℕ) (cfg : PCfg) (ctx : List MLabel) (c1 c2 : List CItem)
    (shortname : List MLabel) (dep : List String) (sd : Bool)
    (ch1 ch2 : List MNode) (count1 count2 : ℕ),
    cfg.defaults = false → sd = false →
    clearFCList ch1 = clearFCList ch2 →
    ExtL c1 c2 →
    soundChildren ch1 ctx → boundedFCList ch1 →
    treeListNoNestJoin ch1 = true →
    listNoJoin c1 = true →
    (runChildren f1 cfg ctx c1 shortname dep sd ch1 count1).2.2 = true →
    List.Sublist (runChildren f2 cfg ctx c2 shortname dep sd ch2 count2).1
      (runChildren f1 cfg ctx c1 shortname dep sd ch1 count1).1

/-- Only-monotonicity of `get_dicts_joined` at a given fuel. -/
def SubJoinedAt (f1 : ℕ) : Prop :=
  ∀ (f2 : ℕ) (cfg : PCfg) (n1 n2 : MNode) (ctx : List MLabel)
    (c1 c2 : List CItem) (shortname : List MLabel) (dep : List String)
    (sk pg : Bool),
    cfg.defaults = false →
    skel n1 = skel n2 →
    clearFCList n1.children = clearFCList n2.children →
    ExtL n1.content n2.content → ExtL c1 c2 →
    soundNode n1 ctx → boundedFC n1 →
    treeNoNestJoin n1 = true →
    listNoJoin c1 = true →
    (getDictsJoined f1 cfg n1 ctx c1 shortname dep sk pg).ok = true →
    List.Sublist (getDictsJoined f2 cfg n2 ctx c2 shortname dep sk pg).dicts
      (getDictsJoined f1 cfg n1 ctx c1 shortname dep sk pg).dicts

/-- Only-monotonicity of `join_filters` at a given fuel. -/
def SubFiltersAt (f1 : ℕ) : Prop :=
  ∀ (f2 : ℕ) (cfg : PCfg) (onlys : List CItem) (n1 n2 : MNode)
    (ctx : List MLabel) (c1 c2 : List CItem) (shortname : List MLabel)
    (dep : List String),
    cfg.defaults = false →
    skel n1 = skel n2 →
    clearFCList n1.children = clearFCList n2.children →
    ExtL n1.content n2.content → ExtL c1 c2 →
    soundNode n1 ctx → boundedFC n1 →
    listNoJoin n1.content = true →
    treeListNoNestJoin n1.children = true →
    listNoJoin c1 = true → listNoJoin onlys = true →
    (joinFilters f1 cfg onlys n1 ctx c1 shortname dep).ok = true →
    List.Sublist (joinFilters f2 cfg onlys n2 ctx c2 shortname dep).dicts
      (joinFilters f1 cfg onlys n1 ctx c1 shortname dep).dicts

/-- Only-monotonicity of the join product loop at a given fuel: the
filtered side multiplies a subsequence of the unfiltered first factors. -/
def SubProductsAt (f1 : ℕ) : Prop :=
  ∀ (f2 : ℕ) (cfg : PCfg) (remains : List CItem) (n1 n2 : MNode)
    (ctx : List MLabel) (c1 c2 : List CItem) (shortname : List MLabel)
    (dep : List String) (co1 co2 : List CItem) (d1s1 d1s2 : List Dict),
    cfg.defaults = false →
    skel n1 = skel n2 →
    clearFCList n1.children = clearFCList n2.children →
    ExtL co1 co2 → ExtL c1 c2 →
    soundNode n1 ctx → boundedFC n1 →
    treeListNoNestJoin n1.children = true →
    listNoJoin c1 = true → listNoJoin co1 = true → listNoJoin remains = true →
    List.Sublist d1s2 d1s1 →
    (joinProducts f1 cfg remains n1 ctx c1 shortname dep co1 d1s1).ok = true →
    List.Sublist
      (joinProducts f2 cfg remains n2 ctx c2 shortname dep co2 d1s2).dicts
      (joinProducts f1 cfg remains n1 ctx c1 shortname dep co1 d1s1).dicts

/-- C8 counterexample tree: a default child `a` and a sibling `b`. -/
def exC8ChildA : MNode :=
  .mk none [⟨"a", none⟩] [] [] [] [⟨"a", none⟩] true true []

def exC8ChildB : MNode :=
  .mk none [⟨"b", none⟩] [] [] [] [⟨"b", none⟩] true false []

/-- The root-level `only b` line appended by the parser. -/
def exC8Only : CItem :=
  .mk "<string>" 3 (.fOnly [[[⟨"b", none⟩]]] "only b")

/-- Root of the configuration without the `only` clause. -/
def exC8Root1 : MNode :=
  .mk none [] [] [] [exC8ChildA, exC8ChildB]
    [⟨"a", none⟩, ⟨"b", none⟩] true false []

/-- Root of the same configuration with the extra root-level `only b`. -/
def exC8Root2 : MNode :=
  .mk none [] [] [exC8Only] [exC8ChildA, exC8ChildB]
    [⟨"a", none⟩, ⟨"b", none⟩] true false []

/-- Parser configuration with default-variant mode enabled
(`defaults=True`). -/
def cfgDefaultsOn : PCfg := ⟨true, []⟩

end Cartconf

/-! # Theorems and supporting lemmas -/

namespace Cartconf

/-- **C1** (code bug).  The spec requires `get_dicts()` to be replayable:
two full consumptions against the same parsed tree must yield identical
sequences.  The code's `parent_generator` flag — which gates the
suffix-flattening of emitted dictionaries — is cleared by the first
consumption and never reset (`Parser.__init__` even comments "Parent
generator will reset this flag"), so for the configuration
`foo = x` / `suffix _x` the first consumption emits the flattened key
`foo` while the second emits the raw tuple key `("foo", "_x")`. -/
theorem c1_replay_bug :
    exC1Run1.1.ok = true ∧ exC1Run2.1.ok = true ∧
    exC1Run1.1.dicts =
      [[(.plain "name", .str ""), (.plain "dep", .strList []),
        (.plain "shortname", .str ""), (.plain "foo", .str "x")]] ∧
    exC1Run2.1.dicts =
      [[(.plain "name", .str ""), (.plain "dep", .strList []),
        (.plain "shortname", .str ""), (.tup "foo" ["_x"], .str "x")]] ∧
    exC1Run1.1.dicts ≠ exC1Run2.1.dicts := by
  refine ⟨by decide, by decide, by decide, by decide, by decide⟩

/-- **C2** (counterexample).  The empty configuration parses to a bare root
node; `get_dicts()` emits exactly one dictionary holding only `name`,
`dep` and `shortname` — the reserved keys `_name_map_file` and
`_short_name_map_file` are absent, refuting the claim that every emitted
dictionary contains all five reserved keys. -/
theorem c2_counterexample :
    (getDicts 5 cfgDefault ⟨exC2Tree, true⟩ true).1.ok = true ∧
    (getDicts 5 cfgDefault ⟨exC2Tree, true⟩ true).1.dicts =
      [[(.plain "name", .str ""), (.plain "dep", .strList []),
        (.plain "shortname", .str "")]] ∧
    ((getDicts 5 cfgDefault ⟨exC2Tree, true⟩ true).1.dicts.all
      (fun d => ¬ dictMem d (.plain "_name_map_file"))) = true := by
  refine ⟨by decide, by decide, by decide⟩

/-- **C3** (counterexample).  On `{a: 1, (a,_x): 1, (a,_y): 2}` with
`skipdups` the claimed rule renames `(a,_x)` to `a_x` (the keys sharing
base `a` do not all agree), but the code drops `(a,_x)` outright because
its value matches the existing plain key `a` — the flattened dictionaries
differ. -/
theorem c3_counterexample :
    dropSuffixes exC3Dict true =
      [(.plain "a", .str "1"), (.plain "a_y", .str "2")] ∧
    specC3Flatten exC3Dict true =
      [(.plain "a", .str "1"), (.plain "a_x", .str "1"), (.plain "a_y", .str "2")] ∧
    dropSuffixes exC3Dict true ≠ specC3Flatten exC3Dict true := by
  refine ⟨by decide, by decide, by decide⟩

/-- **C4** (counterexample).  The claim asserts `join_names` is a total
function, defined also when the two names are equal; the code computes
`[x[0] == x[1] for x in zip(n1, n2)].index(0)`, which raises `ValueError`
when the names agree on the whole zipped range — in particular on equal
names. -/
theorem c4_counterexample : joinNames "a" "a" = none := by decide

/-- **C6** (counterexample).  For `a${x}b${y}c` against `{x: 1}` the code
substitutes `${x}`, then fails on `${y}` and copies the rest *from the end
of the last successful match*, keeping the failing `${y}` text:
`a1b${y}c`.  The claim as stated — the remainder *after the failing match*
is copied — yields `a1bc` instead. -/
theorem c6_counterexample :
    pySubstitution exC6Value exC6Dict = "a1b${y}c" ∧
    specC6Subst exC6Value exC6Dict = "a1bc" ∧
    pySubstitution exC6Value exC6Dict ≠ specC6Subst exC6Value exC6Dict := by
  refine ⟨by decide, by decide, by decide⟩

/-- **C7** (counterexample).  The claim says `d[k]` is set to `d[k_max]`
exactly when the present `d[k]` parses greater; but when `k` is absent the
code sets `d[k] ← d[k_max]` unconditionally (`tmp_key not in d or …`). -/
theorem c7_counterexample :
    dictMem exC7Dict (.plain "x") = false ∧
    applySuffixBounds exC7Dict =
      some [(.plain "x_max", .str "5"), (.plain "x", .str "5")] := by
  refine ⟨by decide, by decide⟩

/-! ### C5: the matching loop versus contiguous occurrence -/

theorem matchesAt_leq {block ctx : List MLabel} {i j : ℕ}
    (h : matchesAt block ctx i = true) (hj : j < block.length) :
    leqB (ctx.getD (i + j) dfltLabel) (block.getD j dfltLabel) = true := by
  simp only [matchesAt, Bool.and_eq_true, List.all_eq_true, decide_eq_true_eq] at h
  exact h.2 _ (List.mem_range.mpr hj)

theorem matchesAt_bound {block ctx : List MLabel} {i : ℕ}
    (h : matchesAt block ctx i = true) : i + block.length ≤ ctx.length := by
  simp only [matchesAt, Bool.and_eq_true, decide_eq_true_eq] at h
  exact h.1

theorem matchesAt_of (block ctx : List MLabel) (i : ℕ)
    (h1 : i + block.length ≤ ctx.length)
    (h2 : ∀ j, j < block.length →
      leqB (ctx.getD (i + j) dfltLabel) (block.getD j dfltLabel) = true) :
    matchesAt block ctx i = true := by
  simp only [matchesAt, Bool.and_eq_true, List.all_eq_true, decide_eq_true_eq]
  exact ⟨h1, fun j hj => h2 j (List.mem_range.mp hj)⟩

theorem memCtx_getD {ctx : List MLabel} {i : ℕ} {b : MLabel}
    (hi : i < ctx.length) (h : leqB (ctx.getD i dfltLabel) b = true) :
    memCtx ctx b = true := by
  apply List.any_eq_true.mpr
  refine ⟨ctx.getD i dfltLabel, ?_, h⟩
  rw [List.getD_eq_getElem?_getD, List.getElem?_eq_getElem hi]
  exact List.getElem_mem ..

theorem matchesAt_memCtx {block ctx : List MLabel} {i j : ℕ}
    (h : matchesAt block ctx i = true) (hj : j < block.length) :
    memCtx ctx (block.getD j dfltLabel) = true := by
  have hb := matchesAt_bound h
  exact memCtx_getD (by omega) (matchesAt_leq h hj)

theorem exists_ge_split {s : ℕ} {P : ℕ → Prop} :
    (∃ i, s ≤ i ∧ P i) ↔ (P s ∨ ∃ i, s + 1 ≤ i ∧ P i) := by
  constructor
  · rintro ⟨i, hsi, hp⟩
    rcases Nat.eq_or_lt_of_le hsi with h | h
    · exact Or.inl (h ▸ hp)
    · exact Or.inr ⟨i, h, hp⟩
  · rintro (hp | ⟨i, hsi, hp⟩)
    · exact ⟨s, le_refl s, hp⟩
    · exact ⟨i, by omega, hp⟩

/-- Correctness of the naive-search loop: provided enough fuel, a partial
match of `k` labels at start `s`, and an in-bounds cursor, the loop reports
a full match exactly when the sequence occurs contiguously at some position
`≥ s`.  The context set is the context itself (`ctx_set = set(ctx)`). -/
theorem matchLoopF_spec (block ctx : List MLabel) :
    ∀ (fuel s k : ℕ),
    (ctx.length + 1 - s) * (block.length + 1) + (block.length - k) < fuel →
    s + k ≤ ctx.length →
    k < block.length →
    (∀ j, j < k → leqB (ctx.getD (s + j) dfltLabel) (block.getD j dfltLabel) = true) →
    (matchLoopF block ctx ctx fuel s k = block.length ↔
      ∃ i, s ≤ i ∧ matchesAt block ctx i = true) := by
  intro fuel
  induction fuel using Nat.strong_induction_on with
  | _ fuel IH =>
    intro s k hfuel hsk hkb hpart
    match fuel with
    | 0 => omega
    | m + 1 =>
      rw [matchLoopF]
      by_cases hguard : s + k < ctx.length
      · rw [if_pos hguard]
        have hsL : s < ctx.length := by omega
        have hmul : (ctx.length + 1 - s) * (block.length + 1) =
            (ctx.length + 1 - (s + 1)) * (block.length + 1) + (block.length + 1) := by
          have h1 : ctx.length + 1 - s = (ctx.length + 1 - (s + 1)) + 1 := by omega
          rw [h1, Nat.succ_mul]
        by_cases hreset : 0 < k ∧
            ¬ leqB (ctx.getD (s + k) dfltLabel) (block.getD k dfltLabel) = true
        · rw [if_pos hreset]
          have hnos : ¬ matchesAt block ctx s = true := fun hocc =>
            hreset.2 (matchesAt_leq hocc hkb)
          have hposk : 0 < k := hreset.1
          have hsplit : (∃ i, s ≤ i ∧ matchesAt block ctx i = true) ↔
              ∃ i, s + 1 ≤ i ∧ matchesAt block ctx i = true := by
            rw [exists_ge_split]
            simp [hnos]
          rw [hsplit]
          have hblen2 : 2 ≤ block.length := by omega
          by_cases hm0 : leqB (ctx.getD (s + 1) dfltLabel) (block.getD 0 dfltLabel) = true
          · rw [if_pos hm0, if_neg (by omega : ¬ block.length ≤ 1)]
            by_cases hm1 : memCtx ctx (block.getD 1 dfltLabel) = true
            · rw [if_neg (by simpa using hm1)]
              exact IH m (by omega) (s + 1) 1 (by rw [hmul] at hfuel; omega)
                (by omega) (by omega)
                (by intro j hj; interval_cases j; simpa using hm0)
            · rw [if_pos (by simpa using hm1)]
              constructor
              · intro h1; omega
              · rintro ⟨i, _, hocc⟩
                exact absurd (matchesAt_memCtx hocc (by omega : 1 < block.length)) hm1
          · rw [if_neg hm0]
            have hnos1 : ¬ matchesAt block ctx (s + 1) = true := by
              intro hocc
              exact hm0 (by simpa using matchesAt_leq hocc (by omega : 0 < block.length))
            have hsplit1 : (∃ i, s + 1 ≤ i ∧ matchesAt block ctx i = true) ↔
                ∃ i, s + 2 ≤ i ∧ matchesAt block ctx i = true := by
              rw [exists_ge_split]
              simp [hnos1]
            rw [hsplit1]
            have hmul2 : (ctx.length + 1 - (s + 1)) * (block.length + 1) =
                (ctx.length + 1 - (s + 2)) * (block.length + 1) + (block.length + 1) := by
              have h1 : ctx.length + 1 - (s + 1) = (ctx.length + 1 - (s + 2)) + 1 := by
                omega
              rw [h1, Nat.succ_mul]
            exact IH m (by omega) (s + 2) 0 (by rw [hmul, hmul2] at hfuel; omega)
              (by omega) (by omega) (by intro j hj; omega)
        · rw [if_neg hreset]
          by_cases hcur : leqB (ctx.getD (s + k) dfltLabel) (block.getD k dfltLabel) = true
          · rw [if_pos hcur]
            by_cases hlast : block.length ≤ k + 1
            · rw [if_pos hlast]
              have hkeq : k + 1 = block.length := by omega
              constructor
              · intro _
                refine ⟨s, le_refl s, matchesAt_of block ctx s (by omega) ?_⟩
                intro j hj
                rcases Nat.lt_or_ge j k with hjk | hjk
                · exact hpart j hjk
                · have : j = k := by omega
                  subst this
                  exact hcur
              · intro _; omega
            · rw [if_neg hlast]
              by_cases hm1 : memCtx ctx (block.getD (k + 1) dfltLabel) = true
              · rw [if_neg (by simpa using hm1)]
                exact IH m (by omega) s (k + 1) (by omega) (by omega) (by omega)
                  (by
                    intro j hj
                    rcases Nat.lt_or_ge j k with hjk | hjk
                    · exact hpart j hjk
                    · have : j = k := by omega
                      subst this
                      exact hcur)
              · rw [if_pos (by simpa using hm1)]
                constructor
                · intro h1; omega
                · rintro ⟨i, _, hocc⟩
                  exact absurd (matchesAt_memCtx hocc (by omega : k + 1 < block.length)) hm1
          · rw [if_neg hcur]
            have hk0 : k = 0 := by
              by_contra hk
              exact hreset ⟨by omega, hcur⟩
            subst hk0
            have hnos : ¬ matchesAt block ctx s = true := by
              intro hocc
              exact hcur (by simpa using matchesAt_leq hocc (by omega : 0 < block.length))
            have hsplit : (∃ i, s ≤ i ∧ matchesAt block ctx i = true) ↔
                ∃ i, s + 1 ≤ i ∧ matchesAt block ctx i = true := by
              rw [exists_ge_split]
              simp [hnos]
            rw [hsplit]
            exact IH m (by omega) (s + 1) 0 (by rw [hmul] at hfuel; omega)
              (by omega) (by omega) (by intro j hj; omega)
      · rw [if_neg hguard]
        constructor
        · intro h1; omega
        · rintro ⟨i, hsi, hocc⟩
          have := matchesAt_bound hocc
          omega

/-- The sequence matcher reports a full match exactly on contiguous
occurrence, for a nonempty sequence and `ctx_set = set(ctx)`. -/
theorem matchAdjacent_spec (block ctx : List MLabel) (hb : block ≠ []) :
    (matchAdjacent block ctx ctx = block.length) ↔
      ∃ i, matchesAt block ctx i = true := by
  match block with
  | [b0] =>
    have hunfold : matchAdjacent [b0] ctx ctx =
        (if ¬ memCtx ctx b0 then 0 else 1) := rfl
    rw [hunfold]
    by_cases h0 : memCtx ctx b0 = true
    · rw [if_neg (by simpa using h0)]
      simp only [List.length_cons, List.length_nil]
      constructor
      · intro _
        rcases List.any_eq_true.mp h0 with ⟨c, hc, hlc⟩
        rcases List.mem_iff_getElem.mp hc with ⟨i, hi, hceq⟩
        refine ⟨i, matchesAt_of _ ctx i (by simpa using hi) ?_⟩
        intro j hj
        simp only [List.length_cons, List.length_nil] at hj
        have : j = 0 := by omega
        subst this
        simpa [List.getD_eq_getElem?_getD, List.getElem?_eq_getElem hi, hceq] using hlc
      · intro _; trivial
    · rw [if_pos (by simpa using h0)]
      constructor
      · intro h1; exact absurd h1 (by simp)
      · rintro ⟨i, hocc⟩
        exact absurd (matchesAt_memCtx hocc (by simp : 0 < ([b0] : List MLabel).length)) h0
  | b0 :: b1 :: rest2 =>
    have hunfold : matchAdjacent (b0 :: b1 :: rest2) ctx ctx =
        (if ¬ memCtx ctx b0 then 0
         else if ¬ memCtx ctx b1 then
           (match ctx.getLast? with
            | some c => if leqB c b0 then 1 else 0
            | none => 0)
         else matchLoopF (b0 :: b1 :: rest2) ctx ctx
           (matchFuel (b0 :: b1 :: rest2) ctx)
           (ctx.findIdx (fun c => leqB c b0)) 0) := rfl
    rw [hunfold]
    by_cases h0 : memCtx ctx b0 = true
    · rw [if_neg (by simpa using h0)]
      by_cases h1 : memCtx ctx b1 = true
      · rw [if_neg (by simpa using h1)]
        rw [matchLoopF_spec (b0 :: b1 :: rest2) ctx
          (matchFuel (b0 :: b1 :: rest2) ctx)
          (ctx.findIdx (fun c => leqB c b0)) 0
          (by
            simp only [matchFuel]
            have hle : ctx.length + 1 - ctx.findIdx (fun c => leqB c b0) ≤ ctx.length + 1 :=
              Nat.sub_le _ _
            have := Nat.mul_le_mul_right ((b0 :: b1 :: rest2).length + 1) hle
            omega)
          (by
            simpa using @List.findIdx_le_length MLabel (fun c => leqB c b0) ctx)
          (by simp) (by intro j hj; omega)]
        constructor
        · rintro ⟨i, _, hocc⟩
          exact ⟨i, hocc⟩
        · rintro ⟨i, hocc⟩
          refine ⟨i, ?_, hocc⟩
          by_contra hlt
          push_neg at hlt
          have hleq : leqB (ctx.getD (i + 0) dfltLabel) b0 = true :=
            matchesAt_leq hocc (by simp)
          have hbnd := matchesAt_bound hocc
          simp only [List.length_cons] at hbnd
          have hi : i < ctx.length := by omega
          simp only [Nat.add_zero] at hleq
          rw [List.getD_eq_getElem?_getD, List.getElem?_eq_getElem hi] at hleq
          simp only [Option.getD_some] at hleq
          have hfalse := @List.not_of_lt_findIdx MLabel (fun c => leqB c b0) ctx i hlt
          simp only at hfalse
          rw [hleq] at hfalse
          simp at hfalse
      · rw [if_pos (by simpa using h1)]
        constructor
        · intro hres
          exfalso
          match hg : ctx.getLast? with
          | some c =>
            rw [hg] at hres
            have hres2 : (if leqB c b0 then (1 : ℕ) else 0) = rest2.length + 2 := by
              simpa using hres
            by_cases hlc : leqB c b0 = true
            · rw [if_pos hlc] at hres2
              omega
            · rw [if_neg hlc] at hres2
              omega
          | none =>
            rw [hg] at hres
            simp at hres
        · rintro ⟨i, hocc⟩
          exact absurd (matchesAt_memCtx hocc
            (by simp : 1 < (b0 :: b1 :: rest2).length)) h1
    · rw [if_pos (by simpa using h0)]
      constructor
      · intro h1
        exfalso
        have : (b0 :: b1 :: rest2).length ≠ 0 := by simp
        omega
      · rintro ⟨i, hocc⟩
        exact absurd (matchesAt_memCtx hocc
          (by simp : 0 < (b0 :: b1 :: rest2).length)) h0

/-- C5: counterexample.  First divergence: for the filter `a..c` and the
context `[a, b, a, c]` the code matches (the loop restarts at the *second*
occurrence of `a`), while the claimed first-occurrence rule fails (after the
first `a` comes `b`, not `c`).  Second divergence: for the filter `a..b` and
the context `[x, a]` (with `b` absent from the context set and `a` last) the
claimed boundary rule reports a match, but the code reports only the partial
count `1 ≠ 2`, hence no match. -/
theorem c5_counterexample :
    (filterMatch [[[⟨"a", none⟩, ⟨"c", none⟩]]]
        [⟨"a", none⟩, ⟨"b", none⟩, ⟨"a", none⟩, ⟨"c", none⟩]
        [⟨"a", none⟩, ⟨"b", none⟩, ⟨"a", none⟩, ⟨"c", none⟩] = true ∧
      specC5Match [[[⟨"a", none⟩, ⟨"c", none⟩]]]
        [⟨"a", none⟩, ⟨"b", none⟩, ⟨"a", none⟩, ⟨"c", none⟩]
        [⟨"a", none⟩, ⟨"b", none⟩, ⟨"a", none⟩, ⟨"c", none⟩] = false) ∧
    (filterMatch [[[⟨"a", none⟩, ⟨"b", none⟩]]]
        [⟨"x", none⟩, ⟨"a", none⟩] [⟨"x", none⟩, ⟨"a", none⟩] = false ∧
      specC5Match [[[⟨"a", none⟩, ⟨"b", none⟩]]]
        [⟨"x", none⟩, ⟨"a", none⟩] [⟨"x", none⟩, ⟨"a", none⟩] = true) := by
  decide

/-- C5, amended: for sequences as the filter parser produces them (every
conjunct sequence nonempty) and `ctx_set = set(ctx)`, `Filter.match`
returns true exactly when some top-level disjunct has every conjunct
sequence occurring as a contiguous run of the context, at *some* position
(not necessarily the first occurrence of its head label). -/
theorem c5_amended (f : LFilter) (ctx : List MLabel)
    (h : ∀ word ∈ f, ∀ block ∈ word, block ≠ []) :
    filterMatch f ctx ctx = true ↔
      ∃ word ∈ f, ∀ block ∈ word, ∃ i, matchesAt block ctx i = true := by
  simp only [filterMatch, List.any_eq_true, List.all_eq_true, decide_eq_true_eq]
  constructor
  · rintro ⟨word, hw, hall⟩
    exact ⟨word, hw, fun block hbw =>
      (matchAdjacent_spec block ctx (h word hw block hbw)).mp (hall block hbw)⟩
  · rintro ⟨word, hw, hall⟩
    exact ⟨word, hw, fun block hbw =>
      (matchAdjacent_spec block ctx (h word hw block hbw)).mpr (hall block hbw)⟩

/-- C5, amended: witness at the filter `a..c` over the context `[a, b, a, c]`. -/
theorem c5_amended_witness :
    filterMatch [[[⟨"a", none⟩, ⟨"c", none⟩]]]
        [⟨"a", none⟩, ⟨"b", none⟩, ⟨"a", none⟩, ⟨"c", none⟩]
        [⟨"a", none⟩, ⟨"b", none⟩, ⟨"a", none⟩, ⟨"c", none⟩] = true ↔
      ∃ word ∈ ([[[⟨"a", none⟩, ⟨"c", none⟩]]] : LFilter), ∀ block ∈ word,
        ∃ i, matchesAt block
          [⟨"a", none⟩, ⟨"b", none⟩, ⟨"a", none⟩, ⟨"c", none⟩] i = true :=
  c5_amended [[[⟨"a", none⟩, ⟨"c", none⟩]]]
    [⟨"a", none⟩, ⟨"b", none⟩, ⟨"a", none⟩, ⟨"c", none⟩] (by decide)

/-! ### C6: substitution abort semantics -/

theorem substLoopF_dollar (dflat : Dict) (fuel : ℕ) (rest : List Char) :
    substLoopF dflat (fuel + 1) ('$' :: '\x7b' :: rest) =
      (match braceSplit rest with
       | some (group, after) =>
         (match dictLookup dflat (.plain (String.mk group)) with
         | some v => (pyStr v).toList ++ substLoopF dflat fuel after
         | none => '$' :: '\x7b' :: rest)
       | none => '$' :: '\x7b' :: rest) := rfl

theorem substLoopF_cons (dflat : Dict) (fuel : ℕ) (c : Char) (rest : List Char)
    (hne : ∀ r, c = '$' → rest = '\x7b' :: r → False) :
    substLoopF dflat (fuel + 1) (c :: rest) = c :: substLoopF dflat fuel rest := by
  rw [substLoopF.eq_def]
  split
  · rename_i heq
    exact absurd heq (by simp)
  · rename_i rest1 heq
    injection heq with hf
    subst hf
    split
    · rename_i heq2
      exact absurd heq2 (by simp)
    · rename_i rest2 heq2
      injection heq2 with hc hr
      exact (hne rest2 hc hr).elim
    · rename_i c1 rest2 hx1 heq2
      injection heq2 with hc hr
      subst hc
      subst hr
      rfl

theorem specFindMatch_dollar (rest : List Char) :
    specFindMatch ('$' :: '\x7b' :: rest) =
      (match braceSplit rest with
       | some (g, after) => some (([] : List Char), g, after)
       | none => none) := rfl

theorem specFindMatch_cons (c : Char) (rest : List Char)
    (hne : ∀ r, c = '$' → rest = '\x7b' :: r → False) :
    specFindMatch (c :: rest) =
      (specFindMatch rest).map (fun m => (c :: m.1, m.2.1, m.2.2)) := by
  rw [specFindMatch.eq_def]
  split
  · rename_i heq
    exact absurd heq (by simp)
  · rename_i rest1 heq
    injection heq with hc hr
    exact (hne rest1 hc hr).elim
  · rename_i c1 rest1 hx1 heq
    injection heq with hc hr
    subst hc
    subst hr
    rfl

theorem specLoop_succ (dflat : Dict) (fuel : ℕ) (l : List Char) :
    specC6AmendedLoopF dflat (fuel + 1) l =
      (match specFindMatch l with
       | none => l
       | some (pre, g, after) =>
         (match dictLookup dflat (.plain (String.mk g)) with
         | some v => pre ++ (pyStr v).toList ++ specC6AmendedLoopF dflat fuel after
         | none => l)) := rfl

theorem specLoop_none (dflat : Dict) (l : List Char) (h : specFindMatch l = none) :
    ∀ fuel, specC6AmendedLoopF dflat fuel l = l := by
  intro fuel
  cases fuel with
  | zero => rfl
  | succ f => rw [specLoop_succ, h]

theorem specLoop_stable (dflat : Dict) :
    ∀ (n : ℕ) (l : List Char) (fuel1 fuel2 : ℕ), l.length ≤ n →
      l.length < fuel1 → l.length < fuel2 →
      specC6AmendedLoopF dflat fuel1 l = specC6AmendedLoopF dflat fuel2 l := by
  intro n
  induction n using Nat.strong_induction_on with
  | _ n IH =>
    intro l fuel1 fuel2 hn h1 h2
    obtain ⟨f1, rfl⟩ : ∃ f, fuel1 = f + 1 := ⟨fuel1 - 1, by omega⟩
    obtain ⟨f2, rfl⟩ : ∃ f, fuel2 = f + 1 := ⟨fuel2 - 1, by omega⟩
    rw [specLoop_succ, specLoop_succ]
    cases hm : specFindMatch l with
    | none => rfl
    | some m =>
      obtain ⟨pre, g, after⟩ := m
      cases hl : dictLookup dflat (.plain (String.mk g)) with
      | none => simp only [hl]
      | some v =>
        have hsh := specFindMatch_shrinks l pre g after hm
        simp only [hl]
        have hrec := IH after.length (by omega) after f1 f2 le_rfl (by omega) (by omega)
        rw [hrec]

theorem subst_loops_eq (dflat : Dict) :
    ∀ (fuel : ℕ) (l : List Char), l.length < fuel →
      substLoopF dflat fuel l = specC6AmendedLoopF dflat (l.length + 1) l := by
  intro fuel l
  refine substLoopF.induct dflat
    (fun fuel l => l.length < fuel →
      substLoopF dflat fuel l = specC6AmendedLoopF dflat (l.length + 1) l)
    ?_ ?_ ?_ ?_ ?_ ?_ fuel l
  · intro l h
    exact absurd h (by omega)
  · intro fuel _
    rfl
  · intro fuel rest group after hb v hv ih h
    have hsh := braceSplit_shrinks rest group after hb
    simp only [List.length_cons] at h ⊢
    rw [substLoopF_dollar]
    simp only [hb, hv]
    rw [specLoop_succ, specFindMatch_dollar]
    simp only [hb, hv]
    rw [ih (by omega)]
    simp only [List.nil_append]
    have hrec := specLoop_stable dflat after.length after (after.length + 1)
      (rest.length + 1 + 1) le_rfl (by omega) (by omega)
    rw [hrec]
  · intro fuel rest group after hb hv h
    rw [substLoopF_dollar]
    simp only [hb, hv]
    rw [specLoop_succ, specFindMatch_dollar]
    simp only [hb, hv]
  · intro fuel rest hb h
    rw [substLoopF_dollar]
    simp only [hb]
    rw [specLoop_succ, specFindMatch_dollar]
    simp only [hb]
  · intro fuel c rest hne ih h
    simp only [List.length_cons] at h ⊢
    rw [substLoopF_cons dflat fuel c rest hne]
    rw [specLoop_succ, specFindMatch_cons c rest hne]
    cases hm : specFindMatch rest with
    | none =>
      simp only [hm, Option.map_none']
      rw [ih (by omega)]
      rw [specLoop_none dflat rest hm]
    | some m =>
      obtain ⟨pre, g, after⟩ := m
      have hsh := specFindMatch_shrinks rest pre g after hm
      simp only [hm, Option.map_some']
      rw [ih (by omega)]
      rw [specLoop_succ]
      simp only [hm]
      cases hl : dictLookup dflat (.plain (String.mk g)) with
      | none => simp only [hl]
      | some v =>
        simp only [hl]
        simp only [List.cons_append]
        have hrec := specLoop_stable dflat after.length after rest.length
          (rest.length + 1) le_rfl (by omega) (by omega)
        rw [hrec]

/-- C6 (amended): `_substitution` replaces each `$\x7bname\x7d` with the
string rendering of the flattened lookup; on the first failed lookup it
aborts, copying the remainder from the end of the last successful match —
including the failing `$\x7bname\x7d` text itself — verbatim; a literal
`$\x7b\x7d` with no name is left unchanged. -/
theorem c6_amended (value : String) (d : Dict) :
    pySubstitution value d = specC6AmendedSubst value d := by
  unfold pySubstitution specC6AmendedSubst
  by_cases hd : value.toList.any (fun c => c = '$') = true
  · rw [if_pos hd, if_pos hd]
    unfold substLoop
    rw [subst_loops_eq (dropSuffixes d true) (value.toList.length + 1) value.toList
      (by omega)]
    rfl
  · rw [if_neg hd, if_neg hd]

/-! ### C3: suffix flattening equals its amended specification -/

theorem dictLookup_erase_ne : ∀ (dFlat : Dict) (k k2 : Key), ¬ k2 = k →
    dictLookup (dictErase dFlat k) k2 = dictLookup dFlat k2 := by
  intro dFlat k k2 hne
  unfold dictErase dictLookup
  induction dFlat with
  | nil => rfl
  | cons a rest ih =>
    simp only [List.filter_cons]
    by_cases ha : a.1 = k
    · rw [if_neg (by simpa using ha)]
      rw [List.find?_cons_of_neg _ (by simp only [ha]; simpa using fun h => hne h.symm)]
      exact ih
    · rw [if_pos (by simpa using ha)]
      by_cases hk2 : a.1 = k2
      · rw [List.find?_cons_of_pos _ (by simpa using hk2),
          List.find?_cons_of_pos _ (by simpa using hk2)]
      · rw [List.find?_cons_of_neg _ (by simpa using hk2),
          List.find?_cons_of_neg _ (by simpa using hk2)]
        exact ih

theorem dictLookup_set_ne : ∀ (dFlat : Dict) (k k2 : Key) (v : Value), ¬ k2 = k →
    dictLookup (dictSet dFlat k v) k2 = dictLookup dFlat k2 := by
  intro dFlat k k2 v hne
  unfold dictSet
  by_cases hmem : dFlat.any (fun e => e.1 = k) = true
  · rw [if_pos hmem]
    clear hmem
    unfold dictLookup
    induction dFlat with
    | nil => rfl
    | cons a rest ih =>
      simp only [List.map_cons]
      by_cases ha : a.1 = k
      · rw [if_pos ha]
        rw [List.find?_cons_of_neg _ (by simpa using fun h => hne h.symm)]
        rw [List.find?_cons_of_neg _ (by simp only [ha]; simpa using fun h => hne h.symm)]
        exact ih
      · rw [if_neg ha]
        by_cases hk2 : a.1 = k2
        · rw [List.find?_cons_of_pos _ (by simpa using hk2),
            List.find?_cons_of_pos _ (by simpa using hk2)]
        · rw [List.find?_cons_of_neg _ (by simpa using hk2),
            List.find?_cons_of_neg _ (by simpa using hk2)]
          exact ih
  · rw [if_neg hmem]
    unfold dictLookup
    rw [List.find?_append]
    have hsing : List.find? (fun e => decide (e.1 = k2)) [(k, v)] = none := by
      rw [List.find?_cons_of_neg _ (by simpa using fun h => hne h.symm)]
      rfl
    cases hf : List.find? (fun e => decide (e.1 = k2)) dFlat with
    | some x => simp [hf, hsing]
    | none => simp [hf, hsing]

theorem lookup_self_of_nodup : ∀ (d : Dict), (d.map (fun e => e.1)).Nodup →
    ∀ e ∈ d, dictLookup d e.1 = some e.2 := by
  intro d
  induction d with
  | nil => intro _ e he; simp at he
  | cons a rest ih =>
    intro h e he
    simp only [List.map_cons, List.nodup_cons] at h
    obtain ⟨hnot, hnd⟩ := h
    unfold dictLookup
    rcases List.mem_cons.mp he with rfl | hmem
    · rw [List.find?_cons_of_pos _ (by simp)]
      rfl
    · have hne : ¬ a.1 = e.1 := fun heq => hnot (heq ▸ List.mem_map_of_mem (fun x => x.1) hmem)
      rw [List.find?_cons_of_neg _ (by simpa using hne)]
      exact ih hnd e hmem

theorem specC3NewKey_ne_tup (d : Dict) (sk : Bool) (b : String) (sufs : List String)
    (b2 : String) (s2 : List String) : ¬ (Key.tup b2 s2 = specC3NewKey d sk b sufs) := by
  unfold specC3NewKey
  split <;> simp

theorem c3CodeStep_eq (d : Dict) (skipdups : Bool) (dFlat : Dict) (e : Key × Value)
    (hv : (∃ b s, e.1 = Key.tup b s) → dictLookup dFlat e.1 = some e.2) :
    c3CodeStep d skipdups dFlat e = c3SpecStep d skipdups dFlat e := by
  obtain ⟨k, v⟩ := e
  match k with
  | .plain str =>
    show dropSuffixStep d skipdups dFlat (.plain str) = dFlat
    unfold dropSuffixStep
    split <;> rfl
  | .tup base sufs =>
    have hl : dictLookup dFlat (Key.tup base sufs) = some v := hv ⟨base, sufs, rfl⟩
    show dropSuffixStep d skipdups dFlat (.tup base sufs) =
      c3SpecStep d skipdups dFlat (Key.tup base sufs, v)
    simp only [dropSuffixStep, c3SpecStep, specC3NewKey, hl, Option.getD_some]

theorem c3SpecStep_lookup (d : Dict) (skipdups : Bool) (dFlat : Dict) (e : Key × Value)
    (k2 : Key) (hne : ¬ k2 = e.1) (htup : ∃ b s, k2 = Key.tup b s) :
    dictLookup (c3SpecStep d skipdups dFlat e) k2 = dictLookup dFlat k2 := by
  obtain ⟨k, v⟩ := e
  match k with
  | .plain str => rfl
  | .tup base sufs =>
    show dictLookup (c3SpecStep d skipdups dFlat (Key.tup base sufs, v)) k2 = _
    simp only [c3SpecStep]
    by_cases hres : keyReserved (Key.tup base sufs) = true
    · rw [if_pos hres]
    · rw [if_neg hres]
      by_cases hq : (skipdups = true) ∧ dictMem d (Key.plain base) = true ∧
          dictLookup d (Key.plain base) = dictLookup d (Key.tup base sufs)
      · rw [if_pos hq]
        exact dictLookup_erase_ne dFlat (Key.tup base sufs) k2 (by simpa using hne)
      · rw [if_neg hq]
        obtain ⟨b2, s2, rfl⟩ := htup
        rw [dictLookup_set_ne _ _ _ _ (specC3NewKey_ne_tup d skipdups base sufs b2 s2)]
        exact dictLookup_erase_ne dFlat (Key.tup base sufs) (Key.tup b2 s2)
          (by simpa using hne)

theorem c3_fold_eq (d : Dict) (skipdups : Bool) :
    ∀ (todo : List (Key × Value)) (dFlat : Dict),
    (todo.map (fun e => e.1)).Nodup →
    (∀ e ∈ todo, (∃ b s, e.1 = Key.tup b s) → dictLookup dFlat e.1 = some e.2) →
    todo.foldl (c3CodeStep d skipdups) dFlat =
      todo.foldl (c3SpecStep d skipdups) dFlat := by
  intro todo
  induction todo with
  | nil => intro dFlat _ _; rfl
  | cons e todo ih =>
    intro dFlat hnd hinv
    simp only [List.map_cons, List.nodup_cons] at hnd
    obtain ⟨hnot, hnd2⟩ := hnd
    simp only [List.foldl_cons]
    rw [c3CodeStep_eq d skipdups dFlat e (hinv e (List.mem_cons_self e todo))]
    apply ih (c3SpecStep d skipdups dFlat e) hnd2
    intro e2 he2 htup
    have hne : ¬ e2.1 = e.1 :=
      fun heq => hnot (heq ▸ List.mem_map_of_mem (fun x => x.1) he2)
    rw [c3SpecStep_lookup d skipdups dFlat e e2.1 hne htup]
    exact hinv e2 (List.mem_cons_of_mem e he2) htup

/-- C3 (amended): on dictionaries with no duplicate keys (always the case
for Python dicts), `drop_suffixes` performs exactly the amended renaming:
a quick drop for a tuple key whose plain base key holds the same value,
then the all-agree collapse to the bare base, then the reversed-suffix
concatenation. -/
theorem c3_amended (d : Dict) (skipdups : Bool) (h : keysUnique d) :
    dropSuffixes d skipdups = specC3AmendedFlatten d skipdups := by
  have hfold := c3_fold_eq d skipdups d d h
    (fun e he _ => lookup_self_of_nodup d h e he)
  exact hfold

/-- C3 (amended): witness at the counterexample dictionary. -/
theorem c3_amended_witness :
    keysUnique exC3Dict ∧
      dropSuffixes exC3Dict true = specC3AmendedFlatten exC3Dict true :=
  ⟨by unfold keysUnique; decide,
    c3_amended exC3Dict true (by unfold keysUnique; decide)⟩

/-! ### C4: the joined-name formula on the domain of definition -/

theorem splitOnDot_ne_nil : ∀ (l : List Char), splitOnDot l ≠ [] := by
  intro l
  cases l with
  | nil => simp [splitOnDot]
  | cons c rest =>
    simp only [splitOnDot]
    split
    · simp
    · split <;> simp

theorem splitOnDot_no_dot : ∀ (l : List Char), ¬ '.' ∈ l → splitOnDot l = [l] := by
  intro l
  induction l with
  | nil => intro _; rfl
  | cons c rest ih =>
    intro h
    have hc : ¬ c = '.' := fun e => h (e ▸ List.mem_cons_self c rest)
    have hr : ¬ '.' ∈ rest := fun e => h (List.mem_cons_of_mem c e)
    simp only [splitOnDot, if_neg hc, ih hr]

theorem splitOnDot_dot : ∀ (l : List Char), '.' ∈ l →
    ∃ h t, splitOnDot l = h :: t ∧ t ≠ [] := by
  intro l
  induction l with
  | nil => intro h; simp at h
  | cons c rest ih =>
    intro h
    by_cases hc : c = '.'
    · subst hc
      exact ⟨[], splitOnDot rest, by simp [splitOnDot], splitOnDot_ne_nil rest⟩
    · have hr : '.' ∈ rest := by
        rcases List.mem_cons.mp h with he | hr
        · exact absurd he.symm hc
        · exact hr
      obtain ⟨h1, t1, hs, ht⟩ := ih hr
      exact ⟨c :: h1, t1, by simp [splitOnDot, if_neg hc, hs], ht⟩

theorem code_no_dot (c : Char) (rest : List Char) (h : ¬ '.' ∈ rest) :
    interDot (splitOnDot (c :: rest)).dropLast = [] := by
  by_cases hc : c = '.'
  · subst hc
    have h1 : splitOnDot ('.' :: rest) = [] :: splitOnDot rest := by simp [splitOnDot]
    rw [h1, splitOnDot_no_dot rest h]
    rfl
  · have h2 : ¬ '.' ∈ (c :: rest) := by
      intro hm
      rcases List.mem_cons.mp hm with he | hr
      · exact hc he.symm
      · exact h hr
    rw [splitOnDot_no_dot (c :: rest) h2]
    rfl

theorem code_dot_cons (c : Char) (rest : List Char) (h : '.' ∈ rest) :
    interDot (splitOnDot (c :: rest)).dropLast =
      c :: interDot (splitOnDot rest).dropLast := by
  obtain ⟨h1, t1, hs, ht⟩ := splitOnDot_dot rest h
  by_cases hc : c = '.'
  · subst hc
    have he : splitOnDot ('.' :: rest) = [] :: splitOnDot rest := by simp [splitOnDot]
    rw [he, hs]
    rw [List.dropLast_cons_of_ne_nil (by simp : h1 :: t1 ≠ [])]
    rw [List.dropLast_cons_of_ne_nil ht]
    rfl
  · have he : splitOnDot (c :: rest) = (c :: h1) :: t1 := by
      simp [splitOnDot, if_neg hc, hs]
    rw [he, hs]
    rw [List.dropLast_cons_of_ne_nil ht, List.dropLast_cons_of_ne_nil ht]
    by_cases hdl : t1.dropLast = []
    · rw [hdl]
      rfl
    · obtain ⟨x, xs, hxe⟩ := List.exists_cons_of_ne_nil hdl
      rw [hxe]
      rfl

theorem trim_no_dot (c : Char) (rest : List Char) (h : ¬ '.' ∈ rest) :
    specTrimToLastDot (c :: rest) = [] := by
  unfold specTrimToLastDot
  rw [List.reverse_cons, List.dropWhile_append]
  have hemp : (List.dropWhile (fun x => decide ¬ x = '.') rest.reverse).isEmpty = true := by
    rw [List.isEmpty_iff, List.dropWhile_eq_nil_iff]
    intro x hx
    simp only [decide_eq_true_eq]
    exact fun heq => h (heq ▸ List.mem_reverse.mp hx)
  rw [if_pos hemp]
  by_cases hc : c = '.'
  · subst hc
    rfl
  · rw [List.dropWhile_cons]
    rw [if_pos (by simpa using hc)]
    rfl

theorem trim_dot_cons (c : Char) (rest : List Char) (h : '.' ∈ rest) :
    specTrimToLastDot (c :: rest) = c :: specTrimToLastDot rest := by
  unfold specTrimToLastDot
  rw [List.reverse_cons, List.dropWhile_append]
  have hne : List.dropWhile (fun x => decide ¬ x = '.') rest.reverse ≠ [] := by
    rw [Ne, List.dropWhile_eq_nil_iff]
    push_neg
    exact ⟨'.', List.mem_reverse.mpr h, by simp⟩
  rw [if_neg (by simpa [List.isEmpty_iff] using hne)]
  rw [List.drop_append_of_le_length (List.length_pos.mpr hne)]
  rw [List.reverse_append]
  rfl

theorem trim_eq_code : ∀ (l : List Char),
    interDot (splitOnDot l).dropLast = specTrimToLastDot l := by
  intro l
  induction l with
  | nil => rfl
  | cons c rest ih =>
    by_cases h : '.' ∈ rest
    · rw [code_dot_cons c rest h, trim_dot_cons c rest h, ih]
    · rw [code_no_dot c rest h, trim_no_dot c rest h]

theorem zip_findIdx_commonPre : ∀ (l1 l2 : List Char) (s i : ℕ),
    List.findIdx? (fun p => ¬ p.1 = p.2) (l1.zip l2) s = some i →
    s ≤ i ∧ specCommonPre l1 l2 = l1.take (i - s) := by
  intro l1
  induction l1 with
  | nil =>
    intro l2 s i h
    rw [List.zip_nil_left] at h
    simp [List.findIdx?_nil] at h
  | cons a t1 ih =>
    intro l2 s i h
    cases l2 with
    | nil =>
      rw [List.zip_nil_right] at h
      simp [List.findIdx?_nil] at h
    | cons b t2 =>
      rw [List.zip_cons_cons, List.findIdx?_cons] at h
      by_cases hab : a = b
      · rw [if_neg (by simp [hab])] at h
        obtain ⟨hsi, hcp⟩ := ih t2 (s + 1) i h
        refine ⟨by omega, ?_⟩
        have hhd : specCommonPre (a :: t1) (b :: t2) = a :: specCommonPre t1 t2 := by
          simp [specCommonPre, List.takeWhile_cons, hab]
        rw [hhd, hcp]
        have his : i - s = (i - (s + 1)) + 1 := by omega
        rw [his]
        rfl
      · rw [if_pos (by simp [hab])] at h
        injection h with hi
        subst hi
        refine ⟨le_refl s, ?_⟩
        have hhd : specCommonPre (a :: t1) (b :: t2) = [] := by
          simp [specCommonPre, List.takeWhile_cons, hab]
        rw [hhd]
        simp

/-- C4 (amended): on the domain where `join_names` is defined — the two
names disagree at some position within the shorter length, and the trimmed
common prefix contains no regex metacharacter — the merged name is exactly
the claimed formula: common character prefix trimmed back to the last dot,
then `prefix + suffix1 + suffix2`, or `suffix1 + "." + suffix2` for an
empty trimmed prefix. -/
theorem c4_amended (n1 n2 : String)
    (hmis : ∃ p ∈ n1.toList.zip n2.toList, ¬ p.1 = p.2)
    (hplain : (specTrimToLastDot (specCommonPre n1.toList n2.toList)).all
      regexPlainChar = true) :
    joinNames n1 n2 = some (specJoinedName n1 n2) := by
  cases hidx : List.findIdx? (fun p => ¬ p.1 = p.2) (n1.toList.zip n2.toList) with
  | none =>
    exfalso
    obtain ⟨p, hp, hne⟩ := hmis
    have hall := List.findIdx?_eq_none_iff.mp hidx p hp
    simp at hall
    exact hne hall
  | some i =>
    obtain ⟨hsi, hcp⟩ := zip_findIdx_commonPre n1.toList n2.toList 0 i hidx
    simp only [Nat.sub_zero] at hcp
    have hcpe : interDot (splitOnDot (n1.toList.take i)).dropLast =
        specTrimToLastDot (specCommonPre n1.toList n2.toList) := by
      rw [trim_eq_code, hcp]
    simp only [joinNames, hidx, hcpe]
    rw [if_pos hplain]
    unfold specJoinedName
    rfl

/-- C4 (amended): witness at the names `a.b` and `a.c`. -/
theorem c4_amended_witness :
    (∃ p ∈ ("a.b" : String).toList.zip ("a.c" : String).toList, ¬ p.1 = p.2) ∧
    (specTrimToLastDot (specCommonPre ("a.b" : String).toList
      ("a.c" : String).toList)).all regexPlainChar = true ∧
    joinNames "a.b" "a.c" = some (specJoinedName "a.b" "a.c") :=
  ⟨by decide, by decide, c4_amended "a.b" "a.c" (by decide) (by decide)⟩

/-! ### C7: suffix bounds, amended -/

/-- C7 (amended): the bounded-key post-processing as the code performs it.
For a `k_max` key: when the bare key `k` is absent its value is set
unconditionally (the `tmp_key not in d or ...` short-circuit); when
present, the pair is compared and the bound overwrites only on a strictly
greater comparison (dually `k_min` with less-than; `k_fixed` sets
unconditionally).  The comparison parses both values as data sizes with
default unit `M` whenever *either* value contains a unit letter anywhere,
and as plain integers when neither does; a trailing unit letter multiplies
the float-parsed numeric portion by the corresponding power of 1024. -/
theorem c7_amended :
    (∀ (d : Dict) (tmp : List (String × Value)) (s : String) (v : Value),
      pyEndsWith s "_max" = true →
      dictLookup d (.plain (splitFirst s "_max")) = none →
      suffixBoundStep d tmp s v = some (assocSet tmp (splitFirst s "_max") v)) ∧
    (∀ (d : Dict) (tmp : List (String × Value)) (s : String) (v cur : Value),
      pyEndsWith s "_max" = true →
      dictLookup d (.plain (splitFirst s "_max")) = some cur →
      suffixBoundStep d tmp s v = (compareValues cur v).map (fun o =>
        if o = Ordering.gt then assocSet tmp (splitFirst s "_max") v else tmp)) ∧
    (∀ (d : Dict) (tmp : List (String × Value)) (s : String) (v : Value),
      pyEndsWith s "_max" = false → pyEndsWith s "_min" = true →
      dictLookup d (.plain (splitFirst s "_min")) = none →
      suffixBoundStep d tmp s v = some (assocSet tmp (splitFirst s "_min") v)) ∧
    (∀ (d : Dict) (tmp : List (String × Value)) (s : String) (v cur : Value),
      pyEndsWith s "_max" = false → pyEndsWith s "_min" = true →
      dictLookup d (.plain (splitFirst s "_min")) = some cur →
      suffixBoundStep d tmp s v = (compareValues cur v).map (fun o =>
        if o = Ordering.lt then assocSet tmp (splitFirst s "_min") v else tmp)) ∧
    (∀ (d : Dict) (tmp : List (String × Value)) (s : String) (v : Value),
      pyEndsWith s "_max" = false → pyEndsWith s "_min" = false →
      pyEndsWith s "_fixed" = true →
      suffixBoundStep d tmp s v = some (assocSet tmp (splitFirst s "_fixed") v)) ∧
    (∀ s1 s2 : String, (s1.toList.any isOrderChar || s2.toList.any isOrderChar) = true →
      compareString s1 s2 = (convertDataSize s1 "M").bind (fun v1 =>
        (convertDataSize s2 "M").map (fun v2 => compare v1 v2))) ∧
    (∀ s1 s2 : String, (s1.toList.any isOrderChar || s2.toList.any isOrderChar) = false →
      compareString s1 s2 = (pyParseInt s1).bind (fun v1 =>
        (pyParseInt s2).map (fun v2 => compare v1 v2))) ∧
    (∀ (numl : List Char) (c : Char) (dflt : String) (q : ℚ) (m : ℤ),
      isOrderChar c = true → pyParseFloat (String.mk numl) = some q →
      ordersLookup c.toUpper = some m →
      convertDataSize (String.mk (numl ++ [c])) dflt = some (pyTrunc (q * (m : ℚ)))) := by
  refine ⟨?_, ?_, ?_, ?_, ?_, ?_, ?_, ?_⟩
  · intro d tmp s v hmax hnone
    unfold suffixBoundStep
    rw [if_pos hmax]
    simp only [hnone]
  · intro d tmp s v cur hmax hsome
    unfold suffixBoundStep
    rw [if_pos hmax]
    simp only [hsome]
  · intro d tmp s v hmax hmin hnone
    unfold suffixBoundStep
    rw [if_neg (by simp [hmax]), if_pos hmin]
    simp only [hnone]
  · intro d tmp s v cur hmax hmin hsome
    unfold suffixBoundStep
    rw [if_neg (by simp [hmax]), if_pos hmin]
    simp only [hsome]
  · intro d tmp s v hmax hmin hfix
    unfold suffixBoundStep
    rw [if_neg (by simp [hmax]), if_neg (by simp [hmin]), if_pos hfix]
  · intro s1 s2 h12
    unfold compareString
    rw [if_pos (by simpa using h12)]
  · intro s1 s2 h12
    unfold compareString
    rw [if_neg (by simpa using h12)]
  · intro numl c dflt q m hc hparse horder
    unfold convertDataSize
    have hlast : (String.mk (numl ++ [c])).toList.getLast? = some c := by
      show (numl ++ [c]).getLast? = some c
      simp
    simp only [hlast]
    rw [if_pos hc]
    have hdl : (String.mk (numl ++ [c])).toList.dropLast = numl := by
      show (numl ++ [c]).dropLast = numl
      simp
    rw [hdl, hparse, horder]
    rfl

/-- C7 (amended): witness at the counterexample dictionary (absent bare key
set unconditionally) and at the sized value `2K` (trailing unit multiplied
in with a float-parsed numeral). -/
theorem c7_amended_witness :
    suffixBoundStep exC7Dict [] "x_max" (.str "5") =
      some (assocSet [] (splitFirst "x_max" "_max") (.str "5")) ∧
    convertDataSize (String.mk ("2".toList ++ ['K'])) "B" =
      some (pyTrunc ((2 : ℚ) * ((1024 : ℤ) : ℚ))) :=
  ⟨c7_amended.1 exC7Dict [] "x_max" (.str "5") (by decide) (by decide),
   c7_amended.2.2.2.2.2.2.2 "2".toList 'K' "B" 2 1024 (by decide) (by decide)
     (by decide)⟩

/-! ### C2: the typing invariant of emitted dictionaries -/

theorem mem_dictSet {d : Dict} {k : Key} {v : Value} {e : Key × Value}
    (h : e ∈ dictSet d k v) : e ∈ d ∨ e = (k, v) := by
  unfold dictSet at h
  by_cases hm : d.any (fun x => x.1 = k) = true
  · rw [if_pos hm] at h
    rcases List.mem_map.mp h with ⟨a, ha, hae⟩
    by_cases hak : a.1 = k
    · right
      rw [← hae, if_pos hak]
    · left
      rw [← hae, if_neg hak]
      exact ha
  · rw [if_neg hm] at h
    rcases List.mem_append.mp h with ha | ha
    · exact Or.inl ha
    · right
      simpa using ha

theorem dictMem_dictSet {d : Dict} {k k2 : Key} {v : Value}
    (h : dictMem d k2 = true) : dictMem (dictSet d k v) k2 = true := by
  unfold dictMem dictSet
  rcases List.any_eq_true.mp h with ⟨e, he, hek⟩
  have hek2 : e.1 = k2 := by simpa using hek
  by_cases hm : d.any (fun x => x.1 = k) = true
  · rw [if_pos hm]
    apply List.any_eq_true.mpr
    by_cases hekk : e.1 = k
    · refine ⟨(k, v), List.mem_map.mpr ⟨e, he, by rw [if_pos hekk]⟩, ?_⟩
      simp [← hekk, hek2]
    · exact ⟨e, List.mem_map.mpr ⟨e, he, by rw [if_neg hekk]⟩, hek⟩
  · rw [if_neg hm]
    exact List.any_eq_true.mpr ⟨e, List.mem_append.mpr (Or.inl he), hek⟩

theorem mem_dictErase {d : Dict} {k : Key} {e : Key × Value}
    (h : e ∈ dictErase d k) : e ∈ d :=
  List.mem_of_mem_filter h

theorem dictMem_dictErase {d : Dict} {k k2 : Key} (hne : ¬ k2 = k)
    (h : dictMem d k2 = true) : dictMem (dictErase d k) k2 = true := by
  rcases List.any_eq_true.mp h with ⟨e, he, hek⟩
  have hek2 : e.1 = k2 := by simpa using hek
  apply List.any_eq_true.mpr
  refine ⟨e, List.mem_filter.mpr ⟨he, ?_⟩, hek⟩
  simp only [hek2, decide_eq_true_eq]
  exact hne

theorem dictLookup_mem {d : Dict} {k : Key} {v : Value}
    (h : dictLookup d k = some v) : (k, v) ∈ d := by
  unfold dictLookup at h
  cases hf : d.find? (fun e => decide (e.1 = k)) with
  | none => rw [hf] at h; simp at h
  | some e =>
    rw [hf] at h
    simp only [Option.map_some'] at h
    have hmem := List.mem_of_find?_eq_some hf
    have hek : e.1 = k := by simpa using List.find?_some hf
    injection h with hv
    have he : e = (k, v) := Prod.ext hek hv
    exact he ▸ hmem

theorem keyVal_str (k : Key) (s : String) : keyVal k (.str s) := by
  unfold keyVal
  split
  · simp [isStr, isStrList]
  · split
    · simp [isStr, isStrMap]
    · simp [isStr]

theorem keyVal_of_isStr {k : Key} {v : Value} (h : isStr v = true) : keyVal k v := by
  match v with
  | .str s => exact keyVal_str k s
  | .strList _ => simp [isStr] at h
  | .strMap _ => simp [isStr] at h

theorem keyVal_strMap_mapkey {k : Key}
    (hk : k = .plain "_name_map_file" ∨ k = .plain "_short_name_map_file")
    (m : List (String × String)) : keyVal k (.strMap m) := by
  unfold keyVal
  have hdep : ¬ k = Key.plain "dep" := by
    rcases hk with h | h <;> (rw [h]; simp)
  rw [if_neg hdep, if_pos hk]
  simp [isStrMap]

theorem keyVal_nonres_isStr {k : Key} {v : Value} (hk : keyReserved k = false)
    (h : keyVal k v) : isStr v = true := by
  unfold keyVal at h
  split at h
  · rename_i hdep
    rw [hdep] at hk
    simp [keyReserved, reservedKeys] at hk
  · split at h
    · rename_i hmap
      rcases hmap with h2 | h2 <;>
        (rw [h2] at hk; simp [keyReserved, reservedKeys] at hk)
    · exact h

theorem dictTyped_set {d : Dict} {k : Key} {v : Value} (hd : dictTyped d)
    (hkv : keyVal k v) : dictTyped (dictSet d k v) := by
  obtain ⟨h1, h2, h3, h4⟩ := hd
  refine ⟨dictMem_dictSet h1, dictMem_dictSet h2, dictMem_dictSet h3, ?_⟩
  intro e he
  rcases mem_dictSet he with he2 | he2
  · exact h4 e he2
  · rw [he2]
    exact hkv

theorem reserved_ne_of_nonres {k : Key} (hk : keyReserved k = false)
    {s : String} (hs : s ∈ reservedKeys) : ¬ (Key.plain s) = k := by
  intro heq
  rw [← heq] at hk
  simp only [keyReserved] at hk
  rw [List.contains_eq_any_beq] at hk
  have hany : reservedKeys.any (fun x => s == x) = true :=
    List.any_eq_true.mpr ⟨s, hs, by simp⟩
  rw [hk] at hany
  exact Bool.false_ne_true hany

theorem dictTyped_erase_nonres {d : Dict} {k : Key} (hd : dictTyped d)
    (hk : keyReserved k = false) : dictTyped (dictErase d k) := by
  obtain ⟨h1, h2, h3, h4⟩ := hd
  refine ⟨dictMem_dictErase (reserved_ne_of_nonres hk (by simp [reservedKeys])) h1,
    dictMem_dictErase (reserved_ne_of_nonres hk (by simp [reservedKeys])) h2,
    dictMem_dictErase (reserved_ne_of_nonres hk (by simp [reservedKeys])) h3,
    fun e he => h4 e (mem_dictErase he)⟩

theorem isStr_getD {o : Option Value} {v : Value} (ho : ∀ w, o = some w → isStr w = true)
    (hv : isStr v = true) : isStr (o.getD v) = true := by
  cases o with
  | none => exact hv
  | some w => exact ho w rfl

theorem foldlM_option_preserves {α β : Type} (P : β → Prop) :
    ∀ (l : List α) (f : β → α → Option β),
    (∀ acc a b, a ∈ l → P acc → f acc a = some b → P b) →
    ∀ (acc res : β), P acc → l.foldlM f acc = some res → P res := by
  intro l
  induction l with
  | nil =>
    intro f _ acc res hP h
    simp only [List.foldlM_nil] at h
    injection h with h2
    exact h2 ▸ hP
  | cons a rest ih =>
    intro f hf acc res hP h
    rw [List.foldlM_cons] at h
    cases hf1 : f acc a with
    | none => rw [hf1] at h; simp at h
    | some b =>
      rw [hf1] at h
      exact ih f (fun acc2 a2 b2 ha2 => hf acc2 a2 b2 (List.mem_cons_of_mem a ha2))
        b res (hf acc a b (List.mem_cons_self a rest) hP hf1) h

theorem foldl_preserves {α β : Type} (P : β → Prop) :
    ∀ (l : List α) (f : β → α → β),
    (∀ acc a, a ∈ l → P acc → P (f acc a)) →
    ∀ (acc : β), P acc → P (l.foldl f acc) := by
  intro l
  induction l with
  | nil => intro f _ acc hP; simpa using hP
  | cons a rest ih =>
    intro f hf acc hP
    simp only [List.foldl_cons]
    exact ih f (fun acc2 a2 ha2 => hf acc2 a2 (List.mem_cons_of_mem a ha2))
      (f acc a) (hf acc a (List.mem_cons_self a rest) hP)

theorem applyOp_typed {op : Op} {d d2 : Dict} (hwf : opWf op) (hd : dictTyped d)
    (h : applyOp op d = some d2) : dictTyped d2 := by
  cases op with
  | set name value =>
    simp only [applyOp] at h
    by_cases hres : reservedKeys.contains name = true
    · rw [if_pos hres] at h
      injection h with h2
      exact h2 ▸ hd
    · rw [if_neg hres] at h
      injection h with h2
      exact h2 ▸ dictTyped_set hd (keyVal_str _ _)
  | append name value =>
    simp only [applyOp] at h
    by_cases hres : reservedKeys.contains name = true
    · rw [if_pos hres] at h
      injection h with h2
      exact h2 ▸ hd
    · rw [if_neg hres] at h
      cases hl : (dictLookup d (.plain name)).getD (.str "") with
      | str s2 =>
        rw [hl] at h
        injection h with h2
        exact h2 ▸ dictTyped_set hd (keyVal_str _ _)
      | strList l2 => rw [hl] at h; simp at h
      | strMap m2 => rw [hl] at h; simp at h
  | prepend name value =>
    simp only [applyOp] at h
    by_cases hres : reservedKeys.contains name = true
    · rw [if_pos hres] at h
      injection h with h2
      exact h2 ▸ hd
    · rw [if_neg hres] at h
      cases hl : (dictLookup d (.plain name)).getD (.str "") with
      | str s2 =>
        rw [hl] at h
        injection h with h2
        exact h2 ▸ dictTyped_set hd (keyVal_str _ _)
      | strList l2 => rw [hl] at h; simp at h
      | strMap m2 => rw [hl] at h; simp at h
  | lazySet name value =>
    simp only [applyOp] at h
    by_cases hres : (reservedKeys.contains name = true) ∨ dictMem d (.plain name) = true
    · rw [if_pos hres] at h
      injection h with h2
      exact h2 ▸ hd
    · rw [if_neg hres] at h
      injection h with h2
      exact h2 ▸ dictTyped_set hd (keyVal_str _ _)
  | regexSet name value =>
    simp only [applyOp] at h
    refine foldlM_option_preserves dictTyped d _ ?_ d d2 hd h
    intro acc e b _ hP hstep
    cases hm : pyRegexFullMatch name (keyStr e.1) with
    | none => rw [hm] at hstep; simp at hstep
    | some m =>
      rw [hm] at hstep
      simp only [Option.map_some'] at hstep
      injection hstep with h2
      subst h2
      split
      · exact dictTyped_set hP (keyVal_str _ _)
      · exact hP
  | regexAppend name value =>
    simp only [applyOp] at h
    refine foldlM_option_preserves dictTyped d _ ?_ d d2 hd h
    intro acc e b _ hP hstep
    cases hm : pyRegexFullMatch name (keyStr e.1) with
    | none => rw [hm] at hstep; simp at hstep
    | some m =>
      rw [hm] at hstep
      simp only [Option.bind] at hstep
      by_cases hc : (!(keyReserved e.1) && m) = true
      · rw [if_pos hc] at hstep
        cases hl : dictLookup acc e.1 with
        | none => rw [hl] at hstep; simp at hstep
        | some w =>
          rw [hl] at hstep
          cases w with
          | str s2 =>
            injection hstep with h2
            exact h2 ▸ dictTyped_set hP (keyVal_str _ _)
          | strList l2 => simp at hstep
          | strMap m2 => simp at hstep
      · rw [if_neg hc] at hstep
        injection hstep with h2
        exact h2 ▸ hP
  | regexPrepend name value =>
    simp only [applyOp] at h
    refine foldlM_option_preserves dictTyped d _ ?_ d d2 hd h
    intro acc e b _ hP hstep
    cases hm : pyRegexFullMatch name (keyStr e.1) with
    | none => rw [hm] at hstep; simp at hstep
    | some m =>
      rw [hm] at hstep
      simp only [Option.bind] at hstep
      by_cases hc : (!(keyReserved e.1) && m) = true
      · rw [if_pos hc] at hstep
        cases hl : dictLookup acc e.1 with
        | none => rw [hl] at hstep; simp at hstep
        | some w =>
          rw [hl] at hstep
          cases w with
          | str s2 =>
            injection hstep with h2
            exact h2 ▸ dictTyped_set hP (keyVal_str _ _)
          | strList l2 => simp at hstep
          | strMap m2 => simp at hstep
      · rw [if_neg hc] at hstep
        injection hstep with h2
        exact h2 ▸ hP
  | del name =>
    simp only [applyOp] at h
    refine foldlM_option_preserves dictTyped d _ ?_ d d2 hd h
    intro acc e b _ hP hstep
    cases hm : pyRegexFullMatch name (keyStr e.1) with
    | none => rw [hm] at hstep; simp at hstep
    | some m =>
      rw [hm] at hstep
      simp only [Option.map_some'] at hstep
      injection hstep with h2
      subst h2
      split
      · rename_i hc
        have hres : keyReserved e.1 = false := by
          have h3 := (Bool.and_eq_true _ _).mp hc
          simpa using h3.1
        exact dictTyped_erase_nonres hP hres
      · exact hP
  | applyPreDict payload =>
    simp only [applyOp] at h
    injection h with h2
    rw [← h2]
    exact foldl_preserves dictTyped payload _
      (fun acc a _ hP => dictTyped_set hP (keyVal_str _ _)) d hd
  | updateFileMap short2 name dest =>
    simp only [applyOp] at h
    have hdest : Key.plain dest = .plain "_name_map_file" ∨
        Key.plain dest = .plain "_short_name_map_file" := by
      rcases hwf with h2 | h2
      · left; rw [h2]
      · right; rw [h2]
    cases hl : dictLookup d (.plain dest) with
    | none =>
      rw [hl] at h
      injection h with h2
      exact h2 ▸ dictTyped_set hd (keyVal_strMap_mapkey hdest _)
    | some w =>
      rw [hl] at h
      cases w with
      | strMap m =>
        injection h with h2
        exact h2 ▸ dictTyped_set hd (keyVal_strMap_mapkey hdest _)
      | str s2 => simp at h
      | strList l2 => simp at h
  | suffix value =>
    simp only [applyOp] at h
    injection h with h2
    rw [← h2]
    refine foldl_preserves dictTyped d _ ?_ d hd
    intro acc e he hP
    by_cases hres : keyReserved e.1 = true
    · rw [if_pos hres]
      exact hP
    · rw [if_neg hres]
      have hres2 : keyReserved e.1 = false := by simpa using hres
      refine dictTyped_set (dictTyped_erase_nonres hP hres2) ?_
      apply keyVal_of_isStr
      apply isStr_getD
      · intro w hw
        exact keyVal_nonres_isStr hres2 (hP.2.2.2 _ (dictLookup_mem hw))
      · exact keyVal_nonres_isStr hres2 (hd.2.2.2 e he)

theorem mem_assocSet {tmp : List (String × Value)} {k : String} {v : Value}
    {e : String × Value} (h : e ∈ assocSet tmp k v) : e ∈ tmp ∨ e = (k, v) := by
  unfold assocSet at h
  by_cases hm : tmp.any (fun x => x.1 = k) = true
  · rw [if_pos hm] at h
    rcases List.mem_map.mp h with ⟨a, ha, hae⟩
    by_cases hak : a.1 = k
    · right
      rw [← hae, if_pos hak]
    · left
      rw [← hae, if_neg hak]
      exact ha
  · rw [if_neg hm] at h
    rcases List.mem_append.mp h with ha | ha
    · exact Or.inl ha
    · right
      simpa using ha

theorem keyVal_isStr_of_ends {s : String} {v : Value} (hkv : keyVal (.plain s) v)
    (hend : pyEndsWith s "_max" = true ∨ pyEndsWith s "_min" = true ∨
      pyEndsWith s "_fixed" = true) : isStr v = true := by
  unfold keyVal at hkv
  split at hkv
  · rename_i hdep
    injection hdep with hs
    subst hs
    rcases hend with h | h | h <;> exact absurd h (by decide)
  · split at hkv
    · rename_i hmap
      rcases hmap with h2 | h2 <;>
        (injection h2 with hs; subst hs;
          rcases hend with h | h | h <;> exact absurd h (by decide))
    · exact hkv

theorem suffixBoundStep_strs {d : Dict} {tmp tmp2 : List (String × Value)}
    {s : String} {v : Value} (hkv : keyVal (.plain s) v)
    (hP : ∀ e ∈ tmp, isStr e.2 = true)
    (h : suffixBoundStep d tmp s v = some tmp2) : ∀ e ∈ tmp2, isStr e.2 = true := by
  have hset : ∀ (k : String), (pyEndsWith s "_max" = true ∨ pyEndsWith s "_min" = true ∨
      pyEndsWith s "_fixed" = true) →
      ∀ e ∈ assocSet tmp k v, isStr e.2 = true := by
    intro k hend e he
    rcases mem_assocSet he with h2 | h2
    · exact hP e h2
    · rw [h2]
      exact keyVal_isStr_of_ends hkv hend
  simp only [suffixBoundStep] at h
  by_cases hmax : pyEndsWith s "_max" = true
  · rw [if_pos hmax] at h
    cases hl : dictLookup d (.plain (splitFirst s "_max")) with
    | none =>
      simp only [hl] at h
      injection h with h2
      exact h2 ▸ hset _ (Or.inl hmax)
    | some cur =>
      simp only [hl] at h
      cases hc : compareValues cur v with
      | none => rw [hc] at h; simp at h
      | some o =>
        rw [hc] at h
        simp only [Option.map_some'] at h
        injection h with h2
        rw [← h2]
        split
        · exact hset _ (Or.inl hmax)
        · exact hP
  · rw [if_neg hmax] at h
    by_cases hmin : pyEndsWith s "_min" = true
    · rw [if_pos hmin] at h
      cases hl : dictLookup d (.plain (splitFirst s "_min")) with
      | none =>
        simp only [hl] at h
        injection h with h2
        exact h2 ▸ hset _ (Or.inr (Or.inl hmin))
      | some cur =>
        simp only [hl] at h
        cases hc : compareValues cur v with
        | none => rw [hc] at h; simp at h
        | some o =>
          rw [hc] at h
          simp only [Option.map_some'] at h
          injection h with h2
          rw [← h2]
          split
          · exact hset _ (Or.inr (Or.inl hmin))
          · exact hP
    · rw [if_neg hmin] at h
      by_cases hfix : pyEndsWith s "_fixed" = true
      · rw [if_pos hfix] at h
        injection h with h2
        exact h2 ▸ hset _ (Or.inr (Or.inr hfix))
      · rw [if_neg hfix] at h
        injection h with h2
        exact h2 ▸ hP

theorem applySuffixBounds_typed {d d2 : Dict} (hd : dictTyped d)
    (h : applySuffixBounds d = some d2) : dictTyped d2 := by
  unfold applySuffixBounds at h
  cases htmp : d.foldlM (fun tmp e =>
      match e.1 with
      | .tup _ _ => some tmp
      | .plain s => suffixBoundStep d tmp s e.2) ([] : List (String × Value)) with
  | none => rw [htmp] at h; simp at h
  | some t =>
    rw [htmp] at h
    simp only [Option.map_some'] at h
    injection h with h2
    have hstrs : ∀ e ∈ t, isStr e.2 = true := by
      refine foldlM_option_preserves (fun tm => ∀ e ∈ tm, isStr e.2 = true) d _ ?_
        [] t (by intro e he; simp at he) htmp
      intro acc a b ha hP hstep
      cases hk1 : a.1 with
      | tup base sufs =>
        rw [hk1] at hstep
        injection hstep with h3
        exact h3 ▸ hP
      | plain s =>
        rw [hk1] at hstep
        exact suffixBoundStep_strs (hk1 ▸ hd.2.2.2 a ha) hP hstep
    rw [← h2]
    refine foldl_preserves dictTyped t _ ?_ d hd
    intro acc a ha hP
    exact dictTyped_set hP (keyVal_of_isStr (hstrs a ha))

theorem dropSuffixes_typed {d : Dict} (hd : dictTyped d) (sk : Bool) :
    dictTyped (dropSuffixes d sk) := by
  unfold dropSuffixes
  refine foldl_preserves dictTyped d _ ?_ d hd
  intro acc e he hP
  cases hk1 : e.1 with
  | plain s =>
    simp only [dropSuffixStep]
    split
    · exact hP
    · exact hP
  | tup base sufs =>
    simp only [dropSuffixStep]
    rw [if_neg (by simp [keyReserved] : ¬ keyReserved (Key.tup base sufs) = true)]
    have hres2 : keyReserved (Key.tup base sufs) = false := by simp [keyReserved]
    by_cases hq : (sk = true) ∧ dictMem d (.plain base) = true ∧
        dictLookup d (.plain base) = dictLookup d (.tup base sufs)
    · rw [if_pos hq]
      exact dictTyped_erase_nonres hP hres2
    · rw [if_neg hq]
      refine dictTyped_set (dictTyped_erase_nonres hP hres2) ?_
      apply keyVal_of_isStr
      apply isStr_getD
      · intro w hw
        exact keyVal_nonres_isStr hres2 (hP.2.2.2 _ (dictLookup_mem hw))
      · apply isStr_getD
        · intro w hw
          exact keyVal_nonres_isStr hres2 (hd.2.2.2 _ (dictLookup_mem hw))
        · rfl

theorem mergeJoin_typed {d1 d2 d3 : Dict} (h1 : dictTyped d1) (h2 : dictTyped d2)
    (h : mergeJoin d1 d2 = some d3) : dictTyped d3 := by
  unfold mergeJoin at h
  have hdT : dictTyped (d2.foldl (fun acc e => dictSet acc e.1 e.2) d1) :=
    foldl_preserves dictTyped d2 _
      (fun acc a ha hP => dictTyped_set hP (h2.2.2.2 a ha)) d1 h1
  cases hn1 : dictLookup d1 (.plain "name") with
  | none => simp only [hn1] at h; simp at h
  | some v1 =>
    simp only [hn1] at h
    cases v1 with
    | strList l => simp at h
    | strMap m => simp at h
    | str n1 =>
      cases hn2 : dictLookup d2 (.plain "name") with
      | none => simp only [hn2] at h; simp at h
      | some v2 =>
        simp only [hn2] at h
        cases v2 with
        | strList l => simp at h
        | strMap m => simp at h
        | str n2 =>
          cases hs1 : dictLookup d1 (.plain "shortname") with
          | none => simp only [hs1] at h; simp at h
          | some w1 =>
            simp only [hs1] at h
            cases w1 with
            | strList l => simp at h
            | strMap m => simp at h
            | str s1 =>
              cases hs2 : dictLookup d2 (.plain "shortname") with
              | none => simp only [hs2] at h; simp at h
              | some w2 =>
                simp only [hs2] at h
                cases w2 with
                | strList l => simp at h
                | strMap m => simp at h
                | str s2 =>
                  cases hj1 : joinNames n1 n2 with
                  | none => simp only [hj1] at h; simp at h
                  | some n =>
                    simp only [hj1] at h
                    cases hj2 : joinNames s1 s2 with
                    | none => simp only [hj2] at h; simp at h
                    | some sn =>
                      simp only [hj2] at h
                      simp only [Option.bind, Option.map_some'] at h
                      injection h with h3
                      exact h3 ▸ dictTyped_set
                        (dictTyped_set hdT (keyVal_str _ _)) (keyVal_str _ _)

theorem clistOpsWf_mem : ∀ {l : List CItem}, clistOpsWf l → ∀ t ∈ l, citemOpsWf t := by
  intro l
  induction l with
  | nil => intro _ t ht; simp at ht
  | cons a rest ih =>
    intro h t ht
    obtain ⟨ha, hrest⟩ := h
    rcases List.mem_cons.mp ht with rfl | hm
    · exact ha
    · exact ih hrest t hm

theorem clistOpsWf_append : ∀ {l1 l2 : List CItem},
    clistOpsWf l1 → clistOpsWf l2 → clistOpsWf (l1 ++ l2) := by
  intro l1
  induction l1 with
  | nil => intro l2 _ h2; simpa using h2
  | cons a rest ih =>
    intro l2 h1 h2
    obtain ⟨ha, hrest⟩ := h1
    exact ⟨ha, ih hrest h2⟩

theorem clistOpsWf_filter (p : CItem → Bool) : ∀ {l : List CItem},
    clistOpsWf l → clistOpsWf (l.filter p) := by
  intro l
  induction l with
  | nil => intro h; exact h
  | cons a rest ih =>
    intro h
    obtain ⟨ha, hrest⟩ := h
    rw [List.filter_cons]
    split
    · exact ⟨ha, ih hrest⟩
    · exact ih hrest

theorem clistOpsWf_joinsToOnlys (l : List CItem) : clistOpsWf (joinsToOnlys l) := by
  have hgen : ∀ (m : List CItem), clistOpsWf (m.flatMap (fun t =>
      match t with
      | .mk fn ln obj =>
        match obj with
        | .fJoin f _ => f.map (fun word => CItem.mk fn ln (.fOnly [word] ""))
        | _ => [])) := by
    intro m
    induction m with
    | nil => exact trivial
    | cons a rest ih =>
      rw [List.flatMap_cons]
      apply clistOpsWf_append
      · match a with
        | .mk fn ln obj =>
          match obj with
          | .fJoin f l2 =>
            have : ∀ (w : List (List (List MLabel))),
                clistOpsWf (w.map (fun word => CItem.mk fn ln (.fOnly [word] ""))) := by
              intro w
              induction w with
              | nil => exact trivial
              | cons x xs ihw => exact ⟨trivial, ihw⟩
            exact this f
          | .op o => exact trivial
          | .fOnly f l2 => exact trivial
          | .fNo f l2 => exact trivial
          | .cond f l2 c => exact trivial
          | .ncond f l2 c => exact trivial
      · exact ih
  exact hgen l

theorem processContentF_opsWf (ctx ctxSet labels : List MLabel) :
    ∀ (fuel : ℕ) (items : List CItem)
      (r : Bool × List CItem × List CItem × List CItem), clistOpsWf items →
    processContentF ctx ctxSet labels fuel items = some r → clistOpsWf r.2.1 := by
  intro fuel
  induction fuel with
  | zero => intro items r _ h; simp [processContentF] at h
  | succ fuel ih =>
    intro items r hwf h
    match items with
    | [] =>
      simp only [processContentF] at h
      injection h with h2
      rw [← h2]
      exact trivial
    | t :: rest =>
      obtain ⟨hwt, hwr⟩ := hwf
      match t with
      | .mk fn ln obj =>
        match obj with
        | .op o =>
          simp only [processContentF] at h
          cases hrec : processContentF ctx ctxSet labels fuel rest with
          | none => rw [hrec] at h; simp at h
          | some r2 =>
            rw [hrec] at h
            simp only [Option.map_some'] at h
            injection h with h2
            rw [← h2]
            exact ⟨hwt, ih rest r2 hwr hrec⟩
        | .fJoin f l => simp [processContentF] at h
        | .fOnly f l =>
          simp only [processContentF] at h
          by_cases hra : objRequiresAction (.fOnly f l) ctx ctxSet labels = true
          · rw [if_pos hra] at h
            injection h with h2
            rw [← h2]
            exact trivial
          · rw [if_neg hra] at h
            by_cases hirr : objIsIrrelevant (.fOnly f l) ctx ctxSet labels = true
            · rw [if_pos hirr] at h
              exact ih rest r hwr h
            · rw [if_neg hirr] at h
              cases hrec : processContentF ctx ctxSet labels fuel rest with
              | none => rw [hrec] at h; simp at h
              | some r2 =>
                rw [hrec] at h
                simp only [Option.map_some'] at h
                injection h with h2
                rw [← h2]
                exact ⟨hwt, ih rest r2 hwr hrec⟩
        | .fNo f l =>
          simp only [processContentF] at h
          by_cases hra : objRequiresAction (.fNo f l) ctx ctxSet labels = true
          · rw [if_pos hra] at h
            injection h with h2
            rw [← h2]
            exact trivial
          · rw [if_neg hra] at h
            by_cases hirr : objIsIrrelevant (.fNo f l) ctx ctxSet labels = true
            · rw [if_pos hirr] at h
              exact ih rest r hwr h
            · rw [if_neg hirr] at h
              cases hrec : processContentF ctx ctxSet labels fuel rest with
              | none => rw [hrec] at h; simp at h
              | some r2 =>
                rw [hrec] at h
                simp only [Option.map_some'] at h
                injection h with h2
                rw [← h2]
                exact ⟨hwt, ih rest r2 hwr hrec⟩
        | .cond f l inner =>
          simp only [processContentF] at h
          by_cases hra : objRequiresAction (.cond f l inner) ctx ctxSet labels = true
          · rw [if_pos hra] at h
            cases hin : processContentF ctx ctxSet labels fuel inner with
            | none => rw [hin] at h; simp at h
            | some rin =>
              obtain ⟨ok2, nc2, in2, dir2⟩ := rin
              simp only [hin] at h
              by_cases hok : ok2 = true
              · rw [if_pos hok] at h
                cases hrec : processContentF ctx ctxSet labels fuel rest with
                | none => rw [hrec] at h; simp at h
                | some r2 =>
                  rw [hrec] at h
                  simp only [Option.map_some'] at h
                  injection h with h2
                  rw [← h2]
                  exact clistOpsWf_append (ih inner (ok2, nc2, in2, dir2) hwt hin)
                    (ih rest r2 hwr hrec)
              · rw [if_neg hok] at h
                injection h with h2
                rw [← h2]
                exact trivial
          · rw [if_neg hra] at h
            by_cases hirr : objIsIrrelevant (.cond f l inner) ctx ctxSet labels = true
            · rw [if_pos hirr] at h
              exact ih rest r hwr h
            · rw [if_neg hirr] at h
              cases hrec : processContentF ctx ctxSet labels fuel rest with
              | none => rw [hrec] at h; simp at h
              | some r2 =>
                rw [hrec] at h
                simp only [Option.map_some'] at h
                injection h with h2
                rw [← h2]
                exact ⟨hwt, ih rest r2 hwr hrec⟩
        | .ncond f l inner =>
          simp only [processContentF] at h
          by_cases hra : objRequiresAction (.ncond f l inner) ctx ctxSet labels = true
          · rw [if_pos hra] at h
            cases hin : processContentF ctx ctxSet labels fuel inner with
            | none => rw [hin] at h; simp at h
            | some rin =>
              obtain ⟨ok2, nc2, in2, dir2⟩ := rin
              simp only [hin] at h
              by_cases hok : ok2 = true
              · rw [if_pos hok] at h
                cases hrec : processContentF ctx ctxSet labels fuel rest with
                | none => rw [hrec] at h; simp at h
                | some r2 =>
                  rw [hrec] at h
                  simp only [Option.map_some'] at h
                  injection h with h2
                  rw [← h2]
                  exact clistOpsWf_append (ih inner (ok2, nc2, in2, dir2) hwt hin)
                    (ih rest r2 hwr hrec)
              · rw [if_neg hok] at h
                injection h with h2
                rw [← h2]
                exact trivial
          · rw [if_neg hra] at h
            by_cases hirr : objIsIrrelevant (.ncond f l inner) ctx ctxSet labels = true
            · rw [if_pos hirr] at h
              exact ih rest r hwr h
            · rw [if_neg hirr] at h
              cases hrec : processContentF ctx ctxSet labels fuel rest with
              | none => rw [hrec] at h; simp at h
              | some r2 =>
                rw [hrec] at h
                simp only [Option.map_some'] at h
                injection h with h2
                rw [← h2]
                exact ⟨hwt, ih rest r2 hwr hrec⟩

theorem processContent_opsWf {ctx ctxSet labels : List MLabel} {items : List CItem}
    {r : Bool × List CItem × List CItem × List CItem} (hwf : clistOpsWf items)
    (h : processContent ctx ctxSet labels items = some r) : clistOpsWf r.2.1 :=
  processContentF_opsWf ctx ctxSet labels _ items r hwf h

theorem buildLeafDict_typed {name : String} {dep : List String} {short : String}
    {newContent : List CItem} {d : Dict} (hwf : clistOpsWf newContent)
    (h : buildLeafDict name dep short newContent = some d) : dictTyped d := by
  simp only [buildLeafDict] at h
  cases hf : newContent.foldlM (fun d (t : CItem) =>
      match t.obj with
      | .op o => applyOp o d
      | _ => (none : Option Dict))
      [(.plain "name", .str name), (.plain "dep", .strList dep),
       (.plain "shortname", .str short)] with
  | none => rw [hf] at h; simp at h
  | some d1 =>
    rw [hf] at h
    have hd0 : dictTyped [(Key.plain "name", Value.str name),
        (Key.plain "dep", Value.strList dep),
        (Key.plain "shortname", Value.str short)] := by
      refine ⟨rfl, rfl, rfl, ?_⟩
      intro e he
      rcases List.mem_cons.mp he with rfl | he2
      · exact keyVal_str _ _
      rcases List.mem_cons.mp he2 with rfl | he3
      · simp [keyVal, isStrList]
      rcases List.mem_cons.mp he3 with rfl | he4
      · exact keyVal_str _ _
      · simp at he4
    have hd1 : dictTyped d1 := by
      refine foldlM_option_preserves dictTyped newContent _ ?_ _ d1 hd0 hf
      intro acc a b ha hP hstep
      match a with
      | .mk fn ln obj =>
        match obj with
        | .op o =>
          exact applyOp_typed (clistOpsWf_mem hwf _ ha) hP hstep
        | .fOnly f l => simp [CItem.obj] at hstep
        | .fNo f l => simp [CItem.obj] at hstep
        | .fJoin f l => simp [CItem.obj] at hstep
        | .cond f l c => simp [CItem.obj] at hstep
        | .ncond f l c => simp [CItem.obj] at hstep
    exact applySuffixBounds_typed hd1 (by simpa using h)

theorem treeOpsWf_content {n : MNode} (h : treeOpsWf n) : clistOpsWf n.content := by
  match n with
  | .mk v nm d c ch l a df f => exact h.1

theorem treeOpsWf_children {n : MNode} (h : treeOpsWf n) : treeListOpsWf n.children := by
  match n with
  | .mk v nm d c ch l a df f => exact h.2

theorem treeOpsWf_withContent {n : MNode} {c : List CItem} (h : treeOpsWf n)
    (hc : clistOpsWf c) : treeOpsWf (n.withContent c) := by
  match n with
  | .mk v nm d c0 ch l a df f => exact ⟨hc, h.2⟩

theorem treeOpsWf_withFailedCases {n : MNode} {f : List FailedCase} (h : treeOpsWf n) :
    treeOpsWf (n.withFailedCases f) := by
  match n with
  | .mk v nm d c ch l a df f0 => exact h

theorem treeOpsWf_withChildren {n : MNode} {ch : List MNode} (h : treeOpsWf n)
    (hch : treeListOpsWf ch) : treeOpsWf (n.withChildren ch) := by
  match n with
  | .mk v nm d c ch0 l a df f => exact ⟨h.1, hch⟩

theorem clistOpsWf_take (n : ℕ) : ∀ {l : List CItem}, clistOpsWf l →
    clistOpsWf (l.take n) := by
  intro l
  induction l generalizing n with
  | nil => intro h; simpa [List.take_nil] using h
  | cons a rest ih =>
    intro h
    obtain ⟨ha, hrest⟩ := h
    match n with
    | 0 => exact trivial
    | n + 1 => exact ⟨ha, ih n hrest⟩

theorem clistOpsWf_drop (n : ℕ) : ∀ {l : List CItem}, clistOpsWf l →
    clistOpsWf (l.drop n) := by
  intro l
  induction l generalizing n with
  | nil => intro h; simpa [List.drop_nil] using h
  | cons a rest ih =>
    intro h
    obtain ⟨ha, hrest⟩ := h
    match n with
    | 0 => exact ⟨ha, hrest⟩
    | n + 1 => exact ih n hrest

theorem enum_typed : ∀ (fuel : ℕ),
    (∀ (cfg : PCfg) (node : MNode) (ctx : List MLabel) (content : List CItem)
      (shortname : List MLabel) (dep : List String),
      treeOpsWf node → clistOpsWf content →
      (∀ d ∈ (getDictsPlain fuel cfg node ctx content shortname dep).dicts,
        dictTyped d) ∧
      treeOpsWf (getDictsPlain fuel cfg node ctx content shortname dep).node) ∧
    (∀ (cfg : PCfg) (ctx : List MLabel) (content : List CItem)
      (shortname : List MLabel) (dep : List String) (sd : Bool)
      (children : List MNode) (count : ℕ),
      treeListOpsWf children → clistOpsWf content →
      (∀ d ∈ (runChildren fuel cfg ctx content shortname dep sd children count).1,
        dictTyped d) ∧
      treeListOpsWf
        (runChildren fuel cfg ctx content shortname dep sd children count).2.1) ∧
    (∀ (cfg : PCfg) (node : MNode) (ctx : List MLabel) (content : List CItem)
      (shortname : List MLabel) (dep : List String) (sk pg : Bool),
      treeOpsWf node → clistOpsWf content →
      (∀ d ∈ (getDictsJoined fuel cfg node ctx content shortname dep sk pg).dicts,
        dictTyped d) ∧
      treeOpsWf (getDictsJoined fuel cfg node ctx content shortname dep sk pg).node) ∧
    (∀ (cfg : PCfg) (onlys : List CItem) (node : MNode) (ctx : List MLabel)
      (content : List CItem) (shortname : List MLabel) (dep : List String),
      clistOpsWf onlys → treeOpsWf node → clistOpsWf content →
      (∀ d ∈ (joinFilters fuel cfg onlys node ctx content shortname dep).dicts,
        dictTyped d) ∧
      treeOpsWf (joinFilters fuel cfg onlys node ctx content shortname dep).node) ∧
    (∀ (cfg : PCfg) (remains : List CItem) (node : MNode) (ctx : List MLabel)
      (content : List CItem) (shortname : List MLabel) (dep : List String)
      (contentOrig : List CItem) (d1s : List Dict),
      clistOpsWf remains → treeOpsWf node → clistOpsWf content →
      clistOpsWf contentOrig → (∀ d ∈ d1s, dictTyped d) →
      (∀ d ∈ (joinProducts fuel cfg remains node ctx content shortname dep
          contentOrig d1s).dicts, dictTyped d) ∧
      treeOpsWf (joinProducts fuel cfg remains node ctx content shortname dep
        contentOrig d1s).node) := by
  intro fuel
  induction fuel with
  | zero =>
    refine ⟨?_, ?_, ?_, ?_, ?_⟩
    · intro cfg node ctx content shortname dep hn hc
      exact ⟨by intro d hd; simp [getDictsPlain] at hd, hn⟩
    · intro cfg ctx content shortname dep sd children count hch hc
      exact ⟨by intro d hd; simp [runChildren] at hd, hch⟩
    · intro cfg node ctx content shortname dep sk pg hn hc
      exact ⟨by intro d hd; simp [getDictsJoined] at hd, hn⟩
    · intro cfg onlys node ctx content shortname dep ho hn hc
      exact ⟨by intro d hd; simp [joinFilters] at hd, hn⟩
    · intro cfg remains node ctx content shortname dep contentOrig d1s hr hn hc hco hd1
      exact ⟨by intro d hd; simp [joinProducts] at hd, hn⟩
  | succ fuel ih =>
    obtain ⟨ihP, ihR, ihJ, ihF, ihPr⟩ := ih
    refine ⟨?_, ?_, ?_, ?_, ?_⟩
    -- getDictsPlain
    · intro cfg node ctx content shortname dep hn hc
      simp only [getDictsPlain]
      cases hfind : node.failedCases.findIdx? (fun fc =>
          ¬ failedCaseMightPass fc content node.content (ctx ++ node.name)
            (ctx ++ node.name) node.labels) with
      | some i =>
        simp only [hfind]
        exact ⟨by intro d hd; simp at hd, treeOpsWf_withFailedCases hn⟩
      | none =>
        simp only [hfind]
        cases hint : processContent (ctx ++ node.name) (ctx ++ node.name)
            node.labels node.content with
        | none =>
          simp only [hint]
          exact ⟨by intro d hd; simp at hd, hn⟩
        | some rInt =>
          obtain ⟨okInt, ncInt, innerInt, directInt⟩ := rInt
          simp only [hint]
          split
          · exact ⟨by intro d hd; simp at hd, treeOpsWf_withFailedCases hn⟩
          · rename_i hok
            cases hext : processContent (ctx ++ node.name) (ctx ++ node.name)
                node.labels content with
            | none =>
              simp only [hext]
              exact ⟨by intro d hd; simp at hd, hn⟩
            | some rExt =>
              obtain ⟨okExt, ncExt, innerExt, directExt⟩ := rExt
              simp only [hext]
              split
              · exact ⟨by intro d hd; simp at hd, treeOpsWf_withFailedCases hn⟩
              · rename_i hok2
                have hncwf : clistOpsWf (ncInt ++ ncExt) :=
                  clistOpsWf_append
                    (processContent_opsWf (treeOpsWf_content hn) hint)
                    (processContent_opsWf hc hext)
                repeat' split
                all_goals first
                  | exact ⟨(ihR cfg (ctx ++ node.name) (ncInt ++ ncExt) _ _ _
                        node.children 0 (treeOpsWf_children hn) hncwf).1,
                      treeOpsWf_withChildren hn
                        (ihR cfg (ctx ++ node.name) (ncInt ++ ncExt) _ _ _
                          node.children 0 (treeOpsWf_children hn) hncwf).2⟩
                  | exact ⟨by
                        intro d hd
                        simp at hd
                        subst hd
                        exact buildLeafDict_typed hncwf (by assumption),
                      treeOpsWf_withChildren hn
                        (ihR cfg (ctx ++ node.name) (ncInt ++ ncExt) _ _ _
                          node.children 0 (treeOpsWf_children hn) hncwf).2⟩
                  | exact ⟨by intro d hd; simp at hd,
                      treeOpsWf_withChildren hn
                        (ihR cfg (ctx ++ node.name) (ncInt ++ ncExt) _ _ _
                          node.children 0 (treeOpsWf_children hn) hncwf).2⟩
    -- runChildren
    · intro cfg ctx content shortname dep sd children count hch hc
      match children with
      | [] =>
        simp only [runChildren]
        exact ⟨by intro d hd; simp at hd, trivial⟩
      | n :: rest =>
        simp only [runChildren]
        obtain ⟨hn1, hrest⟩ := hch
        split
        · exact ⟨(ihJ cfg n ctx content shortname dep true false hn1 hc).1,
            ⟨(ihJ cfg n ctx content shortname dep true false hn1 hc).2, hrest⟩⟩
        · split
          · exact ⟨(ihJ cfg n ctx content shortname dep true false hn1 hc).1,
              ⟨(ihJ cfg n ctx content shortname dep true false hn1 hc).2, hrest⟩⟩
          · refine ⟨?_, ?_⟩
            · intro d hd
              rcases List.mem_append.mp hd with h1 | h1
              · exact (ihJ cfg n ctx content shortname dep true false hn1 hc).1 d h1
              · exact (ihR cfg ctx content shortname dep sd rest _ hrest hc).1 d h1
            · exact ⟨(ihJ cfg n ctx content shortname dep true false hn1 hc).2,
                (ihR cfg ctx content shortname dep sd rest _ hrest hc).2⟩
    -- getDictsJoined
    · intro cfg node ctx content shortname dep sk pg hn hc
      simp only [getDictsJoined]
      split
      · refine ⟨?_, (ihP cfg node ctx content shortname dep hn hc).2⟩
        intro d hd
        split at hd
        · rcases List.mem_map.mp hd with ⟨d0, hd0, hde⟩
          exact hde ▸ dropSuffixes_typed
            ((ihP cfg node ctx content shortname dep hn hc).1 d0 hd0) sk
        · exact (ihP cfg node ctx content shortname dep hn hc).1 d hd
      · have hwith : treeOpsWf (node.withContent
            (node.content.filter (fun t => ¬ isJoinItem t))) :=
          treeOpsWf_withContent hn
            (clistOpsWf_filter _ (treeOpsWf_content hn))
        have hf := ihF cfg (joinsToOnlys (node.content.filter isJoinItem))
          (node.withContent (node.content.filter (fun t => ¬ isJoinItem t)))
          ctx content shortname dep
          (clistOpsWf_joinsToOnlys _) hwith hc
        refine ⟨?_, treeOpsWf_withContent hf.2 (treeOpsWf_content hn)⟩
        intro d hd
        split at hd
        · rcases List.mem_map.mp hd with ⟨d0, hd0, hde⟩
          exact hde ▸ dropSuffixes_typed (hf.1 d0 hd0) sk
        · exact hf.1 d hd
    -- joinFilters
    · intro cfg onlys node ctx content shortname dep ho hn hc
      simp only [joinFilters]
      have hnode1 : treeOpsWf (node.withContent (node.content ++ onlys.take 1)) :=
        treeOpsWf_withContent hn
          (clistOpsWf_append (treeOpsWf_content hn) (clistOpsWf_take 1 ho))
      cases hdrop : onlys.drop 1 with
      | nil =>
        simp only [hdrop]
        exact ihP cfg (node.withContent (node.content ++ onlys.take 1)) ctx content
          shortname dep hnode1 hc
      | cons o1 orest =>
        simp only [hdrop]
        have hremwf : clistOpsWf (o1 :: orest) := hdrop ▸ clistOpsWf_drop 1 ho
        have hPr := ihPr cfg (o1 :: orest) _ ctx content shortname dep node.content _
          hremwf
          (treeOpsWf_withContent
            (ihP cfg (node.withContent (node.content ++ onlys.take 1)) ctx content
              shortname dep hnode1 hc).2 (treeOpsWf_content hn))
          hc (treeOpsWf_content hn)
          (ihP cfg (node.withContent (node.content ++ onlys.take 1)) ctx content
            shortname dep hnode1 hc).1
        split
        · exact ⟨hPr.1, hPr.2⟩
        · exact hPr
    -- joinProducts
    · intro cfg remains node ctx content shortname dep contentOrig d1s hr hn hc hco hd1
      match d1s with
      | [] =>
        simp only [joinProducts]
        exact ⟨by intro d hd; simp at hd, hn⟩
      | d1 :: d1rest =>
        simp only [joinProducts]
        have hf := ihF cfg remains (node.withContent contentOrig) ctx content
          shortname dep hr (treeOpsWf_withContent hn hco) hc
        split
        · rename_i hmerge
          refine ⟨?_, hf.2⟩
          intro d hd
          rcases List.mem_filterMap.mp hd with ⟨d2, hd2, hmj⟩
          have hd2m := (List.takeWhile_sublist _).subset hd2
          exact mergeJoin_typed (hd1 d1 (List.mem_cons_self d1 d1rest))
            (hf.1 d2 hd2m) hmj
        · rename_i merged hmerge
          have hmtyped : ∀ d ∈ merged, dictTyped d := by
            refine foldlM_option_preserves (fun l => ∀ d ∈ l, dictTyped d)
              (joinFilters fuel cfg remains (node.withContent contentOrig)
                ctx content shortname dep).dicts _ ?_ [] merged
              (by intro d hd; simp at hd) hmerge
            intro acc a b ha hP hstep
            cases hmj : mergeJoin d1 a with
            | none => rw [hmj] at hstep; simp at hstep
            | some dm =>
              rw [hmj] at hstep
              simp only [Option.map_some'] at hstep
              injection hstep with h2
              rw [← h2]
              intro d hd
              rcases List.mem_append.mp hd with h3 | h3
              · exact hP d h3
              · have hde : d = dm := by simpa using h3
                exact hde ▸ mergeJoin_typed (hd1 d1 (List.mem_cons_self d1 d1rest))
                  (hf.1 a ha) hmj
          split
          · exact ⟨hmtyped, hf.2⟩
          · refine ⟨?_, ?_⟩
            · intro d hd
              rcases List.mem_append.mp hd with h1 | h1
              · exact hmtyped d h1
              · exact (ihPr cfg remains _ ctx content shortname dep contentOrig d1rest
                  hr hf.2 hc hco
                  (fun d hd2 => hd1 d (List.mem_cons_of_mem d1 hd2))).1 d h1
            · exact (ihPr cfg remains _ ctx content shortname dep contentOrig d1rest
                hr hf.2 hc hco
                (fun d hd2 => hd1 d (List.mem_cons_of_mem d1 hd2))).2

/-- C2 (amended).  Every dictionary emitted by `get_dicts` contains the
keys `name`, `shortname` and `dep`, and every entry is typed: `name` and
`shortname` hold strings, `dep` holds a list of strings (or a string once
user post-processing such as a `dep_fixed` bound overwrote it), the two
map-file keys hold string-to-string maps (or similarly strings) *when
present*, and every other key holds a string.  The hypothesis restricts the
tree to what the parser produces: every `update_file_map` operation writes
to one of the two map-file destinations.  Presence of the map-file keys is
not guaranteed (see the counterexample). -/
theorem c2_amended (fuel : ℕ) (cfg : PCfg) (st : PState) (skipdups : Bool)
    (hwf : treeOpsWf st.node) :
    ∀ d ∈ (getDicts fuel cfg st skipdups).1.dicts, dictTyped d := by
  unfold getDicts
  intro d hd
  exact ((enum_typed fuel).2.2.1 cfg st.node [] [] [] [] skipdups st.parentGen
    hwf trivial).1 d hd

/-- C2 (amended): witness at the empty configuration's tree. -/
theorem c2_amended_witness :
    treeOpsWf exC2Tree ∧
      ∀ d ∈ (getDicts 20 cfgDefault ⟨exC2Tree, true⟩ true).1.dicts, dictTyped d :=
  ⟨⟨trivial, trivial⟩,
    c2_amended 20 cfgDefault ⟨exC2Tree, true⟩ true ⟨trivial, trivial⟩⟩

/-! ### C9: the failed-case deque is a transparent, bounded cache -/

mutual
theorem cobjEq_iff : ∀ (a b : CObj), cobjEq a b = true ↔ a = b
  | .op o1, .op o2 => by simp [cobjEq]
  | .op o1, .fOnly f2 l2 => by simp [cobjEq]
  | .op o1, .fNo f2 l2 => by simp [cobjEq]
  | .op o1, .fJoin f2 l2 => by simp [cobjEq]
  | .op o1, .cond f2 l2 c2 => by simp [cobjEq]
  | .op o1, .ncond f2 l2 c2 => by simp [cobjEq]
  | .fOnly f1 l1, .op o2 => by simp [cobjEq]
  | .fOnly f1 l1, .fOnly f2 l2 => by simp [cobjEq]
  | .fOnly f1 l1, .fNo f2 l2 => by simp [cobjEq]
  | .fOnly f1 l1, .fJoin f2 l2 => by simp [cobjEq]
  | .fOnly f1 l1, .cond f2 l2 c2 => by simp [cobjEq]
  | .fOnly f1 l1, .ncond f2 l2 c2 => by simp [cobjEq]
  | .fNo f1 l1, .op o2 => by simp [cobjEq]
  | .fNo f1 l1, .fOnly f2 l2 => by simp [cobjEq]
  | .fNo f1 l1, .fNo f2 l2 => by simp [cobjEq]
  | .fNo f1 l1, .fJoin f2 l2 => by simp [cobjEq]
  | .fNo f1 l1, .cond f2 l2 c2 => by simp [cobjEq]
  | .fNo f1 l1, .ncond f2 l2 c2 => by simp [cobjEq]
  | .fJoin f1 l1, .op o2 => by simp [cobjEq]
  | .fJoin f1 l1, .fOnly f2 l2 => by simp [cobjEq]
  | .fJoin f1 l1, .fNo f2 l2 => by simp [cobjEq]
  | .fJoin f1 l1, .fJoin f2 l2 => by simp [cobjEq]
  | .fJoin f1 l1, .cond f2 l2 c2 => by simp [cobjEq]
  | .fJoin f1 l1, .ncond f2 l2 c2 => by simp [cobjEq]
  | .cond f1 l1 c1, .op o2 => by simp [cobjEq]
  | .cond f1 l1 c1, .fOnly f2 l2 => by simp [cobjEq]
  | .cond f1 l1 c1, .fNo f2 l2 => by simp [cobjEq]
  | .cond f1 l1 c1, .fJoin f2 l2 => by simp [cobjEq]
  | .cond f1 l1 c1, .cond f2 l2 c2 => by
    simp only [cobjEq, decide_eq_true_eq]
    rw [clistEq_iff c1 c2]
    simp
  | .cond f1 l1 c1, .ncond f2 l2 c2 => by simp [cobjEq]
  | .ncond f1 l1 c1, .op o2 => by simp [cobjEq]
  | .ncond f1 l1 c1, .fOnly f2 l2 => by simp [cobjEq]
  | .ncond f1 l1 c1, .fNo f2 l2 => by simp [cobjEq]
  | .ncond f1 l1 c1, .fJoin f2 l2 => by simp [cobjEq]
  | .ncond f1 l1 c1, .cond f2 l2 c2 => by simp [cobjEq]
  | .ncond f1 l1 c1, .ncond f2 l2 c2 => by
    simp only [cobjEq, decide_eq_true_eq]
    rw [clistEq_iff c1 c2]
    simp

theorem citemEq_iff : ∀ (a b : CItem), citemEq a b = true ↔ a = b
  | .mk f1 n1 o1, .mk f2 n2 o2 => by
    simp only [citemEq, decide_eq_true_eq]
    rw [cobjEq_iff o1 o2]
    simp

theorem clistEq_iff : ∀ (a b : List CItem), clistEq a b = true ↔ a = b
  | [], [] => by simp [clistEq]
  | [], b :: bs => by simp [clistEq]
  | a :: as1, [] => by simp [clistEq]
  | a :: as1, b :: bs => by
    simp only [clistEq, decide_eq_true_eq]
    rw [citemEq_iff a b, clistEq_iff as1 bs]
    simp
end

theorem citemMem_iff (lst : List CItem) (t : CItem) :
    citemMem lst t = true ↔ t ∈ lst := by
  unfold citemMem
  rw [List.any_eq_true]
  constructor
  · rintro ⟨e, he, heq⟩
    exact (citemEq_iff t e).mp heq ▸ he
  · intro h
    exact ⟨t, h, (citemEq_iff t t).mpr rfl⟩

theorem processContentF_mono (ctx ctxSet labels : List MLabel) :
    ∀ (f1 : ℕ) (items : List CItem) (r : Bool × List CItem × List CItem × List CItem),
    processContentF ctx ctxSet labels f1 items = some r →
    ∀ f2, f1 ≤ f2 → processContentF ctx ctxSet labels f2 items = some r := by
  intro f1
  induction f1 with
  | zero => intro items r h; simp [processContentF] at h
  | succ f1 ih =>
    intro items r h f2 hle
    obtain ⟨f2, rfl⟩ : ∃ g, f2 = g + 1 := ⟨f2 - 1, by omega⟩
    have hle2 : f1 ≤ f2 := by omega
    match items with
    | [] =>
      simp only [processContentF] at h ⊢
      exact h
    | t :: rest =>
      match t with
      | .mk fn ln obj =>
        match obj with
        | .op o =>
          simp only [processContentF] at h ⊢
          cases hrec : processContentF ctx ctxSet labels f1 rest with
          | none => rw [hrec] at h; simp at h
          | some r2 =>
            simp only [hrec] at h
            simp only [ih rest r2 hrec f2 hle2]
            exact h
        | .fJoin f l => simp [processContentF] at h
        | .fOnly f l =>
          simp only [processContentF] at h ⊢
          by_cases hra : objRequiresAction (.fOnly f l) ctx ctxSet labels = true
          · rw [if_pos hra] at h ⊢
            exact h
          · rw [if_neg hra] at h ⊢
            by_cases hirr : objIsIrrelevant (.fOnly f l) ctx ctxSet labels = true
            · rw [if_pos hirr] at h ⊢
              exact ih rest r h f2 hle2
            · rw [if_neg hirr] at h ⊢
              cases hrec : processContentF ctx ctxSet labels f1 rest with
              | none => rw [hrec] at h; simp at h
              | some r2 =>
                simp only [hrec] at h
                simp only [ih rest r2 hrec f2 hle2]
                exact h
        | .fNo f l =>
          simp only [processContentF] at h ⊢
          by_cases hra : objRequiresAction (.fNo f l) ctx ctxSet labels = true
          · rw [if_pos hra] at h ⊢
            exact h
          · rw [if_neg hra] at h ⊢
            by_cases hirr : objIsIrrelevant (.fNo f l) ctx ctxSet labels = true
            · rw [if_pos hirr] at h ⊢
              exact ih rest r h f2 hle2
            · rw [if_neg hirr] at h ⊢
              cases hrec : processContentF ctx ctxSet labels f1 rest with
              | none => rw [hrec] at h; simp at h
              | some r2 =>
                simp only [hrec] at h
                simp only [ih rest r2 hrec f2 hle2]
                exact h
        | .cond f l inner =>
          simp only [processContentF] at h ⊢
          by_cases hra : objRequiresAction (.cond f l inner) ctx ctxSet labels = true
          · rw [if_pos hra] at h ⊢
            cases hin : processContentF ctx ctxSet labels f1 inner with
            | none => rw [hin] at h; simp at h
            | some rin =>
              obtain ⟨ok2, nc2, in2, dir2⟩ := rin
              simp only [hin] at h
              simp only [ih inner (ok2, nc2, in2, dir2) hin f2 hle2]
              by_cases hok : ok2 = true
              · rw [if_pos hok] at h ⊢
                cases hrec : processContentF ctx ctxSet labels f1 rest with
                | none => rw [hrec] at h; simp at h
                | some r2 =>
                  simp only [hrec] at h
                  simp only [ih rest r2 hrec f2 hle2]
                  exact h
              · rw [if_neg hok] at h ⊢
                exact h
          · rw [if_neg hra] at h ⊢
            by_cases hirr : objIsIrrelevant (.cond f l inner) ctx ctxSet labels = true
            · rw [if_pos hirr] at h ⊢
              exact ih rest r h f2 hle2
            · rw [if_neg hirr] at h ⊢
              cases hrec : processContentF ctx ctxSet labels f1 rest with
              | none => rw [hrec] at h; simp at h
              | some r2 =>
                simp only [hrec] at h
                simp only [ih rest r2 hrec f2 hle2]
                exact h
        | .ncond f l inner =>
          simp only [processContentF] at h ⊢
          by_cases hra : objRequiresAction (.ncond f l inner) ctx ctxSet labels = true
          · rw [if_pos hra] at h ⊢
            cases hin : processContentF ctx ctxSet labels f1 inner with
            | none => rw [hin] at h; simp at h
            | some rin =>
              obtain ⟨ok2, nc2, in2, dir2⟩ := rin
              simp only [hin] at h
              simp only [ih inner (ok2, nc2, in2, dir2) hin f2 hle2]
              by_cases hok : ok2 = true
              · rw [if_pos hok] at h ⊢
                cases hrec : processContentF ctx ctxSet labels f1 rest with
                | none => rw [hrec] at h; simp at h
                | some r2 =>
                  simp only [hrec] at h
                  simp only [ih rest r2 hrec f2 hle2]
                  exact h
              · rw [if_neg hok] at h ⊢
                exact h
          · rw [if_neg hra] at h ⊢
            by_cases hirr : objIsIrrelevant (.ncond f l inner) ctx ctxSet labels = true
            · rw [if_pos hirr] at h ⊢
              exact ih rest r h f2 hle2
            · rw [if_neg hirr] at h ⊢
              cases hrec : processContentF ctx ctxSet labels f1 rest with
              | none => rw [hrec] at h; simp at h
              | some r2 =>
                simp only [hrec] at h
                simp only [ih rest r2 hrec f2 hle2]
                exact h

theorem cobjSize_pos (o : CObj) : 1 ≤ cobjSize o := by
  cases o <;> simp [cobjSize]

theorem clistSize_pos (l : List CItem) : 1 ≤ clistSize l := by
  cases l with
  | nil => simp [clistSize]
  | cons a rest =>
    match a with
    | .mk fn ln obj =>
      have := cobjSize_pos obj
      simp [clistSize, citemSize]
      omega

theorem processContentF_stable (ctx ctxSet labels : List MLabel) :
    ∀ (n : ℕ) (items : List CItem) (f1 f2 : ℕ), clistSize items ≤ n →
    clistSize items < f1 → clistSize items < f2 →
    processContentF ctx ctxSet labels f1 items =
      processContentF ctx ctxSet labels f2 items := by
  intro n
  induction n using Nat.strong_induction_on with
  | _ n IH =>
    intro items f1 f2 hn h1 h2
    obtain ⟨g1, rfl⟩ : ∃ g, f1 = g + 1 := ⟨f1 - 1, by omega⟩
    obtain ⟨g2, rfl⟩ : ∃ g, f2 = g + 1 := ⟨f2 - 1, by omega⟩
    match items with
    | [] => rfl
    | t :: rest =>
      match t with
      | .mk fn ln obj =>
        have e1 : clistSize (CItem.mk fn ln obj :: rest) =
            citemSize (.mk fn ln obj) + clistSize rest := rfl
        have e2 : citemSize (CItem.mk fn ln obj) = 1 + cobjSize obj := rfl
        have p1 : 1 ≤ cobjSize obj := cobjSize_pos obj
        have p3 : 1 ≤ clistSize rest := clistSize_pos rest
        rw [e2] at e1
        match obj with
        | .op o =>
          simp only [processContentF]
          rw [IH (clistSize rest) (by omega) rest g1 g2 le_rfl (by omega) (by omega)]
        | .fJoin f l => simp [processContentF]
        | .fOnly f l =>
          simp only [processContentF]
          by_cases hra : objRequiresAction (.fOnly f l) ctx ctxSet labels = true
          · rw [if_pos hra, if_pos hra]
          · rw [if_neg hra, if_neg hra]
            by_cases hirr : objIsIrrelevant (.fOnly f l) ctx ctxSet labels = true
            · rw [if_pos hirr, if_pos hirr]
              exact IH (clistSize rest) (by omega) rest g1 g2 le_rfl (by omega) (by omega)
            · rw [if_neg hirr, if_neg hirr]
              rw [IH (clistSize rest) (by omega) rest g1 g2 le_rfl (by omega) (by omega)]
        | .fNo f l =>
          simp only [processContentF]
          by_cases hra : objRequiresAction (.fNo f l) ctx ctxSet labels = true
          · rw [if_pos hra, if_pos hra]
          · rw [if_neg hra, if_neg hra]
            by_cases hirr : objIsIrrelevant (.fNo f l) ctx ctxSet labels = true
            · rw [if_pos hirr, if_pos hirr]
              exact IH (clistSize rest) (by omega) rest g1 g2 le_rfl (by omega) (by omega)
            · rw [if_neg hirr, if_neg hirr]
              rw [IH (clistSize rest) (by omega) rest g1 g2 le_rfl (by omega) (by omega)]
        | .cond f l inner =>
          have e3 : cobjSize (.cond f l inner) = 1 + clistSize inner := rfl
          have p2 : 1 ≤ clistSize inner := clistSize_pos inner
          simp only [processContentF]
          by_cases hra : objRequiresAction (.cond f l inner) ctx ctxSet labels = true
          · rw [if_pos hra, if_pos hra]
            rw [IH (clistSize inner) (by omega) inner g1 g2 le_rfl (by omega) (by omega)]
            cases hin : processContentF ctx ctxSet labels g2 inner with
            | none => rfl
            | some rin =>
              obtain ⟨ok2, nc2, in2, dir2⟩ := rin
              simp only []
              by_cases hok : ok2 = true
              · rw [if_pos hok, if_pos hok]
                rw [IH (clistSize rest) (by omega) rest g1 g2 le_rfl (by omega) (by omega)]
              · rw [if_neg hok, if_neg hok]
          · rw [if_neg hra, if_neg hra]
            by_cases hirr : objIsIrrelevant (.cond f l inner) ctx ctxSet labels = true
            · rw [if_pos hirr, if_pos hirr]
              exact IH (clistSize rest) (by omega) rest g1 g2 le_rfl (by omega) (by omega)
            · rw [if_neg hirr, if_neg hirr]
              rw [IH (clistSize rest) (by omega) rest g1 g2 le_rfl (by omega) (by omega)]
        | .ncond f l inner =>
          have e3 : cobjSize (.ncond f l inner) = 1 + clistSize inner := rfl
          have p2 : 1 ≤ clistSize inner := clistSize_pos inner
          simp only [processContentF]
          by_cases hra : objRequiresAction (.ncond f l inner) ctx ctxSet labels = true
          · rw [if_pos hra, if_pos hra]
            rw [IH (clistSize inner) (by omega) inner g1 g2 le_rfl (by omega) (by omega)]
            cases hin : processContentF ctx ctxSet labels g2 inner with
            | none => rfl
            | some rin =>
              obtain ⟨ok2, nc2, in2, dir2⟩ := rin
              simp only []
              by_cases hok : ok2 = true
              · rw [if_pos hok, if_pos hok]
                rw [IH (clistSize rest) (by omega) rest g1 g2 le_rfl (by omega) (by omega)]
              · rw [if_neg hok, if_neg hok]
          · rw [if_neg hra, if_neg hra]
            by_cases hirr : objIsIrrelevant (.ncond f l inner) ctx ctxSet labels = true
            · rw [if_pos hirr, if_pos hirr]
              exact IH (clistSize rest) (by omega) rest g1 g2 le_rfl (by omega) (by omega)
            · rw [if_neg hirr, if_neg hirr]
              rw [IH (clistSize rest) (by omega) rest g1 g2 le_rfl (by omega) (by omega)]

theorem processContentF_ok_empty (ctx ctxSet labels : List MLabel) :
    ∀ (fuel : ℕ) (items : List CItem) (r : Bool × List CItem × List CItem × List CItem),
    processContentF ctx ctxSet labels fuel items = some r → r.1 = true →
    r.2.2.1 = [] ∧ r.2.2.2 = [] := by
  intro fuel
  induction fuel with
  | zero => intro items r h _; simp [processContentF] at h
  | succ fuel ih =>
    intro items r h hok
    match items with
    | [] =>
      simp only [processContentF] at h
      injection h with h2
      rw [← h2]
      exact ⟨rfl, rfl⟩
    | t :: rest =>
      match t with
      | .mk fn ln obj =>
        match obj with
        | .op o =>
          simp only [processContentF] at h
          cases hrec : processContentF ctx ctxSet labels fuel rest with
          | none => rw [hrec] at h; simp at h
          | some r2 =>
            simp only [hrec, Option.map_some'] at h
            injection h with h2
            rw [← h2] at hok ⊢
            exact ih rest r2 hrec hok
        | .fJoin f l => simp [processContentF] at h
        | .fOnly f l =>
          simp only [processContentF] at h
          by_cases hra : objRequiresAction (.fOnly f l) ctx ctxSet labels = true
          · rw [if_pos hra] at h
            injection h with h2
            rw [← h2] at hok
            simp at hok
          · rw [if_neg hra] at h
            by_cases hirr : objIsIrrelevant (.fOnly f l) ctx ctxSet labels = true
            · rw [if_pos hirr] at h
              exact ih rest r h hok
            · rw [if_neg hirr] at h
              cases hrec : processContentF ctx ctxSet labels fuel rest with
              | none => rw [hrec] at h; simp at h
              | some r2 =>
                simp only [hrec, Option.map_some'] at h
                injection h with h2
                rw [← h2] at hok ⊢
                exact ih rest r2 hrec hok
        | .fNo f l =>
          simp only [processContentF] at h
          by_cases hra : objRequiresAction (.fNo f l) ctx ctxSet labels = true
          · rw [if_pos hra] at h
            injection h with h2
            rw [← h2] at hok
            simp at hok
          · rw [if_neg hra] at h
            by_cases hirr : objIsIrrelevant (.fNo f l) ctx ctxSet labels = true
            · rw [if_pos hirr] at h
              exact ih rest r h hok
            · rw [if_neg hirr] at h
              cases hrec : processContentF ctx ctxSet labels fuel rest with
              | none => rw [hrec] at h; simp at h
              | some r2 =>
                simp only [hrec, Option.map_some'] at h
                injection h with h2
                rw [← h2] at hok ⊢
                exact ih rest r2 hrec hok
        | .cond f l inner =>
          simp only [processContentF] at h
          by_cases hra : objRequiresAction (.cond f l inner) ctx ctxSet labels = true
          · rw [if_pos hra] at h
            cases hin : processContentF ctx ctxSet labels fuel inner with
            | none => rw [hin] at h; simp at h
            | some rin =>
              obtain ⟨ok2, nc2, in2, dir2⟩ := rin
              simp only [hin] at h
              by_cases hok2 : ok2 = true
              · rw [if_pos hok2] at h
                cases hrec : processContentF ctx ctxSet labels fuel rest with
                | none => rw [hrec] at h; simp at h
                | some r2 =>
                  simp only [hrec, Option.map_some'] at h
                  injection h with h2
                  rw [← h2] at hok ⊢
                  have hinn := ih inner (ok2, nc2, in2, dir2) hin hok2
                  have hrest := ih rest r2 hrec hok
                  refine ⟨?_, hrest.2⟩
                  rw [show in2 = [] from hinn.1, show dir2 = [] from hinn.2,
                    show r2.2.2.1 = [] from hrest.1]
                  rfl
              · rw [if_neg hok2] at h
                injection h with h2
                rw [← h2] at hok
                simp at hok
          · rw [if_neg hra] at h
            by_cases hirr : objIsIrrelevant (.cond f l inner) ctx ctxSet labels = true
            · rw [if_pos hirr] at h
              exact ih rest r h hok
            · rw [if_neg hirr] at h
              cases hrec : processContentF ctx ctxSet labels fuel rest with
              | none => rw [hrec] at h; simp at h
              | some r2 =>
                simp only [hrec, Option.map_some'] at h
                injection h with h2
                rw [← h2] at hok ⊢
                exact ih rest r2 hrec hok
        | .ncond f l inner =>
          simp only [processContentF] at h
          by_cases hra : objRequiresAction (.ncond f l inner) ctx ctxSet labels = true
          · rw [if_pos hra] at h
            cases hin : processContentF ctx ctxSet labels fuel inner with
            | none => rw [hin] at h; simp at h
            | some rin =>
              obtain ⟨ok2, nc2, in2, dir2⟩ := rin
              simp only [hin] at h
              by_cases hok2 : ok2 = true
              · rw [if_pos hok2] at h
                cases hrec : processContentF ctx ctxSet labels fuel rest with
                | none => rw [hrec] at h; simp at h
                | some r2 =>
                  simp only [hrec, Option.map_some'] at h
                  injection h with h2
                  rw [← h2] at hok ⊢
                  have hinn := ih inner (ok2, nc2, in2, dir2) hin hok2
                  have hrest := ih rest r2 hrec hok
                  refine ⟨?_, hrest.2⟩
                  rw [show in2 = [] from hinn.1, show dir2 = [] from hinn.2,
                    show r2.2.2.1 = [] from hrest.1]
                  rfl
              · rw [if_neg hok2] at h
                injection h with h2
                rw [← h2] at hok
                simp at hok
          · rw [if_neg hra] at h
            by_cases hirr : objIsIrrelevant (.ncond f l inner) ctx ctxSet labels = true
            · rw [if_pos hirr] at h
              exact ih rest r h hok
            · rw [if_neg hirr] at h
              cases hrec : processContentF ctx ctxSet labels fuel rest with
              | none => rw [hrec] at h; simp at h
              | some r2 =>
                simp only [hrec, Option.map_some'] at h
                injection h with h2
                rw [← h2] at hok ⊢
                exact ih rest r2 hrec hok

theorem listNoJoin_cons {t : CItem} {rest : List CItem}
    (h : listNoJoin (t :: rest) = true) :
    isJoinItem t = false ∧ itemNoNestJoin t = true ∧ listNoJoin rest = true := by
  have h2 : (!(isJoinItem t) && itemNoNestJoin t && listNoJoin rest) = true := h
  simp only [Bool.and_eq_true, Bool.not_eq_true'] at h2
  exact ⟨h2.1.1, h2.1.2, h2.2⟩

theorem listNoJoin_append {l1 l2 : List CItem} (h1 : listNoJoin l1 = true)
    (h2 : listNoJoin l2 = true) : listNoJoin (l1 ++ l2) = true := by
  induction l1 with
  | nil => simpa using h2
  | cons a rest ih =>
    obtain ⟨ha1, ha2, ha3⟩ := listNoJoin_cons h1
    show (!(isJoinItem a) && itemNoNestJoin a && listNoJoin (rest ++ l2)) = true
    simp [ha1, ha2, ih ha3]

theorem processContentF_total (ctx ctxSet labels : List MLabel) :
    ∀ (fuel : ℕ) (items : List CItem), listNoJoin items = true →
    clistSize items < fuel →
    ∃ r, processContentF ctx ctxSet labels fuel items = some r := by
  intro fuel
  induction fuel with
  | zero => intro items _ h; omega
  | succ fuel ih =>
    intro items hnj hsz
    match items with
    | [] => exact ⟨(true, [], [], []), rfl⟩
    | t :: rest =>
      match t with
      | .mk fn ln obj =>
        have hw := listNoJoin_cons hnj
        have e1 : clistSize (CItem.mk fn ln obj :: rest) =
            citemSize (.mk fn ln obj) + clistSize rest := rfl
        have e2 : citemSize (CItem.mk fn ln obj) = 1 + cobjSize obj := rfl
        have p1 : 1 ≤ cobjSize obj := cobjSize_pos obj
        have p3 : 1 ≤ clistSize rest := clistSize_pos rest
        rw [e2] at e1
        match obj with
        | .op o =>
          simp only [processContentF]
          obtain ⟨r2, hr2⟩ := ih rest hw.2.2 (by omega)
          rw [hr2]
          exact ⟨_, rfl⟩
        | .fJoin f l => exact Bool.noConfusion hw.1
        | .fOnly f l =>
          simp only [processContentF]
          by_cases hra : objRequiresAction (.fOnly f l) ctx ctxSet labels = true
          · rw [if_pos hra]
            exact ⟨_, rfl⟩
          · rw [if_neg hra]
            obtain ⟨r2, hr2⟩ := ih rest hw.2.2 (by omega)
            by_cases hirr : objIsIrrelevant (.fOnly f l) ctx ctxSet labels = true
            · rw [if_pos hirr]
              exact ⟨r2, hr2⟩
            · rw [if_neg hirr]
              rw [hr2]
              exact ⟨_, rfl⟩
        | .fNo f l =>
          simp only [processContentF]
          by_cases hra : objRequiresAction (.fNo f l) ctx ctxSet labels = true
          · rw [if_pos hra]
            exact ⟨_, rfl⟩
          · rw [if_neg hra]
            obtain ⟨r2, hr2⟩ := ih rest hw.2.2 (by omega)
            by_cases hirr : objIsIrrelevant (.fNo f l) ctx ctxSet labels = true
            · rw [if_pos hirr]
              exact ⟨r2, hr2⟩
            · rw [if_neg hirr]
              rw [hr2]
              exact ⟨_, rfl⟩
        | .cond f l inner =>
          have e3 : cobjSize (.cond f l inner) = 1 + clistSize inner := rfl
          have hinw : listNoJoin inner = true := by
            have := hw.2.1
            simpa [itemNoNestJoin] using this
          simp only [processContentF]
          by_cases hra : objRequiresAction (.cond f l inner) ctx ctxSet labels = true
          · rw [if_pos hra]
            obtain ⟨rin, hrin⟩ := ih inner hinw (by omega)
            obtain ⟨ok2, nc2, in2, dir2⟩ := rin
            rw [hrin]
            simp only []
            by_cases hok : ok2 = true
            · rw [if_pos hok]
              obtain ⟨r2, hr2⟩ := ih rest hw.2.2 (by omega)
              rw [hr2]
              exact ⟨_, rfl⟩
            · rw [if_neg hok]
              exact ⟨_, rfl⟩
          · rw [if_neg hra]
            obtain ⟨r2, hr2⟩ := ih rest hw.2.2 (by omega)
            by_cases hirr : objIsIrrelevant (.cond f l inner) ctx ctxSet labels = true
            · rw [if_pos hirr]
              exact ⟨r2, hr2⟩
            · rw [if_neg hirr]
              rw [hr2]
              exact ⟨_, rfl⟩
        | .ncond f l inner =>
          have e3 : cobjSize (.ncond f l inner) = 1 + clistSize inner := rfl
          have hinw : listNoJoin inner = true := by
            have := hw.2.1
            simpa [itemNoNestJoin] using this
          simp only [processContentF]
          by_cases hra : objRequiresAction (.ncond f l inner) ctx ctxSet labels = true
          · rw [if_pos hra]
            obtain ⟨rin, hrin⟩ := ih inner hinw (by omega)
            obtain ⟨ok2, nc2, in2, dir2⟩ := rin
            rw [hrin]
            simp only []
            by_cases hok : ok2 = true
            · rw [if_pos hok]
              obtain ⟨r2, hr2⟩ := ih rest hw.2.2 (by omega)
              rw [hr2]
              exact ⟨_, rfl⟩
            · rw [if_neg hok]
              exact ⟨_, rfl⟩
          · rw [if_neg hra]
            obtain ⟨r2, hr2⟩ := ih rest hw.2.2 (by omega)
            by_cases hirr : objIsIrrelevant (.ncond f l inner) ctx ctxSet labels = true
            · rw [if_pos hirr]
              exact ⟨r2, hr2⟩
            · rw [if_neg hirr]
              rw [hr2]
              exact ⟨_, rfl⟩

theorem processContentF_to_full (ctx ctxSet labels : List MLabel) {fuel : ℕ}
    {items : List CItem} {r : Bool × List CItem × List CItem × List CItem}
    (h : processContentF ctx ctxSet labels fuel items = some r) :
    processContent ctx ctxSet labels items = some r := by
  have hmono := processContentF_mono ctx ctxSet labels fuel items r h
    (fuel + clistSize items + 1) (by omega)
  have hstab := processContentF_stable ctx ctxSet labels (clistSize items) items
    (clistSize items + 1) (fuel + clistSize items + 1) le_rfl (by omega) (by omega)
  show processContentF ctx ctxSet labels (clistSize items + 1) items = some r
  rw [hstab, hmono]

theorem processContentF_records (ctx ctxSet labels : List MLabel) :
    ∀ (fuel : ℕ) (items : List CItem) (r : Bool × List CItem × List CItem × List CItem),
    processContentF ctx ctxSet labels fuel items = some r →
    (∀ u ∈ r.2.2.1, itemFails u ctx ctxSet labels = true) ∧
    (∀ u ∈ r.2.2.2, itemFails u ctx ctxSet labels = true) := by
  intro fuel
  induction fuel with
  | zero => intro items r h; exact absurd h (by simp [processContentF])
  | succ fuel ih =>
    intro items r h
    match items with
    | [] =>
      simp only [processContentF] at h
      injection h with h2
      subst h2
      refine ⟨?_, ?_⟩
      · intro u hu
        have hu2 : u ∈ ([] : List CItem) := hu
        exact absurd hu2 (by simp)
      · intro u hu
        have hu2 : u ∈ ([] : List CItem) := hu
        exact absurd hu2 (by simp)
    | t :: rest =>
      match t with
      | .mk fn ln obj =>
        match obj with
        | .op o =>
          simp only [processContentF] at h
          cases hrec : processContentF ctx ctxSet labels fuel rest with
          | none => rw [hrec] at h; exact absurd h (by simp)
          | some r2 =>
            rw [hrec] at h
            injection h with h2
            subst h2
            have hr := ih rest r2 hrec
            refine ⟨?_, ?_⟩
            · intro u hu
              have hu2 : u ∈ r2.2.2.1 := hu
              exact hr.1 u hu2
            · intro u hu
              have hu2 : u ∈ r2.2.2.2 := hu
              exact hr.2 u hu2
        | .fJoin f l =>
          simp only [processContentF] at h
          exact absurd h (by simp)
        | .fOnly f l =>
          simp only [processContentF] at h
          by_cases hra : objRequiresAction (.fOnly f l) ctx ctxSet labels = true
          · rw [if_pos hra] at h
            injection h with h2
            subst h2
            refine ⟨?_, ?_⟩
            · intro u hu
              have hu2 : u ∈ ([] : List CItem) := hu
              exact absurd hu2 (by simp)
            · intro u hu
              have hu2 : u ∈ [CItem.mk fn ln (CObj.fOnly f l)] := hu
              rw [List.mem_singleton] at hu2
              subst hu2
              exact hra
          · rw [if_neg hra] at h
            by_cases hirr : objIsIrrelevant (.fOnly f l) ctx ctxSet labels = true
            · rw [if_pos hirr] at h
              exact ih rest r h
            · rw [if_neg hirr] at h
              cases hrec : processContentF ctx ctxSet labels fuel rest with
              | none => rw [hrec] at h; exact absurd h (by simp)
              | some r2 =>
                rw [hrec] at h
                injection h with h2
                subst h2
                have hr := ih rest r2 hrec
                refine ⟨?_, ?_⟩
                · intro u hu
                  have hu2 : u ∈ r2.2.2.1 := hu
                  exact hr.1 u hu2
                · intro u hu
                  have hu2 : u ∈ r2.2.2.2 := hu
                  exact hr.2 u hu2
        | .fNo f l =>
          simp only [processContentF] at h
          by_cases hra : objRequiresAction (.fNo f l) ctx ctxSet labels = true
          · rw [if_pos hra] at h
            injection h with h2
            subst h2
            refine ⟨?_, ?_⟩
            · intro u hu
              have hu2 : u ∈ ([] : List CItem) := hu
              exact absurd hu2 (by simp)
            · intro u hu
              have hu2 : u ∈ [CItem.mk fn ln (CObj.fNo f l)] := hu
              rw [List.mem_singleton] at hu2
              subst hu2
              exact hra
          · rw [if_neg hra] at h
            by_cases hirr : objIsIrrelevant (.fNo f l) ctx ctxSet labels = true
            · rw [if_pos hirr] at h
              exact ih rest r h
            · rw [if_neg hirr] at h
              cases hrec : processContentF ctx ctxSet labels fuel rest with
              | none => rw [hrec] at h; exact absurd h (by simp)
              | some r2 =>
                rw [hrec] at h
                injection h with h2
                subst h2
                have hr := ih rest r2 hrec
                refine ⟨?_, ?_⟩
                · intro u hu
                  have hu2 : u ∈ r2.2.2.1 := hu
                  exact hr.1 u hu2
                · intro u hu
                  have hu2 : u ∈ r2.2.2.2 := hu
                  exact hr.2 u hu2
        | .cond f l inner =>
          simp only [processContentF] at h
          by_cases hra : objRequiresAction (.cond f l inner) ctx ctxSet labels = true
          · rw [if_pos hra] at h
            cases hin : processContentF ctx ctxSet labels fuel inner with
            | none => rw [hin] at h; exact absurd h (by simp)
            | some rin =>
              obtain ⟨ok2, nc2, in2, dir2⟩ := rin
              rw [hin] at h
              simp only [] at h
              have hfull := processContentF_to_full ctx ctxSet labels hin
              have hrecin := ih inner (ok2, nc2, in2, dir2) hin
              by_cases hok : ok2 = true
              · rw [if_pos hok] at h
                have hempty := processContentF_ok_empty ctx ctxSet labels fuel inner
                  (ok2, nc2, in2, dir2) hin hok
                cases hrec : processContentF ctx ctxSet labels fuel rest with
                | none => rw [hrec] at h; exact absurd h (by simp)
                | some r2 =>
                  rw [hrec] at h
                  injection h with h2
                  subst h2
                  have hr := ih rest r2 hrec
                  refine ⟨?_, ?_⟩
                  · intro u hu
                    have hu2 : u ∈ (in2 ++ dir2) ++ r2.2.2.1 := hu
                    rw [show in2 = [] from hempty.1, show dir2 = [] from hempty.2] at hu2
                    simp only [List.nil_append] at hu2
                    exact hr.1 u hu2
                  · intro u hu
                    have hu2 : u ∈ r2.2.2.2 := hu
                    exact hr.2 u hu2
              · rw [if_neg hok] at h
                injection h with h2
                subst h2
                have hok2 : ok2 = false := by
                  cases ok2
                  · rfl
                  · exact absurd rfl hok
                refine ⟨?_, ?_⟩
                · intro u hu
                  have hu2 : u ∈ in2 ++ dir2 := hu
                  rcases List.mem_append.mp hu2 with hu3 | hu3
                  · exact hrecin.1 u hu3
                  · exact hrecin.2 u hu3
                · intro u hu
                  have hu2 : u ∈ [CItem.mk fn ln (CObj.cond f l inner)] := hu
                  rw [List.mem_singleton] at hu2
                  subst hu2
                  have hb : (objRequiresAction (CObj.cond f l inner) ctx ctxSet labels &&
                      (match processContent ctx ctxSet labels inner with
                       | some rr => !rr.1
                       | none => false)) = true := by
                    rw [hra, hfull, hok2]
                    rfl
                  exact hb
          · rw [if_neg hra] at h
            by_cases hirr : objIsIrrelevant (.cond f l inner) ctx ctxSet labels = true
            · rw [if_pos hirr] at h
              exact ih rest r h
            · rw [if_neg hirr] at h
              cases hrec : processContentF ctx ctxSet labels fuel rest with
              | none => rw [hrec] at h; exact absurd h (by simp)
              | some r2 =>
                rw [hrec] at h
                injection h with h2
                subst h2
                have hr := ih rest r2 hrec
                refine ⟨?_, ?_⟩
                · intro u hu
                  have hu2 : u ∈ r2.2.2.1 := hu
                  exact hr.1 u hu2
                · intro u hu
                  have hu2 : u ∈ r2.2.2.2 := hu
                  exact hr.2 u hu2
        | .ncond f l inner =>
          simp only [processContentF] at h
          by_cases hra : objRequiresAction (.ncond f l inner) ctx ctxSet labels = true
          · rw [if_pos hra] at h
            cases hin : processContentF ctx ctxSet labels fuel inner with
            | none => rw [hin] at h; exact absurd h (by simp)
            | some rin =>
              obtain ⟨ok2, nc2, in2, dir2⟩ := rin
              rw [hin] at h
              simp only [] at h
              have hfull := processContentF_to_full ctx ctxSet labels hin
              have hrecin := ih inner (ok2, nc2, in2, dir2) hin
              by_cases hok : ok2 = true
              · rw [if_pos hok] at h
                have hempty := processContentF_ok_empty ctx ctxSet labels fuel inner
                  (ok2, nc2, in2, dir2) hin hok
                cases hrec : processContentF ctx ctxSet labels fuel rest with
                | none => rw [hrec] at h; exact absurd h (by simp)
                | some r2 =>
                  rw [hrec] at h
                  injection h with h2
                  subst h2
                  have hr := ih rest r2 hrec
                  refine ⟨?_, ?_⟩
                  · intro u hu
                    have hu2 : u ∈ (in2 ++ dir2) ++ r2.2.2.1 := hu
                    rw [show in2 = [] from hempty.1, show dir2 = [] from hempty.2] at hu2
                    simp only [List.nil_append] at hu2
                    exact hr.1 u hu2
                  · intro u hu
                    have hu2 : u ∈ r2.2.2.2 := hu
                    exact hr.2 u hu2
              · rw [if_neg hok] at h
                injection h with h2
                subst h2
                have hok2 : ok2 = false := by
                  cases ok2
                  · rfl
                  · exact absurd rfl hok
                refine ⟨?_, ?_⟩
                · intro u hu
                  have hu2 : u ∈ in2 ++ dir2 := hu
                  rcases List.mem_append.mp hu2 with hu3 | hu3
                  · exact hrecin.1 u hu3
                  · exact hrecin.2 u hu3
                · intro u hu
                  have hu2 : u ∈ [CItem.mk fn ln (CObj.ncond f l inner)] := hu
                  rw [List.mem_singleton] at hu2
                  subst hu2
                  have hb : (objRequiresAction (CObj.ncond f l inner) ctx ctxSet labels &&
                      (match processContent ctx ctxSet labels inner with
                       | some rr => !rr.1
                       | none => false)) = true := by
                    rw [hra, hfull, hok2]
                    rfl
                  exact hb
          · rw [if_neg hra] at h
            by_cases hirr : objIsIrrelevant (.ncond f l inner) ctx ctxSet labels = true
            · rw [if_pos hirr] at h
              exact ih rest r h
            · rw [if_neg hirr] at h
              cases hrec : processContentF ctx ctxSet labels fuel rest with
              | none => rw [hrec] at h; exact absurd h (by simp)
              | some r2 =>
                rw [hrec] at h
                injection h with h2
                subst h2
                have hr := ih rest r2 hrec
                refine ⟨?_, ?_⟩
                · intro u hu
                  have hu2 : u ∈ r2.2.2.1 := hu
                  exact hr.1 u hu2
                · intro u hu
                  have hu2 : u ∈ r2.2.2.2 := hu
                  exact hr.2 u hu2

theorem processContentF_fails (ctx ctxSet labels : List MLabel) :
    ∀ (fuel : ℕ) (items : List CItem) (t2 : CItem)
      (r : Bool × List CItem × List CItem × List CItem),
    t2 ∈ items → itemFails t2 ctx ctxSet labels = true →
    processContentF ctx ctxSet labels fuel items = some r → r.1 = false := by
  intro fuel
  induction fuel with
  | zero => intro items t2 r _ _ h; exact absurd h (by simp [processContentF])
  | succ fuel ih =>
    intro items t2 r hmem hfail h
    match items with
    | [] => exact absurd hmem (by simp)
    | t :: rest =>
      match t with
      | .mk fn ln obj =>
        match obj with
        | .op o =>
          simp only [processContentF] at h
          cases hrec : processContentF ctx ctxSet labels fuel rest with
          | none => rw [hrec] at h; exact absurd h (by simp)
          | some r2 =>
            rw [hrec] at h
            injection h with h2
            subst h2
            rcases List.mem_cons.mp hmem with heq | hmem2
            · subst heq
              exact Bool.noConfusion hfail
            · exact ih rest t2 r2 hmem2 hfail hrec
        | .fJoin f l =>
          simp only [processContentF] at h
          exact absurd h (by simp)
        | .fOnly f l =>
          simp only [processContentF] at h
          by_cases hra : objRequiresAction (.fOnly f l) ctx ctxSet labels = true
          · rw [if_pos hra] at h
            injection h with h2
            subst h2
            rfl
          · rw [if_neg hra] at h
            rcases List.mem_cons.mp hmem with heq | hmem2
            · subst heq
              exact absurd hfail hra
            · by_cases hirr : objIsIrrelevant (.fOnly f l) ctx ctxSet labels = true
              · rw [if_pos hirr] at h
                exact ih rest t2 r hmem2 hfail h
              · rw [if_neg hirr] at h
                cases hrec : processContentF ctx ctxSet labels fuel rest with
                | none => rw [hrec] at h; exact absurd h (by simp)
                | some r2 =>
                  rw [hrec] at h
                  injection h with h2
                  subst h2
                  exact ih rest t2 r2 hmem2 hfail hrec
        | .fNo f l =>
          simp only [processContentF] at h
          by_cases hra : objRequiresAction (.fNo f l) ctx ctxSet labels = true
          · rw [if_pos hra] at h
            injection h with h2
            subst h2
            rfl
          · rw [if_neg hra] at h
            rcases List.mem_cons.mp hmem with heq | hmem2
            · subst heq
              exact absurd hfail hra
            · by_cases hirr : objIsIrrelevant (.fNo f l) ctx ctxSet labels = true
              · rw [if_pos hirr] at h
                exact ih rest t2 r hmem2 hfail h
              · rw [if_neg hirr] at h
                cases hrec : processContentF ctx ctxSet labels fuel rest with
                | none => rw [hrec] at h; exact absurd h (by simp)
                | some r2 =>
                  rw [hrec] at h
                  injection h with h2
                  subst h2
                  exact ih rest t2 r2 hmem2 hfail hrec
        | .cond f l inner =>
          simp only [processContentF] at h
          by_cases hra : objRequiresAction (.cond f l inner) ctx ctxSet labels = true
          · rw [if_pos hra] at h
            cases hin : processContentF ctx ctxSet labels fuel inner with
            | none => rw [hin] at h; exact absurd h (by simp)
            | some rin =>
              obtain ⟨ok2, nc2, in2, dir2⟩ := rin
              rw [hin] at h
              simp only [] at h
              by_cases hok : ok2 = true
              · rw [if_pos hok] at h
                rcases List.mem_cons.mp hmem with heq | hmem2
                · subst heq
                  have hfull := processContentF_to_full ctx ctxSet labels hin
                  have hf2 : (objRequiresAction (CObj.cond f l inner) ctx ctxSet labels &&
                      (match processContent ctx ctxSet labels inner with
                       | some rr => !rr.1
                       | none => false)) = true := hfail
                  rw [Bool.and_eq_true] at hf2
                  have hf3 := hf2.2
                  rw [hfull, hok] at hf3
                  exact Bool.noConfusion hf3
                ·
                  cases hrec : processContentF ctx ctxSet labels fuel rest with
                  | none => rw [hrec] at h; exact absurd h (by simp)
                  | some r2 =>
                    rw [hrec] at h
                    injection h with h2
                    subst h2
                    exact ih rest t2 r2 hmem2 hfail hrec
              · rw [if_neg hok] at h
                injection h with h2
                subst h2
                rfl
          · rw [if_neg hra] at h
            rcases List.mem_cons.mp hmem with heq | hmem2
            · subst heq
              have hf2 : (objRequiresAction (CObj.cond f l inner) ctx ctxSet labels &&
                  (match processContent ctx ctxSet labels inner with
                   | some rr => !rr.1
                   | none => false)) = true := hfail
              rw [Bool.and_eq_true] at hf2
              exact absurd hf2.1 hra
            · by_cases hirr : objIsIrrelevant (.cond f l inner) ctx ctxSet labels = true
              · rw [if_pos hirr] at h
                exact ih rest t2 r hmem2 hfail h
              · rw [if_neg hirr] at h
                cases hrec : processContentF ctx ctxSet labels fuel rest with
                | none => rw [hrec] at h; exact absurd h (by simp)
                | some r2 =>
                  rw [hrec] at h
                  injection h with h2
                  subst h2
                  exact ih rest t2 r2 hmem2 hfail hrec
        | .ncond f l inner =>
          simp only [processContentF] at h
          by_cases hra : objRequiresAction (.ncond f l inner) ctx ctxSet labels = true
          · rw [if_pos hra] at h
            cases hin : processContentF ctx ctxSet labels fuel inner with
            | none => rw [hin] at h; exact absurd h (by simp)
            | some rin =>
              obtain ⟨ok2, nc2, in2, dir2⟩ := rin
              rw [hin] at h
              simp only [] at h
              by_cases hok : ok2 = true
              · rw [if_pos hok] at h
                rcases List.mem_cons.mp hmem with heq | hmem2
                · subst heq
                  have hfull := processContentF_to_full ctx ctxSet labels hin
                  have hf2 : (objRequiresAction (CObj.ncond f l inner) ctx ctxSet labels &&
                      (match processContent ctx ctxSet labels inner with
                       | some rr => !rr.1
                       | none => false)) = true := hfail
                  rw [Bool.and_eq_true] at hf2
                  have hf3 := hf2.2
                  rw [hfull, hok] at hf3
                  exact Bool.noConfusion hf3
                ·
                  cases hrec : processContentF ctx ctxSet labels fuel rest with
                  | none => rw [hrec] at h; exact absurd h (by simp)
                  | some r2 =>
                    rw [hrec] at h
                    injection h with h2
                    subst h2
                    exact ih rest t2 r2 hmem2 hfail hrec
              · rw [if_neg hok] at h
                injection h with h2
                subst h2
                rfl
          · rw [if_neg hra] at h
            rcases List.mem_cons.mp hmem with heq | hmem2
            · subst heq
              have hf2 : (objRequiresAction (CObj.ncond f l inner) ctx ctxSet labels &&
                  (match processContent ctx ctxSet labels inner with
                   | some rr => !rr.1
                   | none => false)) = true := hfail
              rw [Bool.and_eq_true] at hf2
              exact absurd hf2.1 hra
            · by_cases hirr : objIsIrrelevant (.ncond f l inner) ctx ctxSet labels = true
              · rw [if_pos hirr] at h
                exact ih rest t2 r hmem2 hfail h
              · rw [if_neg hirr] at h
                cases hrec : processContentF ctx ctxSet labels fuel rest with
                | none => rw [hrec] at h; exact absurd h (by simp)
                | some r2 =>
                  rw [hrec] at h
                  injection h with h2
                  subst h2
                  exact ih rest t2 r2 hmem2 hfail hrec

theorem processContentF_noJoin (ctx ctxSet labels : List MLabel) :
    ∀ (fuel : ℕ) (items : List CItem) (r : Bool × List CItem × List CItem × List CItem),
    listNoJoin items = true →
    processContentF ctx ctxSet labels fuel items = some r →
    listNoJoin r.2.1 = true := by
  intro fuel
  induction fuel with
  | zero => intro items r _ h; exact absurd h (by simp [processContentF])
  | succ fuel ih =>
    intro items r hnj h
    match items with
    | [] =>
      simp only [processContentF] at h
      injection h with h2
      subst h2
      rfl
    | t :: rest =>
      match t with
      | .mk fn ln obj =>
        have hw := listNoJoin_cons hnj
        match obj with
        | .op o =>
          simp only [processContentF] at h
          cases hrec : processContentF ctx ctxSet labels fuel rest with
          | none => rw [hrec] at h; exact absurd h (by simp)
          | some r2 =>
            rw [hrec] at h
            injection h with h2
            subst h2
            have hr := ih rest r2 hw.2.2 hrec
            show (!(isJoinItem (CItem.mk fn ln (CObj.op o))) &&
              itemNoNestJoin (CItem.mk fn ln (CObj.op o)) && listNoJoin r2.2.1) = true
            rw [hw.1, hr]
            simp [hw.2.1]
        | .fJoin f l => exact Bool.noConfusion hw.1
        | .fOnly f l =>
          simp only [processContentF] at h
          by_cases hra : objRequiresAction (.fOnly f l) ctx ctxSet labels = true
          · rw [if_pos hra] at h
            injection h with h2
            subst h2
            rfl
          · rw [if_neg hra] at h
            by_cases hirr : objIsIrrelevant (.fOnly f l) ctx ctxSet labels = true
            · rw [if_pos hirr] at h
              exact ih rest r hw.2.2 h
            · rw [if_neg hirr] at h
              cases hrec : processContentF ctx ctxSet labels fuel rest with
              | none => rw [hrec] at h; exact absurd h (by simp)
              | some r2 =>
                rw [hrec] at h
                injection h with h2
                subst h2
                have hr := ih rest r2 hw.2.2 hrec
                show (!(isJoinItem (CItem.mk fn ln (CObj.fOnly f l))) &&
                  itemNoNestJoin (CItem.mk fn ln (CObj.fOnly f l)) &&
                  listNoJoin r2.2.1) = true
                rw [hw.1, hr]
                simp [hw.2.1]
        | .fNo f l =>
          simp only [processContentF] at h
          by_cases hra : objRequiresAction (.fNo f l) ctx ctxSet labels = true
          · rw [if_pos hra] at h
            injection h with h2
            subst h2
            rfl
          · rw [if_neg hra] at h
            by_cases hirr : objIsIrrelevant (.fNo f l) ctx ctxSet labels = true
            · rw [if_pos hirr] at h
              exact ih rest r hw.2.2 h
            · rw [if_neg hirr] at h
              cases hrec : processContentF ctx ctxSet labels fuel rest with
              | none => rw [hrec] at h; exact absurd h (by simp)
              | some r2 =>
                rw [hrec] at h
                injection h with h2
                subst h2
                have hr := ih rest r2 hw.2.2 hrec
                show (!(isJoinItem (CItem.mk fn ln (CObj.fNo f l))) &&
                  itemNoNestJoin (CItem.mk fn ln (CObj.fNo f l)) &&
                  listNoJoin r2.2.1) = true
                rw [hw.1, hr]
                simp [hw.2.1]
        | .cond f l inner =>
          have hinw : listNoJoin inner = true := by
            have := hw.2.1
            simpa [itemNoNestJoin] using this
          simp only [processContentF] at h
          by_cases hra : objRequiresAction (.cond f l inner) ctx ctxSet labels = true
          · rw [if_pos hra] at h
            cases hin : processContentF ctx ctxSet labels fuel inner with
            | none => rw [hin] at h; exact absurd h (by simp)
            | some rin =>
              obtain ⟨ok2, nc2, in2, dir2⟩ := rin
              rw [hin] at h
              simp only [] at h
              by_cases hok : ok2 = true
              · rw [if_pos hok] at h
                cases hrec : processContentF ctx ctxSet labels fuel rest with
                | none => rw [hrec] at h; exact absurd h (by simp)
                | some r2 =>
                  rw [hrec] at h
                  injection h with h2
                  subst h2
                  have hrin := ih inner (ok2, nc2, in2, dir2) hinw hin
                  have hr := ih rest r2 hw.2.2 hrec
                  show listNoJoin (nc2 ++ r2.2.1) = true
                  exact listNoJoin_append hrin hr
              · rw [if_neg hok] at h
                injection h with h2
                subst h2
                rfl
          · rw [if_neg hra] at h
            by_cases hirr : objIsIrrelevant (.cond f l inner) ctx ctxSet labels = true
            · rw [if_pos hirr] at h
              exact ih rest r hw.2.2 h
            · rw [if_neg hirr] at h
              cases hrec : processContentF ctx ctxSet labels fuel rest with
              | none => rw [hrec] at h; exact absurd h (by simp)
              | some r2 =>
                rw [hrec] at h
                injection h with h2
                subst h2
                have hr := ih rest r2 hw.2.2 hrec
                show (!(isJoinItem (CItem.mk fn ln (CObj.cond f l inner))) &&
                  itemNoNestJoin (CItem.mk fn ln (CObj.cond f l inner)) &&
                  listNoJoin r2.2.1) = true
                rw [hw.1, hr]
                simp [hw.2.1]
        | .ncond f l inner =>
          have hinw : listNoJoin inner = true := by
            have := hw.2.1
            simpa [itemNoNestJoin] using this
          simp only [processContentF] at h
          by_cases hra : objRequiresAction (.ncond f l inner) ctx ctxSet labels = true
          · rw [if_pos hra] at h
            cases hin : processContentF ctx ctxSet labels fuel inner with
            | none => rw [hin] at h; exact absurd h (by simp)
            | some rin =>
              obtain ⟨ok2, nc2, in2, dir2⟩ := rin
              rw [hin] at h
              simp only [] at h
              by_cases hok : ok2 = true
              · rw [if_pos hok] at h
                cases hrec : processContentF ctx ctxSet labels fuel rest with
                | none => rw [hrec] at h; exact absurd h (by simp)
                | some r2 =>
                  rw [hrec] at h
                  injection h with h2
                  subst h2
                  have hrin := ih inner (ok2, nc2, in2, dir2) hinw hin
                  have hr := ih rest r2 hw.2.2 hrec
                  show listNoJoin (nc2 ++ r2.2.1) = true
                  exact listNoJoin_append hrin hr
              · rw [if_neg hok] at h
                injection h with h2
                subst h2
                rfl
          · rw [if_neg hra] at h
            by_cases hirr : objIsIrrelevant (.ncond f l inner) ctx ctxSet labels = true
            · rw [if_pos hirr] at h
              exact ih rest r hw.2.2 h
            · rw [if_neg hirr] at h
              cases hrec : processContentF ctx ctxSet labels fuel rest with
              | none => rw [hrec] at h; exact absurd h (by simp)
              | some r2 =>
                rw [hrec] at h
                injection h with h2
                subst h2
                have hr := ih rest r2 hw.2.2 hrec
                show (!(isJoinItem (CItem.mk fn ln (CObj.ncond f l inner))) &&
                  itemNoNestJoin (CItem.mk fn ln (CObj.ncond f l inner)) &&
                  listNoJoin r2.2.1) = true
                rw [hw.1, hr]
                simp [hw.2.1]

/-! ### C9: cache transparency of the failed-case deques -/

theorem mnodeSize_pos (n : MNode) : 1 ≤ mnodeSize n := by
  cases n
  exact Nat.le_add_right 1 _

theorem mlistSize_pos (ch : List MNode) : 1 ≤ mlistSize ch := by
  cases ch with
  | nil => exact le_rfl
  | cons n rest => exact le_trans (mnodeSize_pos n) (Nat.le_add_right _ _)

theorem content_withContent (n : MNode) (c : List CItem) :
    (n.withContent c).content = c := by cases n; rfl

theorem children_withContent (n : MNode) (c : List CItem) :
    (n.withContent c).children = n.children := by cases n; rfl

theorem name_withFailedCases (n : MNode) (f : List FailedCase) :
    (n.withFailedCases f).name = n.name := by cases n; rfl

theorem labels_withFailedCases (n : MNode) (f : List FailedCase) :
    (n.withFailedCases f).labels = n.labels := by cases n; rfl

theorem children_withFailedCases (n : MNode) (f : List FailedCase) :
    (n.withFailedCases f).children = n.children := by cases n; rfl

theorem content_withFailedCases (n : MNode) (f : List FailedCase) :
    (n.withFailedCases f).content = n.content := by cases n; rfl

theorem failedCases_withFailedCases (n : MNode) (f : List FailedCase) :
    (n.withFailedCases f).failedCases = f := by cases n; rfl

theorem name_withChildren (n : MNode) (ch : List MNode) :
    (n.withChildren ch).name = n.name := by cases n; rfl

theorem labels_withChildren (n : MNode) (ch : List MNode) :
    (n.withChildren ch).labels = n.labels := by cases n; rfl

theorem children_withChildren (n : MNode) (ch : List MNode) :
    (n.withChildren ch).children = ch := by cases n; rfl

theorem content_withChildren (n : MNode) (ch : List MNode) :
    (n.withChildren ch).content = n.content := by cases n; rfl

theorem failedCases_withChildren (n : MNode) (ch : List MNode) :
    (n.withChildren ch).failedCases = n.failedCases := by cases n; rfl

theorem clearFC_withContent (n : MNode) (c : List CItem) :
    clearFC (n.withContent c) = (clearFC n).withContent c := by cases n; rfl

theorem clearFC_withFailedCases (n : MNode) (f : List FailedCase) :
    clearFC (n.withFailedCases f) = clearFC n := by cases n; rfl

theorem clearFC_withChildren (n : MNode) (ch : List MNode) :
    clearFC (n.withChildren ch) = (clearFC n).withChildren (clearFCList ch) := by
  cases n; rfl

theorem clearFC_fields {n1 n2 : MNode} (h : clearFC n1 = clearFC n2) :
    n1.varName = n2.varName ∧ n1.name = n2.name ∧ n1.dep = n2.dep ∧
    n1.content = n2.content ∧
    clearFCList n1.children = clearFCList n2.children ∧
    n1.labels = n2.labels ∧ n1.appendToShortname = n2.appendToShortname ∧
    n1.isDefault = n2.isDefault := by
  cases n1
  cases n2
  simp only [clearFC] at h
  injection h with h1 h2 h3 h4 h5 h6 h7 h8 h9
  exact ⟨h1, h2, h3, h4, h5, h6, h7, h8⟩

theorem clearFCList_length (ch : List MNode) :
    (clearFCList ch).length = ch.length := by
  induction ch with
  | nil => rfl
  | cons n rest ih => simp only [clearFCList, List.length_cons, ih]

theorem soundNode_iff (n : MNode) (ctx : List MLabel) :
    soundNode n ctx ↔
      ((∀ fc ∈ n.failedCases, ∀ t ∈ fc.ext ++ fc.int,
        itemFails t (ctx ++ n.name) (ctx ++ n.name) n.labels = true) ∧
       soundChildren n.children (ctx ++ n.name)) := by
  cases n
  exact Iff.rfl

theorem boundedFC_iff (n : MNode) :
    boundedFC n ↔
      n.failedCases.length ≤ numFailedCases ∧ boundedFCList n.children := by
  cases n
  exact Iff.rfl

theorem treeNoNestJoin_eq (n : MNode) :
    treeNoNestJoin n =
      (n.content.all itemNoNestJoin && treeListNoNestJoin n.children) := by
  cases n
  rfl

theorem soundNode_withContent (n : MNode) (c : List CItem) (ctx : List MLabel) :
    soundNode (n.withContent c) ctx ↔ soundNode n ctx := by
  cases n
  exact Iff.rfl

theorem boundedFC_withContent (n : MNode) (c : List CItem) :
    boundedFC (n.withContent c) ↔ boundedFC n := by
  cases n
  exact Iff.rfl

theorem addFailedCase_length (cs : List FailedCase) (fc : FailedCase)
    (h : cs.length ≤ numFailedCases) :
    (addFailedCase cs fc).length ≤ numFailedCases := by
  simp only [addFailedCase, numFailedCases] at h ⊢
  split
  · rw [List.length_dropLast]
    simp only [List.length_cons]
    omega
  · rename_i hlen
    simp only [List.length_cons] at hlen ⊢
    omega

theorem addFailedCase_mem {cs : List FailedCase} {fc fc1 : FailedCase}
    (h : fc1 ∈ addFailedCase cs fc) : fc1 = fc ∨ fc1 ∈ cs := by
  simp only [addFailedCase] at h
  split at h
  · have h2 := List.dropLast_subset _ h
    rcases List.mem_cons.mp h2 with h3 | h3
    · exact Or.inl h3
    · exact Or.inr h3
  · rcases List.mem_cons.mp h with h3 | h3
    · exact Or.inl h3
    · exact Or.inr h3

theorem listNoJoin_take (l : List CItem) (k : ℕ) (h : listNoJoin l = true) :
    listNoJoin (l.take k) = true := by
  induction l generalizing k with
  | nil => simpa using h
  | cons t rest ih =>
    obtain ⟨h1, h2, h3⟩ := listNoJoin_cons h
    cases k with
    | zero => rfl
    | succ k =>
      show (!(isJoinItem t) && itemNoNestJoin t && listNoJoin (rest.take k)) = true
      simp [h1, h2, ih k h3]

theorem listNoJoin_drop (l : List CItem) (k : ℕ) (h : listNoJoin l = true) :
    listNoJoin (l.drop k) = true := by
  induction l generalizing k with
  | nil => simpa using h
  | cons t rest ih =>
    obtain ⟨h1, h2, h3⟩ := listNoJoin_cons h
    cases k with
    | zero => exact h
    | succ k => exact ih k h3

theorem listNoJoin_all (l : List CItem) (h : listNoJoin l = true) :
    l.all itemNoNestJoin = true := by
  induction l with
  | nil => rfl
  | cons t rest ih =>
    obtain ⟨h1, h2, h3⟩ := listNoJoin_cons h
    simp [List.all_cons, h2, ih h3]

theorem listNoJoin_filter_not_join (l : List CItem)
    (h : l.all itemNoNestJoin = true) :
    listNoJoin (l.filter (fun t => ¬ isJoinItem t)) = true := by
  induction l with
  | nil => rfl
  | cons t rest ih =>
    simp only [List.all_cons, Bool.and_eq_true] at h
    by_cases hj : isJoinItem t = true
    · rw [List.filter_cons_of_neg (by simp [hj])]
      exact ih h.2
    · rw [List.filter_cons_of_pos (by simp [hj])]
      show (!(isJoinItem t) && itemNoNestJoin t && listNoJoin
        (rest.filter (fun t => ¬ isJoinItem t))) = true
      simp only [Bool.and_eq_true, Bool.not_eq_true']
      refine ⟨⟨?_, h.1⟩, ih h.2⟩
      cases hb : isJoinItem t
      · rfl
      · exact absurd hb hj

theorem listNoJoin_of_no_top_joins (l : List CItem)
    (hf : l.filter isJoinItem = []) (h : l.all itemNoNestJoin = true) :
    listNoJoin l = true := by
  induction l with
  | nil => rfl
  | cons t rest ih =>
    simp only [List.all_cons, Bool.and_eq_true] at h
    by_cases hj : isJoinItem t = true
    · rw [List.filter_cons_of_pos hj] at hf
      exact absurd hf (by simp)
    · rw [List.filter_cons_of_neg hj] at hf
      show (!(isJoinItem t) && itemNoNestJoin t && listNoJoin rest) = true
      simp only [Bool.and_eq_true, Bool.not_eq_true']
      refine ⟨⟨?_, h.1⟩, ih hf h.2⟩
      cases hb : isJoinItem t
      · rfl
      · exact absurd hb hj

theorem listNoJoin_map_fOnly (fn : String) (ln : ℕ) (ws : List (List (List MLabel))) :
    listNoJoin (ws.map (fun word => CItem.mk fn ln (.fOnly [word] ""))) = true := by
  induction ws with
  | nil => rfl
  | cons w rest ih =>
    show (!(isJoinItem (CItem.mk fn ln (.fOnly [w] ""))) &&
      itemNoNestJoin (CItem.mk fn ln (.fOnly [w] "")) &&
      listNoJoin (rest.map (fun word => CItem.mk fn ln (.fOnly [word] "")))) = true
    have h1 : isJoinItem (CItem.mk fn ln (.fOnly [w] "")) = false := rfl
    have h2 : itemNoNestJoin (CItem.mk fn ln (.fOnly [w] "")) = true := rfl
    simp [h1, h2, ih]

theorem listNoJoin_joinsToOnlys (joins : List CItem) :
    listNoJoin (joinsToOnlys joins) = true := by
  induction joins with
  | nil => rfl
  | cons t rest ih =>
    show listNoJoin (joinsToOnlys (t :: rest)) = true
    rw [show joinsToOnlys (t :: rest) =
      (match t with
       | .mk fn ln obj =>
         match obj with
         | .fJoin f _ => f.map (fun word => CItem.mk fn ln (.fOnly [word] ""))
         | _ => []) ++ joinsToOnlys rest from rfl]
    match t with
    | .mk fn ln obj =>
      match obj with
      | .op o => exact ih
      | .fOnly f l => exact ih
      | .fNo f l => exact ih
      | .fJoin f l => exact listNoJoin_append (listNoJoin_map_fOnly fn ln f) ih
      | .cond f l inner => exact ih
      | .ncond f l inner => exact ih

theorem processContent_total (ctx ctxSet labels : List MLabel)
    (items : List CItem) (h : listNoJoin items = true) :
    ∃ r, processContent ctx ctxSet labels items = some r :=
  processContentF_total ctx ctxSet labels (clistSize items + 1) items h
    (Nat.lt_succ_self _)

theorem processContent_records {ctx ctxSet labels : List MLabel}
    {items : List CItem} {r : Bool × List CItem × List CItem × List CItem}
    (h : processContent ctx ctxSet labels items = some r) :
    (∀ u ∈ r.2.2.1, itemFails u ctx ctxSet labels = true) ∧
    (∀ u ∈ r.2.2.2, itemFails u ctx ctxSet labels = true) :=
  processContentF_records ctx ctxSet labels (clistSize items + 1) items r h

theorem processContent_fails {ctx ctxSet labels : List MLabel}
    {items : List CItem} {t2 : CItem}
    {r : Bool × List CItem × List CItem × List CItem}
    (hm : t2 ∈ items) (hf : itemFails t2 ctx ctxSet labels = true)
    (h : processContent ctx ctxSet labels items = some r) : r.1 = false :=
  processContentF_fails ctx ctxSet labels (clistSize items + 1) items t2 r hm hf h

theorem processContent_noJoin {ctx ctxSet labels : List MLabel}
    {items : List CItem} {r : Bool × List CItem × List CItem × List CItem}
    (hnj : listNoJoin items = true)
    (h : processContent ctx ctxSet labels items = some r) :
    listNoJoin r.2.1 = true :=
  processContentF_noJoin ctx ctxSet labels (clistSize items + 1) items r hnj h

theorem processContent_ok_empty {ctx ctxSet labels : List MLabel}
    {items : List CItem} {r : Bool × List CItem × List CItem × List CItem}
    (h : processContent ctx ctxSet labels items = some r) (hok : r.1 = true) :
    r.2.2.1 = [] ∧ r.2.2.2 = [] :=
  processContentF_ok_empty ctx ctxSet labels (clistSize items + 1) items r h hok

theorem prune_fires {fc : FailedCase} {content nodeContent : List CItem}
    {ctx ctxSet labels : List MLabel}
    (h : failedCaseMightPass fc content nodeContent ctx ctxSet labels = false) :
    ∃ t, t ∈ fc.ext ++ fc.int ∧ t ∈ content ++ nodeContent := by
  simp only [failedCaseMightPass] at h
  split at h
  · exact absurd h (by simp)
  · rename_i h1
    simp only [List.any_eq_true, decide_eq_true_eq] at h1
    push_neg at h1
    have hmem : ∀ t ∈ fc.ext ++ fc.int, t ∈ content ++ nodeContent := by
      intro t ht
      exact (citemMem_iff _ _).mp (h1 t ht)
    split at h
    · rename_i h2
      simp only [List.any_eq_true] at h2
      obtain ⟨t, ht, -⟩ := h2
      exact ⟨t, List.mem_append_left _ ht, hmem t (List.mem_append_left _ ht)⟩
    · split at h
      · exact absurd h (by simp)
      · split at h
        · rename_i h4
          simp only [List.any_eq_true] at h4
          obtain ⟨t, ht, -⟩ := h4
          exact ⟨t, List.mem_append_right _ ht, hmem t (List.mem_append_right _ ht)⟩
        · exact absurd h (by simp)

/-- When no recorded case prunes but some triple of the current contents
genuinely fails, `get_dicts_plain` stops with no dictionaries, a recorded
failure, and a truthy generator outcome — exactly the observable behaviour
of a pruned visit. -/
theorem plain_noFind_fails (fuel : ℕ) (cfg : PCfg) (n : MNode)
    (ctx : List MLabel) (content : List CItem) (shortname : List MLabel)
    (dep : List String)
    (hfind : n.failedCases.findIdx? (fun fc =>
        ¬ failedCaseMightPass fc content n.content (ctx ++ n.name)
          (ctx ++ n.name) n.labels) = none)
    (hnj : listNoJoin n.content = true) (hcnj : listNoJoin content = true)
    (t : CItem) (ht : t ∈ content ++ n.content)
    (hfail : itemFails t (ctx ++ n.name) (ctx ++ n.name) n.labels = true)
    (hsound : soundNode n ctx) (hbound : boundedFC n) :
    ∃ fcs2, getDictsPlain (fuel + 1) cfg n ctx content shortname dep =
        ⟨[], n.withFailedCases fcs2, true⟩ ∧
      (∀ fc ∈ fcs2, ∀ u ∈ fc.ext ++ fc.int,
        itemFails u (ctx ++ n.name) (ctx ++ n.name) n.labels = true) ∧
      fcs2.length ≤ numFailedCases := by
  obtain ⟨rInt, hInt⟩ := processContent_total (ctx ++ n.name) (ctx ++ n.name)
    n.labels n.content hnj
  obtain ⟨okInt, ncInt, innerInt, directInt⟩ := rInt
  simp only [getDictsPlain]
  rw [hfind]
  simp only []
  rw [hInt]
  simp only []
  by_cases hok : okInt = true
  · have htc : t ∈ content := by
      rcases List.mem_append.mp ht with h1 | h1
      · exact h1
      · have := processContent_fails h1 hfail hInt
        rw [hok] at this
        exact absurd this (by simp)
    obtain ⟨rExt, hExt⟩ := processContent_total (ctx ++ n.name) (ctx ++ n.name)
      n.labels content hcnj
    obtain ⟨okExt, ncExt, innerExt, directExt⟩ := rExt
    have hokE : okExt = false := processContent_fails htc hfail hExt
    rw [if_neg (not_not_intro hok)]
    rw [hExt]
    simp only []
    rw [if_pos (by simp [hokE])]
    refine ⟨_, rfl, ?_, ?_⟩
    · intro fc hfc u hu
      rcases addFailedCase_mem hfc with rfl | hold
      · have hrec := processContent_records hExt
        rcases List.mem_append.mp hu with h1 | h1
        · exact hrec.2 u h1
        · exact hrec.1 u h1
      · exact ((soundNode_iff n ctx).mp hsound).1 fc hold u hu
    · exact addFailedCase_length _ _ ((boundedFC_iff n).mp hbound).1
  · have hokF : okInt = false := by
      cases okInt
      · rfl
      · exact absurd rfl hok
    rw [if_pos (by simp [hokF])]
    refine ⟨_, rfl, ?_, ?_⟩
    · intro fc hfc u hu
      rcases addFailedCase_mem hfc with rfl | hold
      · have hrec := processContent_records hInt
        have hu2 : u ∈ innerInt ++ directInt := by simpa using hu
        rcases List.mem_append.mp hu2 with h1 | h1
        · exact hrec.1 u h1
        · exact hrec.2 u h1
      · exact ((soundNode_iff n ctx).mp hsound).1 fc hold u hu
    · exact addFailedCase_length _ _ ((boundedFC_iff n).mp hbound).1

/-- When a recorded case prunes the visit, `get_dicts_plain` returns no
dictionaries with a truthy outcome, moving that case to the front of the
deque; moreover some triple of the current contents genuinely fails. -/
theorem plain_find_prunes (fuel : ℕ) (cfg : PCfg) (n : MNode)
    (ctx : List MLabel) (content : List CItem) (shortname : List MLabel)
    (dep : List String) (i : ℕ)
    (hfind : n.failedCases.findIdx? (fun fc =>
        ¬ failedCaseMightPass fc content n.content (ctx ++ n.name)
          (ctx ++ n.name) n.labels) = some i)
    (hsound : soundNode n ctx) (hbound : boundedFC n) :
    (getDictsPlain (fuel + 1) cfg n ctx content shortname dep =
      ⟨[], n.withFailedCases (n.failedCases.getD i ⟨[], [], [], []⟩ ::
        n.failedCases.eraseIdx i), true⟩) ∧
    (∀ fc ∈ (n.failedCases.getD i ⟨[], [], [], []⟩ ::
        n.failedCases.eraseIdx i), ∀ u ∈ fc.ext ++ fc.int,
      itemFails u (ctx ++ n.name) (ctx ++ n.name) n.labels = true) ∧
    (n.failedCases.getD i ⟨[], [], [], []⟩ ::
        n.failedCases.eraseIdx i).length ≤ numFailedCases ∧
    ∃ t, t ∈ content ++ n.content ∧
      itemFails t (ctx ++ n.name) (ctx ++ n.name) n.labels = true := by
  obtain ⟨hlt, hp, -⟩ := List.findIdx?_eq_some_iff_getElem.mp hfind
  have hgd : n.failedCases.getD i ⟨[], [], [], []⟩ = n.failedCases[i] :=
    List.getD_eq_getElem _ _ hlt
  have hmemi : n.failedCases[i] ∈ n.failedCases := List.getElem_mem hlt
  have hmp : failedCaseMightPass (n.failedCases[i]) content n.content
      (ctx ++ n.name) (ctx ++ n.name) n.labels = false := by
    have hnp := of_decide_eq_true hp
    revert hnp
    cases hb : failedCaseMightPass (n.failedCases[i]) content n.content
        (ctx ++ n.name) (ctx ++ n.name) n.labels
    · intro _
      rfl
    · intro hcon
      exact absurd rfl hcon
  refine ⟨?_, ?_, ?_, ?_⟩
  · simp only [getDictsPlain]
    rw [hfind]
  · intro fc hfc u hu
    have hsnd := ((soundNode_iff n ctx).mp hsound).1
    rw [hgd] at hfc
    rcases List.mem_cons.mp hfc with rfl | hold
    · exact hsnd _ hmemi u hu
    · exact hsnd fc (List.eraseIdx_subset _ _ hold) u hu
  · simp only [List.length_cons, List.length_eraseIdx]
    rw [if_pos hlt]
    have hb5 := ((boundedFC_iff n).mp hbound).1
    omega
  · obtain ⟨t, ht1, ht2⟩ := prune_fires hmp
    refine ⟨t, ht2, ?_⟩
    have hsnd := ((soundNode_iff n ctx).mp hsound).1
    exact hsnd _ hmemi t ht1

/-- Both runs stop with no dictionaries, a truthy outcome, and (sound,
bounded) replacement deques: the bisimulation holds. -/
theorem BR_stop {n1 n2 : MNode} {ctx : List MLabel} {c1 c2 : List CItem}
    (fcs1 fcs2 : List FailedCase)
    (h : clearFC n1 = clearFC n2)
    (hsnd1 : ∀ fc ∈ fcs1, ∀ u ∈ fc.ext ++ fc.int,
      itemFails u (ctx ++ n1.name) (ctx ++ n1.name) n1.labels = true)
    (hsnd2 : ∀ fc ∈ fcs2, ∀ u ∈ fc.ext ++ fc.int,
      itemFails u (ctx ++ n2.name) (ctx ++ n2.name) n2.labels = true)
    (hlen1 : fcs1.length ≤ numFailedCases) (hlen2 : fcs2.length ≤ numFailedCases)
    (hs1 : soundNode n1 ctx) (hs2 : soundNode n2 ctx)
    (hb1 : boundedFC n1) (hb2 : boundedFC n2)
    (hch1 : treeListNoNestJoin n1.children = true)
    (hch2 : treeListNoNestJoin n2.children = true)
    (hc1 : n1.content = c1) (hc2 : n2.content = c2) :
    BR ctx c1 c2 ⟨[], n1.withFailedCases fcs1, true⟩
      ⟨[], n2.withFailedCases fcs2, true⟩ := by
  refine ⟨rfl, rfl, ?_, ?_, ?_, ?_, ?_, ?_, ?_, ?_, ?_⟩
  · show clearFC (n1.withFailedCases fcs1) = clearFC (n2.withFailedCases fcs2)
    rw [clearFC_withFailedCases, clearFC_withFailedCases, h]
  · show soundNode (n1.withFailedCases fcs1) ctx
    rw [soundNode_iff]
    rw [failedCases_withFailedCases, name_withFailedCases,
      labels_withFailedCases, children_withFailedCases]
    exact ⟨hsnd1, ((soundNode_iff n1 ctx).mp hs1).2⟩
  · show soundNode (n2.withFailedCases fcs2) ctx
    rw [soundNode_iff]
    rw [failedCases_withFailedCases, name_withFailedCases,
      labels_withFailedCases, children_withFailedCases]
    exact ⟨hsnd2, ((soundNode_iff n2 ctx).mp hs2).2⟩
  · show boundedFC (n1.withFailedCases fcs1)
    rw [boundedFC_iff, failedCases_withFailedCases, children_withFailedCases]
    exact ⟨hlen1, ((boundedFC_iff n1).mp hb1).2⟩
  · show boundedFC (n2.withFailedCases fcs2)
    rw [boundedFC_iff, failedCases_withFailedCases, children_withFailedCases]
    exact ⟨hlen2, ((boundedFC_iff n2).mp hb2).2⟩
  · show (n1.withFailedCases fcs1).content = c1
    rw [content_withFailedCases, hc1]
  · show (n2.withFailedCases fcs2).content = c2
    rw [content_withFailedCases, hc2]
  · show treeListNoNestJoin (n1.withFailedCases fcs1).children = true
    rw [children_withFailedCases]
    exact hch1
  · show treeListNoNestJoin (n2.withFailedCases fcs2).children = true
    rw [children_withFailedCases]
    exact hch2

/-- Both runs return equal dictionaries and outcomes with children replaced
by bisimilar processed children: the bisimulation holds. -/
theorem BR_build {n1 n2 : MNode} {ctx : List MLabel} {c1 c2 : List CItem}
    {ds1 ds2 : List Dict} {ch1 ch2 : List MNode} {ok1 ok2 : Bool}
    (h : clearFC n1 = clearFC n2) (hds : ds1 = ds2) (hok : ok1 = ok2)
    (hcl : clearFCList ch1 = clearFCList ch2)
    (hsc1 : soundChildren ch1 (ctx ++ n1.name))
    (hsc2 : soundChildren ch2 (ctx ++ n2.name))
    (hbc1 : boundedFCList ch1) (hbc2 : boundedFCList ch2)
    (hwf1 : treeListNoNestJoin ch1 = true) (hwf2 : treeListNoNestJoin ch2 = true)
    (hs1 : soundNode n1 ctx) (hs2 : soundNode n2 ctx)
    (hb1 : boundedFC n1) (hb2 : boundedFC n2)
    (hc1 : n1.content = c1) (hc2 : n2.content = c2) :
    BR ctx c1 c2 ⟨ds1, n1.withChildren ch1, ok1⟩
      ⟨ds2, n2.withChildren ch2, ok2⟩ := by
  refine ⟨hds, hok, ?_, ?_, ?_, ?_, ?_, ?_, ?_, ?_, ?_⟩
  · show clearFC (n1.withChildren ch1) = clearFC (n2.withChildren ch2)
    rw [clearFC_withChildren, clearFC_withChildren, h, hcl]
  · show soundNode (n1.withChildren ch1) ctx
    rw [soundNode_iff]
    rw [failedCases_withChildren, name_withChildren, labels_withChildren,
      children_withChildren]
    exact ⟨((soundNode_iff n1 ctx).mp hs1).1, hsc1⟩
  · show soundNode (n2.withChildren ch2) ctx
    rw [soundNode_iff]
    rw [failedCases_withChildren, name_withChildren, labels_withChildren,
      children_withChildren]
    exact ⟨((soundNode_iff n2 ctx).mp hs2).1, hsc2⟩
  · show boundedFC (n1.withChildren ch1)
    rw [boundedFC_iff, failedCases_withChildren, children_withChildren]
    exact ⟨((boundedFC_iff n1).mp hb1).1, hbc1⟩
  · show boundedFC (n2.withChildren ch2)
    rw [boundedFC_iff, failedCases_withChildren, children_withChildren]
    exact ⟨((boundedFC_iff n2).mp hb2).1, hbc2⟩
  · show (n1.withChildren ch1).content = c1
    rw [content_withChildren, hc1]
  · show (n2.withChildren ch2).content = c2
    rw [content_withChildren, hc2]
  · show treeListNoNestJoin (n1.withChildren ch1).children = true
    rw [children_withChildren]
    exact hwf1
  · show treeListNoNestJoin (n2.withChildren ch2).children = true
    rw [children_withChildren]
    exact hwf2

/-- One step of the cache-transparency bisimulation for `get_dicts_plain`:
with sound, bounded caches on both sides of a `clearFC`-equal pair of trees,
the two visits emit the same dictionaries and outcome, and preserve the
invariants. -/
theorem cacheEq_plain_step (fuel : ℕ) (ihR : ChildrenBisimAt fuel) :
    PlainBisimAt (fuel + 1) := by
  intro cfg n1 n2 ctx content shortname dep h hs1 hs2 hb1 hb2 hnj hch1 hch2 hcnj
  obtain ⟨hv, hn, hd, hc, hchl, hl, ha, hdf⟩ := clearFC_fields h
  cases hfind1 : n1.failedCases.findIdx? (fun fc =>
      ¬ failedCaseMightPass fc content n1.content (ctx ++ n1.name)
        (ctx ++ n1.name) n1.labels) with
  | some i1 =>
    obtain ⟨heq1, hsnd1, hlen1, ht1⟩ := plain_find_prunes fuel cfg n1 ctx content
      shortname dep i1 hfind1 hs1 hb1
    cases hfind2 : n2.failedCases.findIdx? (fun fc =>
        ¬ failedCaseMightPass fc content n2.content (ctx ++ n2.name)
          (ctx ++ n2.name) n2.labels) with
    | some i2 =>
      obtain ⟨heq2, hsnd2, hlen2, -⟩ := plain_find_prunes fuel cfg n2 ctx content
        shortname dep i2 hfind2 hs2 hb2
      rw [heq1, heq2]
      exact BR_stop _ _ h hsnd1 hsnd2 hlen1 hlen2 hs1 hs2 hb1 hb2 hch1 hch2 rfl rfl
    | none =>
      obtain ⟨t, htm, htf⟩ := ht1
      rw [hc] at htm
      rw [hn, hl] at htf
      obtain ⟨fcs2, heq2, hsnd2, hlen2⟩ := plain_noFind_fails fuel cfg n2 ctx
        content shortname dep hfind2 (by rw [← hc]; exact hnj) hcnj t htm htf
        hs2 hb2
      rw [heq1, heq2]
      exact BR_stop _ _ h hsnd1 hsnd2 hlen1 hlen2 hs1 hs2 hb1 hb2 hch1 hch2 rfl rfl
  | none =>
    cases hfind2 : n2.failedCases.findIdx? (fun fc =>
        ¬ failedCaseMightPass fc content n2.content (ctx ++ n2.name)
          (ctx ++ n2.name) n2.labels) with
    | some i2 =>
      obtain ⟨heq2, hsnd2, hlen2, ht2⟩ := plain_find_prunes fuel cfg n2 ctx content
        shortname dep i2 hfind2 hs2 hb2
      obtain ⟨t, htm, htf⟩ := ht2
      rw [← hc] at htm
      rw [← hn, ← hl] at htf
      obtain ⟨fcs1, heq1, hsnd1, hlen1⟩ := plain_noFind_fails fuel cfg n1 ctx
        content shortname dep hfind1 hnj hcnj t htm htf hs1 hb1
      rw [heq1, heq2]
      exact BR_stop _ _ h hsnd1 hsnd2 hlen1 hlen2 hs1 hs2 hb1 hb2 hch1 hch2 rfl rfl
    | none =>
      rw [← hn, ← hc, ← hl] at hfind2
      obtain ⟨rInt, hInt⟩ := processContent_total (ctx ++ n1.name) (ctx ++ n1.name)
        n1.labels n1.content hnj
      obtain ⟨okInt, ncInt, innerInt, directInt⟩ := rInt
      simp only [getDictsPlain]
      rw [← hv, ← hn, ← hd, ← hc, ← hl, ← ha]
      rw [hfind1, hfind2]
      simp only []
      rw [hInt]
      simp only []
      by_cases hok : okInt = true
      · rw [if_neg (not_not_intro hok), if_neg (not_not_intro hok)]
        obtain ⟨rExt, hExt⟩ := processContent_total (ctx ++ n1.name)
          (ctx ++ n1.name) n1.labels content hcnj
        obtain ⟨okExt, ncExt, innerExt, directExt⟩ := rExt
        rw [hExt]
        simp only []
        by_cases hokE : okExt = true
        · rw [if_neg (not_not_intro hokE), if_neg (not_not_intro hokE)]
          have hncnj : listNoJoin (ncInt ++ ncExt) = true :=
            listNoJoin_append (processContent_noJoin hnj hInt)
              (processContent_noJoin hcnj hExt)
          have hscc1 := ((soundNode_iff n1 ctx).mp hs1).2
          have hscc2 : soundChildren n2.children (ctx ++ n1.name) := by
            rw [hn]
            exact ((soundNode_iff n2 ctx).mp hs2).2
          have hbcc1 := ((boundedFC_iff n1).mp hb1).2
          have hbcc2 := ((boundedFC_iff n2).mp hb2).2
          have hBRC := ihR cfg (ctx ++ n1.name) (ncInt ++ ncExt)
            (shortname ++ if n1.appendToShortname = true then n1.name else [])
            (dep ++ renderDeps ctx n1.dep)
            (cfg.defaults && match n1.varName with
              | none => true
              | some v => !(decide (v ∈ cfg.expandDefaults)))
            n1.children n2.children 0 hchl hscc1 hscc2 hbcc1 hbcc2 hch1 hch2 hncnj
          obtain ⟨hcd, hco, hccl, hcs1, hcs2, hcb1, hcb2, hcw1, hcw2⟩ := hBRC
          have hcs2n : soundChildren (runChildren fuel cfg (ctx ++ n1.name)
              (ncInt ++ ncExt)
              (shortname ++ if n1.appendToShortname = true then n1.name else [])
              (dep ++ renderDeps ctx n1.dep)
              (cfg.defaults && match n1.varName with
                | none => true
                | some v => !(decide (v ∈ cfg.expandDefaults)))
              n2.children 0).2.1 (ctx ++ n2.name) := by
            rw [← hn]
            exact hcs2
          rw [← hco]
          by_cases hrc : (runChildren fuel cfg (ctx ++ n1.name) (ncInt ++ ncExt)
              (shortname ++ if n1.appendToShortname = true then n1.name else [])
              (dep ++ renderDeps ctx n1.dep)
              (cfg.defaults && match n1.varName with
                | none => true
                | some v => !(decide (v ∈ cfg.expandDefaults)))
              n1.children 0).2.2 = true
          · rw [if_neg (not_not_intro hrc), if_neg (not_not_intro hrc)]
            have hlench : n1.children.length = n2.children.length := by
              have h1 := congrArg List.length hchl
              rwa [clearFCList_length, clearFCList_length] at h1
            have hemp : n2.children.isEmpty = n1.children.isEmpty := by
              rcases h1 : n1.children with _ | ⟨b, bs⟩
              · rcases h2 : n2.children with _ | ⟨a, as1⟩
                · rfl
                · rw [h1, h2] at hlench
                  simp at hlench
              · rcases h2 : n2.children with _ | ⟨a, as1⟩
                · rw [h1, h2] at hlench
                  simp at hlench
                · rfl
            rw [hemp]
            by_cases hle : n1.children.isEmpty = true
            · rw [if_pos hle, if_pos hle]
              cases hbld : buildLeafDict (dotJoin (ctx ++ n1.name))
                  (dep ++ renderDeps ctx n1.dep)
                  (".".intercalate (List.map (fun sn => sn.name)
                    (shortname ++ if n1.appendToShortname = true then n1.name
                      else [])))
                  (ncInt ++ ncExt) with
              | some d =>
                exact BR_build h rfl rfl hccl hcs1 hcs2n hcb1 hcb2 hcw1 hcw2
                  hs1 hs2 hb1 hb2 rfl hc.symm
              | none =>
                exact BR_build h rfl rfl hccl hcs1 hcs2n hcb1 hcb2 hcw1 hcw2
                  hs1 hs2 hb1 hb2 rfl hc.symm
            · rw [if_neg hle, if_neg hle]
              exact BR_build h hcd rfl hccl hcs1 hcs2n hcb1 hcb2 hcw1 hcw2
                hs1 hs2 hb1 hb2 rfl hc.symm
          · rw [if_pos hrc, if_pos hrc]
            exact BR_build h hcd rfl hccl hcs1 hcs2n hcb1 hcb2 hcw1 hcw2
              hs1 hs2 hb1 hb2 rfl hc.symm
        · have hokEF : okExt = false := by
            cases okExt
            · rfl
            · exact absurd rfl hokE
          rw [if_pos (show ¬ okExt = true by simp [hokEF]),
            if_pos (show ¬ okExt = true by simp [hokEF])]
          have hrec := processContent_records hExt
          refine BR_stop _ _ h ?_ ?_ ?_ ?_ hs1 hs2 hb1 hb2 hch1 hch2 rfl hc.symm
          · intro fc hfc u hu
            rcases addFailedCase_mem hfc with rfl | hold
            · rcases List.mem_append.mp hu with h1 | h1
              · exact hrec.2 u h1
              · exact hrec.1 u h1
            · exact ((soundNode_iff n1 ctx).mp hs1).1 fc hold u hu
          · intro fc hfc u hu
            rcases addFailedCase_mem hfc with rfl | hold
            · rw [← hn, ← hl]
              rcases List.mem_append.mp hu with h1 | h1
              · exact hrec.2 u h1
              · exact hrec.1 u h1
            · exact ((soundNode_iff n2 ctx).mp hs2).1 fc hold u hu
          · exact addFailedCase_length _ _ ((boundedFC_iff n1).mp hb1).1
          · exact addFailedCase_length _ _ ((boundedFC_iff n2).mp hb2).1
      · have hokF : okInt = false := by
          cases okInt
          · rfl
          · exact absurd rfl hok
        rw [if_pos (show ¬ okInt = true by simp [hokF]),
          if_pos (show ¬ okInt = true by simp [hokF])]
        have hrec := processContent_records hInt
        refine BR_stop _ _ h ?_ ?_ ?_ ?_ hs1 hs2 hb1 hb2 hch1 hch2 rfl hc.symm
        · intro fc hfc u hu
          rcases addFailedCase_mem hfc with rfl | hold
          · have hu2 : u ∈ innerInt ++ directInt := by simpa using hu
            rcases List.mem_append.mp hu2 with h1 | h1
            · exact hrec.1 u h1
            · exact hrec.2 u h1
          · exact ((soundNode_iff n1 ctx).mp hs1).1 fc hold u hu
        · intro fc hfc u hu
          rcases addFailedCase_mem hfc with rfl | hold
          · rw [← hn, ← hl]
            have hu2 : u ∈ innerInt ++ directInt := by simpa using hu
            rcases List.mem_append.mp hu2 with h1 | h1
            · exact hrec.1 u h1
            · exact hrec.2 u h1
          · exact ((soundNode_iff n2 ctx).mp hs2).1 fc hold u hu
        · exact addFailedCase_length _ _ ((boundedFC_iff n1).mp hb1).1
        · exact addFailedCase_length _ _ ((boundedFC_iff n2).mp hb2).1

theorem treeNoNestJoin_parts {n : MNode} (h : treeNoNestJoin n = true) :
    n.content.all itemNoNestJoin = true ∧ treeListNoNestJoin n.children = true := by
  rw [treeNoNestJoin_eq, Bool.and_eq_true] at h
  exact h

theorem treeNoNestJoin_build {n : MNode} (hc : n.content.all itemNoNestJoin = true)
    (hch : treeListNoNestJoin n.children = true) : treeNoNestJoin n = true := by
  rw [treeNoNestJoin_eq, Bool.and_eq_true]
  exact ⟨hc, hch⟩

theorem treeListNoNestJoin_cons {n : MNode} {rest : List MNode}
    (h1 : treeNoNestJoin n = true) (h2 : treeListNoNestJoin rest = true) :
    treeListNoNestJoin (n :: rest) = true := by
  show (treeNoNestJoin n && treeListNoNestJoin rest) = true
  rw [h1, h2]
  rfl

theorem treeListNoNestJoin_parts {n : MNode} {rest : List MNode}
    (h : treeListNoNestJoin (n :: rest) = true) :
    treeNoNestJoin n = true ∧ treeListNoNestJoin rest = true := by
  have h2 : (treeNoNestJoin n && treeListNoNestJoin rest) = true := h
  rw [Bool.and_eq_true] at h2
  exact h2

theorem soundChildren_cons_iff (n : MNode) (rest : List MNode)
    (ctx : List MLabel) :
    soundChildren (n :: rest) ctx ↔ soundNode n ctx ∧ soundChildren rest ctx :=
  Iff.rfl

theorem boundedFCList_cons_iff (n : MNode) (rest : List MNode) :
    boundedFCList (n :: rest) ↔ boundedFC n ∧ boundedFCList rest :=
  Iff.rfl

/-- One bisimulation step for the children loop of `get_dicts_plain`. -/
theorem cacheEq_children_step (fuel : ℕ) (ihJ : JoinedBisimAt fuel)
    (ihR : ChildrenBisimAt fuel) : ChildrenBisimAt (fuel + 1) := by
  intro cfg ctx content shortname dep sd ch1 ch2 count hch hsc1 hsc2 hbc1 hbc2
    hw1 hw2 hcnj
  match ch1, ch2 with
  | [], [] =>
    simp only [runChildren]
    exact ⟨rfl, rfl, rfl, trivial, trivial, trivial, trivial, rfl, rfl⟩
  | [], n2 :: rest2 => simp [clearFCList] at hch
  | n1 :: rest1, [] => simp [clearFCList] at hch
  | n1 :: rest1, n2 :: rest2 =>
    simp only [clearFCList] at hch
    injection hch with hne hreste
    obtain ⟨hsn1, hsr1⟩ := (soundChildren_cons_iff n1 rest1 ctx).mp hsc1
    obtain ⟨hsn2, hsr2⟩ := (soundChildren_cons_iff n2 rest2 ctx).mp hsc2
    obtain ⟨hbn1, hbr1⟩ := (boundedFCList_cons_iff n1 rest1).mp hbc1
    obtain ⟨hbn2, hbr2⟩ := (boundedFCList_cons_iff n2 rest2).mp hbc2
    obtain ⟨hwn1, hwr1⟩ := treeListNoNestJoin_parts hw1
    obtain ⟨hwn2, hwr2⟩ := treeListNoNestJoin_parts hw2
    obtain ⟨-, -, -, -, -, -, -, hisdf⟩ := clearFC_fields hne
    have hBR := ihJ cfg n1 n2 ctx content shortname dep true false hne hsn1 hsn2
      hbn1 hbn2 hwn1 hwn2 hcnj
    obtain ⟨hjd, hjo, hjcl, hjs1, hjs2, hjb1, hjb2, hjc1, hjc2, hjw1, hjw2⟩ := hBR
    have hwrn1 : treeNoNestJoin
        (getDictsJoined fuel cfg n1 ctx content shortname dep true false).node =
        true := by
      refine treeNoNestJoin_build ?_ hjw1
      rw [hjc1]
      exact (treeNoNestJoin_parts hwn1).1
    have hwrn2 : treeNoNestJoin
        (getDictsJoined fuel cfg n2 ctx content shortname dep true false).node =
        true := by
      refine treeNoNestJoin_build ?_ hjw2
      rw [hjc2]
      exact (treeNoNestJoin_parts hwn2).1
    simp only [runChildren]
    rw [← hjo, ← hjd, ← hisdf]
    by_cases hjok : (getDictsJoined fuel cfg n1 ctx content shortname dep
        true false).ok = true
    · rw [if_neg (not_not_intro hjok), if_neg (not_not_intro hjok)]
      by_cases hsd : (sd && n1.isDefault && decide (0 < count +
          (getDictsJoined fuel cfg n1 ctx content shortname dep
            true false).dicts.length)) = true
      · rw [if_pos hsd, if_pos hsd]
        refine ⟨rfl, rfl, ?_, ?_, ?_, ?_, ?_, ?_, ?_⟩
        · simp only [clearFCList]
          rw [hjcl, hreste]
        · exact (soundChildren_cons_iff _ _ _).mpr ⟨hjs1, hsr1⟩
        · exact (soundChildren_cons_iff _ _ _).mpr ⟨hjs2, hsr2⟩
        · exact (boundedFCList_cons_iff _ _).mpr ⟨hjb1, hbr1⟩
        · exact (boundedFCList_cons_iff _ _).mpr ⟨hjb2, hbr2⟩
        · exact treeListNoNestJoin_cons hwrn1 hwr1
        · exact treeListNoNestJoin_cons hwrn2 hwr2
      · rw [if_neg hsd, if_neg hsd]
        have hRR := ihR cfg ctx content shortname dep sd rest1 rest2
          (count + (getDictsJoined fuel cfg n1 ctx content shortname dep
            true false).dicts.length)
          hreste hsr1 hsr2 hbr1 hbr2 hwr1 hwr2 hcnj
        obtain ⟨hrd, hro, hrcl, hrs1, hrs2, hrb1, hrb2, hrw1, hrw2⟩ := hRR
        refine ⟨?_, hro, ?_, ?_, ?_, ?_, ?_, ?_, ?_⟩
        · rw [hrd]
        · simp only [clearFCList]
          rw [hjcl, hrcl]
        · exact (soundChildren_cons_iff _ _ _).mpr ⟨hjs1, hrs1⟩
        · exact (soundChildren_cons_iff _ _ _).mpr ⟨hjs2, hrs2⟩
        · exact (boundedFCList_cons_iff _ _).mpr ⟨hjb1, hrb1⟩
        · exact (boundedFCList_cons_iff _ _).mpr ⟨hjb2, hrb2⟩
        · exact treeListNoNestJoin_cons hwrn1 hrw1
        · exact treeListNoNestJoin_cons hwrn2 hrw2
    · rw [if_pos hjok, if_pos hjok]
      refine ⟨rfl, rfl, ?_, ?_, ?_, ?_, ?_, ?_, ?_⟩
      · simp only [clearFCList]
        rw [hjcl, hreste]
      · exact (soundChildren_cons_iff _ _ _).mpr ⟨hjs1, hsr1⟩
      · exact (soundChildren_cons_iff _ _ _).mpr ⟨hjs2, hsr2⟩
      · exact (boundedFCList_cons_iff _ _).mpr ⟨hjb1, hbr1⟩
      · exact (boundedFCList_cons_iff _ _).mpr ⟨hjb2, hbr2⟩
      · exact treeListNoNestJoin_cons hwrn1 hwr1
      · exact treeListNoNestJoin_cons hwrn2 hwr2

/-- One bisimulation step for `get_dicts_joined`. -/
theorem cacheEq_joined_step (fuel : ℕ) (ihP : PlainBisimAt fuel)
    (ihF : FiltersBisimAt fuel) : JoinedBisimAt (fuel + 1) := by
  intro cfg n1 n2 ctx content shortname dep sk pg hne hs1 hs2 hb1 hb2 hw1 hw2 hcnj
  obtain ⟨hv, hn, hd, hc, hchl, hl, ha, hdf⟩ := clearFC_fields hne
  simp only [getDictsJoined]
  rw [← hc]
  by_cases hj : (n1.content.filter isJoinItem).isEmpty = true
  · rw [if_pos hj, if_pos hj]
    have hnj1 : listNoJoin n1.content = true :=
      listNoJoin_of_no_top_joins _ (List.isEmpty_iff.mp hj)
        (treeNoNestJoin_parts hw1).1
    have hBR := ihP cfg n1 n2 ctx content shortname dep hne hs1 hs2 hb1 hb2 hnj1
      (treeNoNestJoin_parts hw1).2 (treeNoNestJoin_parts hw2).2 hcnj
    obtain ⟨hpd, hpo, hpcl, hps1, hps2, hpb1, hpb2, hpc1, hpc2, hpw1, hpw2⟩ := hBR
    refine ⟨?_, hpo, hpcl, hps1, hps2, hpb1, hpb2, hpc1, ?_, hpw1, hpw2⟩
    · rw [hpd]
    · rw [hpc2]
      exact hc.symm
  · rw [if_neg hj, if_neg hj]
    have honly : listNoJoin
        (joinsToOnlys (n1.content.filter isJoinItem)) = true :=
      listNoJoin_joinsToOnlys _
    have hnewnj : listNoJoin
        (n1.content.filter (fun t => ¬ isJoinItem t)) = true :=
      listNoJoin_filter_not_join _ (treeNoNestJoin_parts hw1).1
    have hne2 : clearFC (n1.withContent
          (n1.content.filter (fun t => ¬ isJoinItem t))) =
        clearFC (n2.withContent
          (n1.content.filter (fun t => ¬ isJoinItem t))) := by
      rw [clearFC_withContent, clearFC_withContent, hne]
    have hBR := ihF cfg (joinsToOnlys (n1.content.filter isJoinItem))
      (n1.withContent (n1.content.filter (fun t => ¬ isJoinItem t)))
      (n2.withContent (n1.content.filter (fun t => ¬ isJoinItem t)))
      ctx content shortname dep hne2
      ((soundNode_withContent _ _ _).mpr hs1)
      ((soundNode_withContent _ _ _).mpr hs2)
      ((boundedFC_withContent _ _).mpr hb1)
      ((boundedFC_withContent _ _).mpr hb2)
      (by rw [content_withContent]; exact hnewnj)
      (by rw [children_withContent]; exact (treeNoNestJoin_parts hw1).2)
      (by rw [children_withContent]; exact (treeNoNestJoin_parts hw2).2)
      hcnj honly
    obtain ⟨hfd, hfo, hfcl, hfs1, hfs2, hfb1, hfb2, hfw1, hfw2⟩ := hBR
    refine ⟨?_, hfo, ?_, ?_, ?_, ?_, ?_, ?_, ?_, ?_, ?_⟩
    · rw [hfd]
    · rw [clearFC_withContent, clearFC_withContent, hfcl]
    · exact (soundNode_withContent _ _ _).mpr hfs1
    · exact (soundNode_withContent _ _ _).mpr hfs2
    · exact (boundedFC_withContent _ _).mpr hfb1
    · exact (boundedFC_withContent _ _).mpr hfb2
    · exact content_withContent _ _
    · rw [content_withContent]
    · rw [children_withContent]
      exact hfw1
    · rw [children_withContent]
      exact hfw2

/-- One bisimulation step for `join_filters`. -/
theorem cacheEq_filters_step (fuel : ℕ) (ihP : PlainBisimAt fuel)
    (ihPr : ProductsBisimAt fuel) : FiltersBisimAt (fuel + 1) := by
  intro cfg onlys n1 n2 ctx content shortname dep hne hs1 hs2 hb1 hb2 hnj
    hw1 hw2 hcnj honly
  obtain ⟨hv, hn, hd, hc, hchl, hl, ha, hdf⟩ := clearFC_fields hne
  have htake : listNoJoin (n1.content ++ onlys.take 1) = true :=
    listNoJoin_append hnj (listNoJoin_take _ _ honly)
  have hne1 : clearFC (n1.withContent (n1.content ++ onlys.take 1)) =
      clearFC (n2.withContent (n1.content ++ onlys.take 1)) := by
    rw [clearFC_withContent, clearFC_withContent, hne]
  simp only [joinFilters]
  rw [← hc]
  have hBR := ihP cfg (n1.withContent (n1.content ++ onlys.take 1))
    (n2.withContent (n1.content ++ onlys.take 1)) ctx content shortname dep
    hne1 ((soundNode_withContent _ _ _).mpr hs1)
    ((soundNode_withContent _ _ _).mpr hs2)
    ((boundedFC_withContent _ _).mpr hb1)
    ((boundedFC_withContent _ _).mpr hb2)
    (by rw [content_withContent]; exact htake)
    (by rw [children_withContent]; exact hw1)
    (by rw [children_withContent]; exact hw2) hcnj
  obtain ⟨hpd, hpo, hpcl, hps1, hps2, hpb1, hpb2, hpc1, hpc2, hpw1, hpw2⟩ := hBR
  cases hdrop : onlys.drop 1 with
  | nil =>
    exact ⟨hpd, hpo, hpcl, hps1, hps2, hpb1, hpb2, hpw1, hpw2⟩
  | cons r0 rrest =>
    simp only []
    have hrem : listNoJoin (r0 :: rrest) = true := by
      rw [← hdrop]
      exact listNoJoin_drop onlys 1 honly
    rw [← hpo, ← hpd]
    have hPr := ihPr cfg (r0 :: rrest)
      ((getDictsPlain fuel cfg (n1.withContent (n1.content ++ onlys.take 1))
        ctx content shortname dep).node.withContent n1.content)
      ((getDictsPlain fuel cfg (n2.withContent (n1.content ++ onlys.take 1))
        ctx content shortname dep).node.withContent n1.content)
      ctx content shortname dep n1.content
      (getDictsPlain fuel cfg (n1.withContent (n1.content ++ onlys.take 1))
        ctx content shortname dep).dicts
      (by rw [clearFC_withContent, clearFC_withContent, hpcl])
      ((soundNode_withContent _ _ _).mpr hps1)
      ((soundNode_withContent _ _ _).mpr hps2)
      ((boundedFC_withContent _ _).mpr hpb1)
      ((boundedFC_withContent _ _).mpr hpb2)
      (by rw [children_withContent]; exact hpw1)
      (by rw [children_withContent]; exact hpw2)
      hcnj hnj hrem
    obtain ⟨hjd, hjo, hjcl, hjs1, hjs2, hjb1, hjb2, hjw1, hjw2⟩ := hPr
    by_cases hpok : (getDictsPlain fuel cfg
        (n1.withContent (n1.content ++ onlys.take 1))
        ctx content shortname dep).ok = true
    · rw [if_neg (not_not_intro hpok), if_neg (not_not_intro hpok)]
      exact ⟨hjd, hjo, hjcl, hjs1, hjs2, hjb1, hjb2, hjw1, hjw2⟩
    · rw [if_pos hpok, if_pos hpok]
      exact ⟨hjd, rfl, hjcl, hjs1, hjs2, hjb1, hjb2, hjw1, hjw2⟩

/-- One bisimulation step for the join product loop. -/
theorem cacheEq_products_step (fuel : ℕ) (ihF : FiltersBisimAt fuel)
    (ihPr : ProductsBisimAt fuel) : ProductsBisimAt (fuel + 1) := by
  intro cfg remains n1 n2 ctx content shortname dep contentOrig d1s hne hs1 hs2
    hb1 hb2 hw1 hw2 hcnj hconj hremnj
  simp only [joinProducts]
  match d1s with
  | [] => exact ⟨rfl, rfl, hne, hs1, hs2, hb1, hb2, hw1, hw2⟩
  | d1 :: d1rest =>
    simp only []
    have hBF := ihF cfg remains (n1.withContent contentOrig)
      (n2.withContent contentOrig) ctx content shortname dep
      (by rw [clearFC_withContent, clearFC_withContent, hne])
      ((soundNode_withContent _ _ _).mpr hs1)
      ((soundNode_withContent _ _ _).mpr hs2)
      ((boundedFC_withContent _ _).mpr hb1)
      ((boundedFC_withContent _ _).mpr hb2)
      (by rw [content_withContent]; exact hconj)
      (by rw [children_withContent]; exact hw1)
      (by rw [children_withContent]; exact hw2)
      hcnj hremnj
    obtain ⟨hfd, hfo, hfcl, hfs1, hfs2, hfb1, hfb2, hfw1, hfw2⟩ := hBF
    rw [← hfd, ← hfo]
    split
    · rename_i h1
      exact ⟨rfl, rfl, hfcl, hfs1, hfs2, hfb1, hfb2, hfw1, hfw2⟩
    · rename_i m1 h1
      by_cases hfok : (joinFilters fuel cfg remains (n1.withContent contentOrig)
          ctx content shortname dep).ok = true
      · rw [if_neg (not_not_intro hfok), if_neg (not_not_intro hfok)]
        have hPr := ihPr cfg remains
          (joinFilters fuel cfg remains (n1.withContent contentOrig)
            ctx content shortname dep).node
          (joinFilters fuel cfg remains (n2.withContent contentOrig)
            ctx content shortname dep).node
          ctx content shortname dep contentOrig d1rest
          hfcl hfs1 hfs2 hfb1 hfb2 hfw1 hfw2 hcnj hconj hremnj
        obtain ⟨hrd, hro, hrcl, hrs1, hrs2, hrb1, hrb2, hrw1, hrw2⟩ := hPr
        refine ⟨?_, hro, hrcl, hrs1, hrs2, hrb1, hrb2, hrw1, hrw2⟩
        rw [hrd]
      · rw [if_pos hfok, if_pos hfok]
        exact ⟨rfl, rfl, hfcl, hfs1, hfs2, hfb1, hfb2, hfw1, hfw2⟩
/-- A cleared tree is a fixed point of `clearFC`, has sound and bounded
(empty) deques everywhere, and the clearing does not disturb the nested-join
well-formedness of the contents. -/
theorem clearFC_facts : ∀ k : ℕ,
    (∀ n : MNode, mnodeSize n ≤ k →
      clearFC (clearFC n) = clearFC n ∧ (∀ ctx, soundNode (clearFC n) ctx) ∧
      boundedFC (clearFC n) ∧ treeNoNestJoin (clearFC n) = treeNoNestJoin n) ∧
    (∀ ch : List MNode, mlistSize ch ≤ k →
      clearFCList (clearFCList ch) = clearFCList ch ∧
      (∀ ctx, soundChildren (clearFCList ch) ctx) ∧
      boundedFCList (clearFCList ch) ∧
      treeListNoNestJoin (clearFCList ch) = treeListNoNestJoin ch) := by
  intro k
  induction k using Nat.strong_induction_on with
  | _ k IH =>
    constructor
    · intro n hk
      match n with
      | .mk v nm d c ch l a df fcs =>
        have hsz : mnodeSize (MNode.mk v nm d c ch l a df fcs) =
            1 + mlistSize ch := rfl
        have hch := (IH (mlistSize ch) (by omega)).2 ch le_rfl
        refine ⟨?_, ?_, ?_, ?_⟩
        · show MNode.mk v nm d c (clearFCList (clearFCList ch)) l a df [] =
            MNode.mk v nm d c (clearFCList ch) l a df []
          rw [hch.1]
        · intro ctx
          exact ⟨by intro fc hfc; exact absurd hfc (by simp), hch.2.1 _⟩
        · exact ⟨by simp [numFailedCases], hch.2.2.1⟩
        · show (c.all itemNoNestJoin && treeListNoNestJoin (clearFCList ch)) =
            (c.all itemNoNestJoin && treeListNoNestJoin ch)
          rw [hch.2.2.2]
    · intro ch hk
      match ch with
      | [] => exact ⟨rfl, fun ctx => trivial, trivial, rfl⟩
      | n :: rest =>
        have hsz : mlistSize (n :: rest) = mnodeSize n + mlistSize rest := rfl
        have h1 : 1 ≤ mnodeSize n := mnodeSize_pos n
        have h2 : 1 ≤ mlistSize rest := mlistSize_pos rest
        have hn := (IH (mnodeSize n) (by omega)).1 n le_rfl
        have hr := (IH (mlistSize rest) (by omega)).2 rest le_rfl
        refine ⟨?_, ?_, ?_, ?_⟩
        · show clearFC (clearFC n) :: clearFCList (clearFCList rest) =
            clearFC n :: clearFCList rest
          rw [hn.1, hr.1]
        · intro ctx
          exact ⟨hn.2.1 ctx, hr.2.1 ctx⟩
        · exact ⟨hn.2.2.1, hr.2.2.1⟩
        · show (treeNoNestJoin (clearFC n) &&
            treeListNoNestJoin (clearFCList rest)) =
            (treeNoNestJoin n && treeListNoNestJoin rest)
          rw [hn.2.2.2, hr.2.2.2]

/-- The full cache-transparency bisimulation, by induction on fuel. -/
theorem enum_cacheEq (fuel : ℕ) : PlainBisimAt fuel ∧ ChildrenBisimAt fuel ∧
    JoinedBisimAt fuel ∧ FiltersBisimAt fuel ∧ ProductsBisimAt fuel := by
  induction fuel with
  | zero =>
    refine ⟨?_, ?_, ?_, ?_, ?_⟩
    · intro cfg n1 n2 ctx content shortname dep h hs1 hs2 hb1 hb2 _ hw1 hw2 _
      exact ⟨rfl, rfl, h, hs1, hs2, hb1, hb2, rfl, rfl, hw1, hw2⟩
    · intro cfg ctx content shortname dep sd ch1 ch2 count hch hsc1 hsc2 hbc1
        hbc2 hw1 hw2 _
      exact ⟨rfl, rfl, hch, hsc1, hsc2, hbc1, hbc2, hw1, hw2⟩
    · intro cfg n1 n2 ctx content shortname dep sk pg h hs1 hs2 hb1 hb2 hw1 hw2 _
      exact ⟨rfl, rfl, h, hs1, hs2, hb1, hb2, rfl, rfl,
        (treeNoNestJoin_parts hw1).2, (treeNoNestJoin_parts hw2).2⟩
    · intro cfg onlys n1 n2 ctx content shortname dep h hs1 hs2 hb1 hb2 _ hw1
        hw2 _ _
      exact ⟨rfl, rfl, h, hs1, hs2, hb1, hb2, hw1, hw2⟩
    · intro cfg remains n1 n2 ctx content shortname dep contentOrig d1s h hs1
        hs2 hb1 hb2 hw1 hw2 _ _ _
      exact ⟨rfl, rfl, h, hs1, hs2, hb1, hb2, hw1, hw2⟩
  | succ fuel ih =>
    obtain ⟨ihP, ihR, ihJ, ihF, ihPr⟩ := ih
    exact ⟨cacheEq_plain_step fuel ihR, cacheEq_children_step fuel ihJ ihR,
      cacheEq_joined_step fuel ihP ihF, cacheEq_filters_step fuel ihP ihPr,
      cacheEq_products_step fuel ihF ihPr⟩

/-- **C9** (confirmed for the invariant states of the enumerator).  Failure
memoisation is a transparent cache: enumerating a tree whose failure deques
are sound and bounded (as every parser-built tree — deques empty — and every
tree produced by enumeration is) and whose conditional blocks contain no
nested `join`, and enumerating the same tree with every deque emptied
beforehand, emit exactly the same sequence of dictionaries with the same
generator outcome; and every deque of the resulting tree still holds at most
five entries (`num_failed_cases`). -/
theorem c9 (fuel : ℕ) (cfg : PCfg) (tree : MNode) (sk pg : Bool)
    (hs : soundNode tree []) (hb : boundedFC tree)
    (hwf : treeNoNestJoin tree = true) :
    (getDicts fuel cfg ⟨tree, pg⟩ sk).1.dicts =
      (getDicts fuel cfg ⟨clearFC tree, pg⟩ sk).1.dicts ∧
    (getDicts fuel cfg ⟨tree, pg⟩ sk).1.ok =
      (getDicts fuel cfg ⟨clearFC tree, pg⟩ sk).1.ok ∧
    boundedFC (getDicts fuel cfg ⟨tree, pg⟩ sk).1.node := by
  have hcf := (clearFC_facts (mnodeSize tree)).1 tree le_rfl
  have hBR := (enum_cacheEq fuel).2.2.1 cfg tree (clearFC tree) [] [] [] []
    sk pg hcf.1.symm hs (hcf.2.1 []) hb hcf.2.2.1 hwf
    (by rw [hcf.2.2.2]; exact hwf) rfl
  obtain ⟨hd, ho, hcl, hsnd1, hsnd2, hbd1, hbd2, -, -, -, -⟩ := hBR
  exact ⟨hd, ho, hbd1⟩

/-- Witness for C9 on the two-operation worked tree. -/
theorem c9_witness :
    (getDicts 20 cfgDefault ⟨clearFC exC1Tree, true⟩ true).1.dicts =
      (getDicts 20 cfgDefault ⟨clearFC (clearFC exC1Tree), true⟩ true).1.dicts ∧
    (getDicts 20 cfgDefault ⟨clearFC exC1Tree, true⟩ true).1.ok =
      (getDicts 20 cfgDefault ⟨clearFC (clearFC exC1Tree), true⟩ true).1.ok ∧
    boundedFC (getDicts 20 cfgDefault ⟨clearFC exC1Tree, true⟩ true).1.node :=
  c9 20 cfgDefault (clearFC exC1Tree) true true
    (((clearFC_facts (mnodeSize exC1Tree)).1 exC1Tree le_rfl).2.1 [])
    (((clearFC_facts (mnodeSize exC1Tree)).1 exC1Tree le_rfl).2.2.1)
    (by decide)

/-- **C8** (counterexample).  With default-variant mode enabled
(`defaults=True`), enumeration stops after the default child `a` once a
dictionary has been produced, so the configuration alone yields exactly the
variant `a`; adding the root-level line `only b` makes the default child
produce nothing, the stop condition fails, and the sibling `b` is emitted —
a dictionary that the unfiltered enumeration never produced.  The filtered
sequence is not a subsequence of the unfiltered one. -/
theorem c8_counterexample :
    (getDicts 10 cfgDefaultsOn ⟨exC8Root1, true⟩ true).1.ok = true ∧
    (getDicts 10 cfgDefaultsOn ⟨exC8Root2, true⟩ true).1.ok = true ∧
    ¬ List.Sublist (getDicts 10 cfgDefaultsOn ⟨exC8Root2, true⟩ true).1.dicts
      (getDicts 10 cfgDefaultsOn ⟨exC8Root1, true⟩ true).1.dicts := by
  refine ⟨by decide, by decide, by decide⟩

/-! ### C10: regex operators and suffix-renamed keys -/

theorem foldlM_option_some {α β : Type} (g : β → α → β) :
    ∀ (l : List α) (init : β),
    l.foldlM (fun acc e => some (g acc e)) init = some (l.foldl g init) := by
  intro l
  induction l with
  | nil => intro init; rfl
  | cons a rest ih => intro init; simpa using ih (g init a)

theorem erase_fold_filter (cond : Key → Bool) :
    ∀ (d : Dict) (acc : Dict),
    d.foldl (fun acc e => if cond e.1 then dictErase acc e.1 else acc) acc =
      acc.filter (fun a => ¬ (cond a.1 ∧ d.any (fun e => e.1 = a.1))) := by
  intro d
  induction d with
  | nil => intro acc; simp
  | cons e rest ih =>
    intro acc
    simp only [List.foldl_cons]
    by_cases hc : cond e.1 = true
    · rw [if_pos hc, ih]
      simp only [dictErase, List.filter_filter]
      apply List.filter_congr
      intro a _
      by_cases hk : a.1 = e.1
      · have hcond : cond a.1 = true := hk ▸ hc
        have hdec : decide (e.1 = a.1) = true := by simp [hk.symm]
        simp [hcond, hdec, hk, hc]
      · have hdec : decide (e.1 = a.1) = false := by
          simp only [decide_eq_false_iff_not]
          exact fun h => hk h.symm
        have hnd : decide (¬ a.1 = e.1) = true := by simp [hk]
        simp only [List.any_cons, hdec, hnd, Bool.false_or, Bool.and_true]
    · rw [if_neg hc, ih]
      apply List.filter_congr
      intro a _
      by_cases hk : a.1 = e.1
      · have hcond : cond a.1 = false := by
          rw [hk]
          exact Bool.not_eq_true _ ▸ (by simpa using hc)
        simp [hcond]
      · have hdec : decide (e.1 = a.1) = false := by
          simp only [decide_eq_false_iff_not]
          exact fun h => hk h.symm
        simp [List.any_cons, hdec]

theorem set_fold_map (cond : Key → Bool) (v : Value) :
    ∀ (d : Dict) (acc : Dict), (∀ e ∈ d, dictMem acc e.1 = true) →
    d.foldl (fun acc e => if cond e.1 then dictSet acc e.1 v else acc) acc =
      acc.map (fun a => if cond a.1 ∧ d.any (fun e => e.1 = a.1) then (a.1, v) else a) := by
  intro d
  induction d with
  | nil =>
    intro acc _
    simp only [List.foldl_nil, List.any_nil]
    calc acc = acc.map id := by simp
      _ = _ := List.map_congr_left (by intro a _; simp)
  | cons e rest ih =>
    intro acc hmem
    simp only [List.foldl_cons]
    by_cases hc : cond e.1 = true
    · rw [if_pos hc]
      have hmm : dictMem acc e.1 = true := hmem e (by simp)
      have hset : dictSet acc e.1 v = acc.map (fun x => if x.1 = e.1 then (e.1, v) else x) := by
        simp only [dictSet, dictMem] at hmm ⊢
        rw [if_pos hmm]
      rw [hset, ih]
      · rw [List.map_map]
        apply List.map_congr_left
        intro a _
        by_cases hk : a.1 = e.1
        · have hcond : cond a.1 = true := hk ▸ hc
          have hdec : decide (e.1 = a.1) = true := by simp [hk.symm]
          simp [Function.comp, hk, hcond, hdec, hc]
        · have hdec : decide (e.1 = a.1) = false := by
            simp only [decide_eq_false_iff_not]
            exact fun h => hk h.symm
          simp only [Function.comp, if_neg hk]
          simp only [List.any_cons, hdec, Bool.false_or]
      · intro x hx
        have hb := hmem x (by simp [hx])
        simp only [dictMem, List.any_map, List.any_eq_true] at hb ⊢
        rcases hb with ⟨y, hy, hyx⟩
        refine ⟨y, hy, ?_⟩
        simp only [Function.comp]
        by_cases hye : y.1 = e.1
        · simp only [if_pos hye]
          simp only [decide_eq_true_eq] at hyx ⊢
          rw [← hyx, hye]
        · simp only [if_neg hye]
          exact hyx
    · rw [if_neg hc, ih acc (fun x hx => hmem x (List.mem_cons_of_mem _ hx))]
      apply List.map_congr_left
      intro a _
      by_cases hk : a.1 = e.1
      · have hcond : cond a.1 = false := by
          rw [hk]
          simpa using hc
        simp [hcond]
      · have hdec : decide (e.1 = a.1) = false := by
          simp only [decide_eq_false_iff_not]
          exact fun h => hk h.symm
        simp only [List.any_cons, hdec, Bool.false_or]

theorem foldlM_option_congr {α β : Type} (f g : β → α → Option β) (l : List α)
    (h : ∀ acc e, f acc e = g acc e) : ∀ (init : β), l.foldlM f init = l.foldlM g init := by
  induction l with
  | nil => intro init; rfl
  | cons a rest ih =>
    intro init
    show (f init a).bind _ = (g init a).bind _
    rw [h init a]
    cases g init a with
    | none => rfl
    | some b => simpa using ih b

/-- The update fold of `?+=`/`?<=` (`tokens.py` lines 309–332): iterating a
dictionary with pairwise-distinct keys whose affected entries hold strings,
reading each affected entry and writing it back in place rewrites exactly
the affected entries.  Generalized over a processed prefix `pre` whose keys
are disjoint from the remaining entries. -/
theorem regex_update_fold (cond : Key → Bool) (newVal : String → Value) :
    ∀ (l pre : Dict),
    (∀ x ∈ pre, ∀ y ∈ l, x.1 ≠ y.1) →
    (l.map (fun e => e.1)).Nodup →
    (∀ e ∈ l, cond e.1 = true → ∃ s, e.2 = Value.str s) →
    l.foldlM (fun acc e =>
      if cond e.1 then
        match dictLookup acc e.1 with
        | some (.str s) => some (dictSet acc e.1 (newVal s))
        | _ => none
      else some acc) (pre ++ l) =
    some (pre ++ l.map (fun a =>
      if cond a.1 then
        (a.1, match a.2 with
              | Value.str s => newVal s
              | w => w)
      else a)) := by
  intro l
  induction l with
  | nil =>
    intro pre _ _ _
    simp
  | cons e rest ih =>
    intro pre hdisj hnd hstr
    rw [List.map_cons, List.nodup_cons] at hnd
    have hne : ∀ y ∈ rest, y.1 ≠ e.1 := by
      intro y hy h
      exact hnd.1 (List.mem_map.mpr ⟨y, hy, h⟩)
    rw [List.foldlM_cons]
    by_cases hc : cond e.1 = true
    · obtain ⟨s, hs⟩ := hstr e (List.mem_cons_self e rest) hc
      have hlook : dictLookup (pre ++ e :: rest) e.1 = some e.2 := by
        simp only [dictLookup]
        rw [List.find?_append]
        have hpre : pre.find? (fun x => x.1 = e.1) = none := by
          rw [List.find?_eq_none]
          intro x hx
          simp only [decide_eq_true_eq]
          exact hdisj x hx e (List.mem_cons_self e rest)
        rw [hpre, List.find?_cons_of_pos _ (by simp)]
        rfl
      have hset : dictSet (pre ++ e :: rest) e.1 (newVal s) =
          pre ++ (e.1, newVal s) :: rest := by
        simp only [dictSet]
        rw [if_pos (by
          refine List.any_eq_true.mpr ⟨e, ?_, by simp⟩
          exact List.mem_append_right _ (List.mem_cons_self e rest))]
        rw [List.map_append, List.map_cons]
        have hpremap : pre.map (fun x => if x.1 = e.1 then (e.1, newVal s) else x) =
            pre := by
          have h2 : pre.map (fun x => if x.1 = e.1 then (e.1, newVal s) else x) =
              pre.map id := by
            apply List.map_congr_left
            intro x hx
            rw [if_neg (hdisj x hx e (List.mem_cons_self e rest))]
            rfl
          rw [h2, List.map_id]
        have hrestmap : rest.map (fun x => if x.1 = e.1 then (e.1, newVal s) else x) =
            rest := by
          have h2 : rest.map (fun x => if x.1 = e.1 then (e.1, newVal s) else x) =
              rest.map id := by
            apply List.map_congr_left
            intro x hx
            rw [if_neg (hne x hx)]
            rfl
          rw [h2, List.map_id]
        rw [hpremap, hrestmap, if_pos rfl]
      rw [if_pos hc, hlook, hs]
      show List.foldlM _ (dictSet (pre ++ e :: rest) e.1 (newVal s)) rest = _
      rw [hset]
      rw [show pre ++ (e.1, newVal s) :: rest =
        (pre ++ [(e.1, newVal s)]) ++ rest by simp]
      rw [ih (pre ++ [(e.1, newVal s)])
        (by
          intro x hx y hy
          rcases List.mem_append.mp hx with hx2 | hx2
          · exact hdisj x hx2 y (List.mem_cons_of_mem _ hy)
          · rw [List.mem_singleton] at hx2
            subst hx2
            exact fun h => hne y hy h.symm)
        hnd.2
        (fun a ha hca => hstr a (List.mem_cons_of_mem _ ha) hca)]
      simp [hc, hs]
    · rw [if_neg hc]
      show List.foldlM _ (pre ++ e :: rest) rest = _
      rw [show pre ++ e :: rest = (pre ++ [e]) ++ rest by simp]
      rw [ih (pre ++ [e])
        (by
          intro x hx y hy
          rcases List.mem_append.mp hx with hx2 | hx2
          · exact hdisj x hx2 y (List.mem_cons_of_mem _ hy)
          · rw [List.mem_singleton] at hx2
            subst hx2
            exact fun h => hne y hy h.symm)
        hnd.2
        (fun a ha hca => hstr a (List.mem_cons_of_mem _ ha) hca)]
      simp [hc]

/-- `regex_update_fold` started from the whole dictionary. -/
theorem regex_update_fold_top (cond : Key → Bool) (newVal : String → Value)
    (l : Dict) (hnd : (l.map (fun e => e.1)).Nodup)
    (hstr : ∀ e ∈ l, cond e.1 = true → ∃ s, e.2 = Value.str s) :
    l.foldlM (fun acc e =>
      if cond e.1 then
        match dictLookup acc e.1 with
        | some (.str s) => some (dictSet acc e.1 (newVal s))
        | _ => none
      else some acc) l =
    some (l.map (fun a =>
      if cond a.1 then
        (a.1, match a.2 with
              | Value.str s => newVal s
              | w => w)
      else a)) := by
  have h := regex_update_fold cond newVal l [] (by simp) hnd hstr
  simpa using h

/-- **C10** (confirmed, for the modelled metacharacter-free regex
fragment).  For `del`, `?=`, `?+=` and `?<=` with a pattern `k` free of
regex metacharacters, a key is affected exactly when it is not reserved and
its suffix concatenation — `base ++ s1 ++ … ++ sN` for a tuple key, the key
itself for a plain one — equals `k`: `del` keeps exactly the other entries,
`?=` rewrites exactly the affected entries in place, and `?+=`/`?<=` append
or prepend the substituted value to exactly the affected entries (for a
dictionary with pairwise-distinct keys whose affected entries hold strings,
as every dictionary the enumerator builds does; on a non-string the Python
`+=`/concatenation raises).  In particular the anchored `^k$` match applies
to the concatenation with no separator, so regex assignment, extension and
deletion reach keys previously renamed by suffix tags. -/
theorem c10_regex_keys (d : Dict) (k value : String)
    (hk : (k.toList.all regexPlainChar ∧ ¬ k.toList.any (fun c => c = '.')) = true) :
    (∀ b sufs, keyStr (.tup b sufs) = b ++ String.join sufs) ∧
    applyOp (.del k) d =
      some (d.filter (fun a => ¬ ((!(keyReserved a.1) && (keyStr a.1 == k)) = true))) ∧
    applyOp (.regexSet k value) d =
      some (d.map (fun a =>
        if (!(keyReserved a.1) && (keyStr a.1 == k)) = true then
          (a.1, .str (pySubstitution value d)) else a)) ∧
    (keysUnique d →
      (∀ a ∈ d, (!(keyReserved a.1) && (keyStr a.1 == k)) = true →
        ∃ s, a.2 = Value.str s) →
      applyOp (.regexAppend k value) d =
        some (d.map (fun a =>
          if (!(keyReserved a.1) && (keyStr a.1 == k)) = true then
            (a.1, match a.2 with
                  | Value.str s => Value.str (s ++ pySubstitution value d)
                  | w => w)
          else a)) ∧
      applyOp (.regexPrepend k value) d =
        some (d.map (fun a =>
          if (!(keyReserved a.1) && (keyStr a.1 == k)) = true then
            (a.1, match a.2 with
                  | Value.str s => Value.str (pySubstitution value d ++ s)
                  | w => w)
          else a))) := by
  have hre : ∀ s, pyRegexFullMatch k s = some (decide (k = s)) := by
    intro s
    simp only [pyRegexFullMatch]
    rw [if_pos (by simpa using hk)]
  have hcnd : ∀ (x : Key), (!(keyReserved x) && decide (k = keyStr x)) =
      (!(keyReserved x) && (keyStr x == k)) := by
    intro x
    by_cases h2 : keyStr x = k
    · simp [h2]
    · have h3 : ¬ k = keyStr x := fun h => h2 h.symm
      simp [h2, h3]
  refine ⟨fun b sufs => rfl, ?_, ?_, ?_⟩
  · simp only [applyOp]
    rw [foldlM_option_congr _
      (fun acc e => some (if (!(keyReserved e.1) && (keyStr e.1 == k)) = true then
        dictErase acc e.1 else acc)) d
      (by
        intro acc e
        rw [hre]
        simp only [Option.map_some']
        rw [hcnd e.1]) d]
    rw [foldlM_option_some]
    rw [erase_fold_filter (fun x => !(keyReserved x) && (keyStr x == k)) d d]
    congr 1
    apply List.filter_congr
    intro a ha
    have hany : d.any (fun e => e.1 = a.1) = true :=
      List.any_eq_true.mpr ⟨a, ha, by simp⟩
    simp [hany]
  · simp only [applyOp]
    rw [foldlM_option_congr _
      (fun acc e => some (if (!(keyReserved e.1) && (keyStr e.1 == k)) = true then
        dictSet acc e.1 (.str (pySubstitution value d)) else acc)) d
      (by
        intro acc e
        rw [hre]
        simp only [Option.map_some']
        rw [hcnd e.1]) d]
    rw [foldlM_option_some]
    rw [set_fold_map (fun x => !(keyReserved x) && (keyStr x == k))
      (.str (pySubstitution value d)) d d (by
      intro e he
      exact List.any_eq_true.mpr ⟨e, he, by simp⟩)]
    congr 1
    apply List.map_congr_left
    intro a ha
    have hany : d.any (fun e => e.1 = a.1) = true :=
      List.any_eq_true.mpr ⟨a, ha, by simp⟩
    simp [hany]
  · intro hu hstrs
    constructor
    · simp only [applyOp]
      rw [foldlM_option_congr _
        (fun acc e =>
          if (!(keyReserved e.1) && (keyStr e.1 == k)) = true then
            match dictLookup acc e.1 with
            | some (.str s) => some (dictSet acc e.1
                (Value.str (s ++ pySubstitution value d)))
            | _ => none
          else some acc) d
        (by
          intro acc e
          rw [hre]
          rw [Option.some_bind]
          rw [hcnd e.1]) d]
      exact regex_update_fold_top
        (fun x => !(keyReserved x) && (keyStr x == k))
        (fun s => Value.str (s ++ pySubstitution value d)) d hu hstrs
    · simp only [applyOp]
      rw [foldlM_option_congr _
        (fun acc e =>
          if (!(keyReserved e.1) && (keyStr e.1 == k)) = true then
            match dictLookup acc e.1 with
            | some (.str s) => some (dictSet acc e.1
                (Value.str (pySubstitution value d ++ s)))
            | _ => none
          else some acc) d
        (by
          intro acc e
          rw [hre]
          rw [Option.some_bind]
          rw [hcnd e.1]) d]
      exact regex_update_fold_top
        (fun x => !(keyReserved x) && (keyStr x == k))
        (fun s => Value.str (pySubstitution value d ++ s)) d hu hstrs

/-- C10: witness at a two-entry dictionary with a suffix-renamed tuple key
and the metacharacter-free pattern `foo_x`; the key-uniqueness and
string-value provisos of the `?+=`/`?<=` parts hold there. -/
theorem c10_regex_keys_witness :
    (("foo_x".toList.all regexPlainChar ∧
      ¬ "foo_x".toList.any (fun c => c = '.')) = true) ∧
    keysUnique [(.plain "name", .str "n"), (.tup "foo" ["_x"], .str "1")] ∧
    (∀ a ∈ ([(.plain "name", .str "n"), (.tup "foo" ["_x"], .str "1")] : Dict),
      (!(keyReserved a.1) && (keyStr a.1 == "foo_x")) = true →
      ∃ s, a.2 = Value.str s) ∧
    ((∀ b sufs, keyStr (.tup b sufs) = b ++ String.join sufs) ∧
     applyOp (.del "foo_x")
         [(.plain "name", .str "n"), (.tup "foo" ["_x"], .str "1")] =
       some (([(.plain "name", .str "n"), (.tup "foo" ["_x"], .str "1")] : Dict).filter
         (fun a => ¬ ((!(keyReserved a.1) && (keyStr a.1 == "foo_x")) = true))) ∧
     applyOp (.regexSet "foo_x" "v")
         [(.plain "name", .str "n"), (.tup "foo" ["_x"], .str "1")] =
       some (([(.plain "name", .str "n"), (.tup "foo" ["_x"], .str "1")] : Dict).map
         (fun a => if (!(keyReserved a.1) && (keyStr a.1 == "foo_x")) = true then
           (a.1, .str (pySubstitution "v"
             [(.plain "name", .str "n"), (.tup "foo" ["_x"], .str "1")])) else a)) ∧
     (keysUnique [(.plain "name", .str "n"), (.tup "foo" ["_x"], .str "1")] →
       (∀ a ∈ ([(.plain "name", .str "n"), (.tup "foo" ["_x"], .str "1")] : Dict),
         (!(keyReserved a.1) && (keyStr a.1 == "foo_x")) = true →
         ∃ s, a.2 = Value.str s) →
       applyOp (.regexAppend "foo_x" "v")
           [(.plain "name", .str "n"), (.tup "foo" ["_x"], .str "1")] =
         some (([(.plain "name", .str "n"), (.tup "foo" ["_x"], .str "1")] : Dict).map
           (fun a =>
             if (!(keyReserved a.1) && (keyStr a.1 == "foo_x")) = true then
               (a.1, match a.2 with
                     | Value.str s => Value.str (s ++ pySubstitution "v"
                         [(.plain "name", .str "n"), (.tup "foo" ["_x"], .str "1")])
                     | w => w)
             else a)) ∧
       applyOp (.regexPrepend "foo_x" "v")
           [(.plain "name", .str "n"), (.tup "foo" ["_x"], .str "1")] =
         some (([(.plain "name", .str "n"), (.tup "foo" ["_x"], .str "1")] : Dict).map
           (fun a =>
             if (!(keyReserved a.1) && (keyStr a.1 == "foo_x")) = true then
               (a.1, match a.2 with
                     | Value.str s => Value.str (pySubstitution "v"
                         [(.plain "name", .str "n"), (.tup "foo" ["_x"], .str "1")] ++ s)
                     | w => w)
             else a)))) :=
  ⟨by decide,
   by unfold keysUnique; decide,
   by
     intro a ha hc
     rcases List.mem_cons.mp ha with rfl | ha2
     · exact ⟨"n", rfl⟩
     · rcases List.mem_cons.mp ha2 with rfl | ha3
       · exact ⟨"1", rfl⟩
       · exact absurd ha3 (by simp),
   c10_regex_keys [(.plain "name", .str "n"), (.tup "foo" ["_x"], .str "1")]
     "foo_x" "v" (by decide)⟩

end Cartconf

namespace Cartconf

theorem skelList_length (ch : List MNode) : (skelList ch).length = ch.length := by
  induction ch with
  | nil => rfl
  | cons n rest ih => simp only [skelList, List.length_cons, ih]

theorem skel_fields {n1 n2 : MNode} (h : skel n1 = skel n2) :
    n1.varName = n2.varName ∧ n1.name = n2.name ∧ n1.dep = n2.dep ∧
    skelList n1.children = skelList n2.children ∧ n1.labels = n2.labels ∧
    n1.appendToShortname = n2.appendToShortname ∧ n1.isDefault = n2.isDefault := by
  cases n1
  cases n2
  simp only [skel] at h
  injection h with h1 h2 h3 h4 h5 h6 h7 h8 h9
  exact ⟨h1, h2, h3, h5, h6, h7, h8⟩

theorem skel_withContent (n : MNode) (c : List CItem) :
    skel (n.withContent c) = skel n := by cases n; rfl

theorem skel_withFailedCases (n : MNode) (f : List FailedCase) :
    skel (n.withFailedCases f) = skel n := by cases n; rfl

theorem skel_withChildren_eq (n : MNode) (ch : List MNode)
    (h : skelList ch = skelList n.children) : skel (n.withChildren ch) = skel n := by
  cases n with
  | mk v nm d c ch0 l a df fcs =>
    show MNode.mk v nm d [] (skelList ch) l a df [] =
      MNode.mk v nm d [] (skelList ch0) l a df []
    rw [show skelList ch0 = skelList (MNode.mk v nm d c ch0 l a df fcs).children
      from rfl, ← h]

theorem ExtL_sublist : ∀ {l1 l2 : List CItem}, ExtL l1 l2 → List.Sublist l1 l2 := by
  intro l1 l2 h
  induction h with
  | nil => exact List.Sublist.refl []
  | keep t _ ih => exact List.Sublist.cons₂ t ih
  | ins o _ _ ih => exact List.Sublist.cons o ih

theorem ExtL_append_both : ∀ {a1 a2 b1 b2 : List CItem},
    ExtL a1 a2 → ExtL b1 b2 → ExtL (a1 ++ b1) (a2 ++ b2) := by
  intro a1 a2 b1 b2 ha hb
  induction ha with
  | nil => simpa using hb
  | keep t _ ih => exact ExtL.keep t ih
  | ins o hp _ ih => exact ExtL.ins o hp ih

theorem ExtL_refl : ∀ (l : List CItem), ExtL l l := by
  intro l
  induction l with
  | nil => exact ExtL.nil
  | cons t rest ih => exact ExtL.keep t ih

theorem isPureOnly_not_join {o : CItem} (h : isPureOnly o = true) :
    isJoinItem o = false := by
  match o with
  | .mk fn ln obj =>
    match obj with
    | .fOnly f l => rfl
    | .op x => exact Bool.noConfusion h
    | .fNo f l => exact Bool.noConfusion h
    | .fJoin f l => exact Bool.noConfusion h
    | .cond f l i => exact Bool.noConfusion h
    | .ncond f l i => exact Bool.noConfusion h

theorem ExtL_filter_join : ∀ {l1 l2 : List CItem}, ExtL l1 l2 →
    l2.filter isJoinItem = l1.filter isJoinItem := by
  intro l1 l2 h
  induction h with
  | nil => rfl
  | keep t _ ih => simp only [List.filter_cons, ih]
  | ins o hp _ ih =>
    simp only [List.filter_cons, isPureOnly_not_join hp]
    exact ih

theorem ExtL_filter_not_join : ∀ {l1 l2 : List CItem}, ExtL l1 l2 →
    ExtL (l1.filter (fun t => ¬ isJoinItem t))
      (l2.filter (fun t => ¬ isJoinItem t)) := by
  intro l1 l2 h
  induction h with
  | nil => exact ExtL.nil
  | keep t _ ih =>
    simp only [List.filter_cons]
    by_cases hj : isJoinItem t = true
    · rw [if_neg (by simp [hj]), if_neg (by simp [hj])]
      exact ih
    · rw [if_pos (show (decide ¬isJoinItem t = true) = true by
        simp [Bool.eq_false_iff.mpr hj]),
        if_pos (show (decide ¬isJoinItem t = true) = true by
        simp [Bool.eq_false_iff.mpr hj])]
      exact ExtL.keep t ih
  | ins o hp _ ih =>
    simp only [List.filter_cons]
    rw [if_pos (by simp [isPureOnly_not_join hp])]
    exact ExtL.ins o hp ih

theorem ExtL_eq_or_mem : ∀ {l1 l2 : List CItem}, ExtL l1 l2 →
    l1 = l2 ∨ ∃ o ∈ l2, isPureOnly o = true := by
  intro l1 l2 h
  induction h with
  | nil => exact Or.inl rfl
  | keep t _ ih =>
    rcases ih with rfl | ⟨o, ho, hp⟩
    · exact Or.inl rfl
    · exact Or.inr ⟨o, List.mem_cons_of_mem t ho, hp⟩
  | ins o hp _ _ => exact Or.inr ⟨o, List.mem_cons_self o _, hp⟩

theorem ExtL_mem_append {c1 c2 b1 b2 : List CItem} {t : CItem}
    (hc : ExtL c1 c2) (hb : ExtL b1 b2) (ht : t ∈ c1 ++ b1) : t ∈ c2 ++ b2 :=
  (ExtL_sublist (ExtL_append_both hc hb)).mem ht

/-- Enumeration never changes the skeleton of the tree it walks: only
contents (restored by the callers) and failure deques are mutated. -/
theorem enum_skel : ∀ (fuel : ℕ),
    (∀ cfg n ctx content shortname dep,
      skel (getDictsPlain fuel cfg n ctx content shortname dep).node = skel n) ∧
    (∀ cfg ctx content shortname dep sd ch count,
      skelList (runChildren fuel cfg ctx content shortname dep sd ch count).2.1 =
        skelList ch) ∧
    (∀ cfg n ctx content shortname dep sk pg,
      skel (getDictsJoined fuel cfg n ctx content shortname dep sk pg).node =
        skel n) ∧
    (∀ cfg onlys n ctx content shortname dep,
      skel (joinFilters fuel cfg onlys n ctx content shortname dep).node =
        skel n) ∧
    (∀ cfg remains n ctx content shortname dep co d1s,
      skel (joinProducts fuel cfg remains n ctx content shortname dep
        co d1s).node = skel n) := by
  intro fuel
  induction fuel with
  | zero => refine ⟨?_, ?_, ?_, ?_, ?_⟩ <;> intros <;> rfl
  | succ fuel ih =>
    obtain ⟨ihP, ihR, ihJ, ihF, ihPr⟩ := ih
    refine ⟨?_, ?_, ?_, ?_, ?_⟩
    · intro cfg n ctx content shortname dep
      simp only [getDictsPlain]
      repeat' split
      all_goals first
        | rfl
        | exact skel_withFailedCases _ _
        | exact skel_withChildren_eq _ _ (by rw [ihR])
    · intro cfg ctx content shortname dep sd ch count
      simp only [runChildren]
      match ch with
      | [] => rfl
      | nH :: rest =>
        simp only []
        repeat' split
        all_goals simp only [skelList]
        · rw [ihJ]
        · rw [ihJ]
        · rw [ihJ, ihR]
    · intro cfg n ctx content shortname dep sk pg
      simp only [getDictsJoined]
      split
      · exact ihP _ _ _ _ _ _
      · show skel ((joinFilters fuel cfg _ _ ctx content shortname
          dep).node.withContent n.content) = skel n
        rw [skel_withContent, ihF, skel_withContent]
    · intro cfg onlys n ctx content shortname dep
      simp only [joinFilters]
      split
      · rw [ihP, skel_withContent]
      · split
        · rw [ihPr, skel_withContent, ihP, skel_withContent]
        · rw [ihPr, skel_withContent, ihP, skel_withContent]
    · intro cfg remains n ctx content shortname dep co d1s
      simp only [joinProducts]
      match d1s with
      | [] => rfl
      | d1 :: d1rest =>
        simp only []
        split
        · rw [ihF, skel_withContent]
        · split
          · rw [ihF, skel_withContent]
          · rw [ihPr, ihF, skel_withContent]

/-- A `process_content` run that answers `False` saw some triple of its
input fail. -/
theorem processContentF_false_mem (ctx ctxSet labels : List MLabel) :
    ∀ (fuel : ℕ) (items : List CItem)
    (r : Bool × List CItem × List CItem × List CItem),
    processContentF ctx ctxSet labels fuel items = some r → r.1 = false →
    ∃ t ∈ items, itemFails t ctx ctxSet labels = true := by
  intro fuel
  induction fuel with
  | zero => intro items r h; exact absurd h (by simp [processContentF])
  | succ fuel ih =>
    intro items r h hfalse
    match items with
    | [] =>
      simp only [processContentF] at h
      injection h with h2
      subst h2
      exact absurd hfalse (by simp)
    | t :: rest =>
      match t with
      | .mk fn ln obj =>
        match obj with
        | .op o =>
          simp only [processContentF] at h
          cases hrec : processContentF ctx ctxSet labels fuel rest with
          | none => rw [hrec] at h; exact absurd h (by simp)
          | some r2 =>
            rw [hrec] at h
            injection h with h2
            subst h2
            obtain ⟨t2, ht2, hf2⟩ := ih rest r2 hrec hfalse
            exact ⟨t2, List.mem_cons_of_mem _ ht2, hf2⟩
        | .fJoin f l =>
          simp only [processContentF] at h
          exact absurd h (by simp)
        | .fOnly f l =>
          simp only [processContentF] at h
          by_cases hra : objRequiresAction (.fOnly f l) ctx ctxSet labels = true
          · exact ⟨.mk fn ln (.fOnly f l), List.mem_cons_self _ _, hra⟩
          · rw [if_neg hra] at h
            by_cases hirr : objIsIrrelevant (.fOnly f l) ctx ctxSet labels = true
            · rw [if_pos hirr] at h
              obtain ⟨t2, ht2, hf2⟩ := ih rest r h hfalse
              exact ⟨t2, List.mem_cons_of_mem _ ht2, hf2⟩
            · rw [if_neg hirr] at h
              cases hrec : processContentF ctx ctxSet labels fuel rest with
              | none => rw [hrec] at h; exact absurd h (by simp)
              | some r2 =>
                rw [hrec] at h
                injection h with h2
                subst h2
                obtain ⟨t2, ht2, hf2⟩ := ih rest r2 hrec hfalse
                exact ⟨t2, List.mem_cons_of_mem _ ht2, hf2⟩
        | .fNo f l =>
          simp only [processContentF] at h
          by_cases hra : objRequiresAction (.fNo f l) ctx ctxSet labels = true
          · exact ⟨.mk fn ln (.fNo f l), List.mem_cons_self _ _, hra⟩
          · rw [if_neg hra] at h
            by_cases hirr : objIsIrrelevant (.fNo f l) ctx ctxSet labels = true
            · rw [if_pos hirr] at h
              obtain ⟨t2, ht2, hf2⟩ := ih rest r h hfalse
              exact ⟨t2, List.mem_cons_of_mem _ ht2, hf2⟩
            · rw [if_neg hirr] at h
              cases hrec : processContentF ctx ctxSet labels fuel rest with
              | none => rw [hrec] at h; exact absurd h (by simp)
              | some r2 =>
                rw [hrec] at h
                injection h with h2
                subst h2
                obtain ⟨t2, ht2, hf2⟩ := ih rest r2 hrec hfalse
                exact ⟨t2, List.mem_cons_of_mem _ ht2, hf2⟩
        | .cond f l inner =>
          simp only [processContentF] at h
          by_cases hra : objRequiresAction (.cond f l inner) ctx ctxSet labels = true
          · rw [if_pos hra] at h
            cases hin : processContentF ctx ctxSet labels fuel inner with
            | none => rw [hin] at h; exact absurd h (by simp)
            | some rin =>
              obtain ⟨ok2, nc2, in2, dir2⟩ := rin
              rw [hin] at h
              simp only [] at h
              by_cases hok : ok2 = true
              · rw [if_pos hok] at h
                cases hrec : processContentF ctx ctxSet labels fuel rest with
                | none => rw [hrec] at h; exact absurd h (by simp)
                | some r2 =>
                  rw [hrec] at h
                  injection h with h2
                  subst h2
                  obtain ⟨t2, ht2, hf2⟩ := ih rest r2 hrec hfalse
                  exact ⟨t2, List.mem_cons_of_mem _ ht2, hf2⟩
              · have hokF : ok2 = false := by
                  cases ok2
                  · rfl
                  · exact absurd rfl hok
                refine ⟨.mk fn ln (.cond f l inner), List.mem_cons_self _ _, ?_⟩
                have hfull := processContentF_to_full ctx ctxSet labels hin
                show (objRequiresAction (.cond f l inner) ctx ctxSet labels &&
                  (match processContent ctx ctxSet labels inner with
                   | some r => !r.1
                   | none => false)) = true
                rw [hfull, hra, hokF]
                rfl
          · rw [if_neg hra] at h
            by_cases hirr : objIsIrrelevant (.cond f l inner) ctx ctxSet labels = true
            · rw [if_pos hirr] at h
              obtain ⟨t2, ht2, hf2⟩ := ih rest r h hfalse
              exact ⟨t2, List.mem_cons_of_mem _ ht2, hf2⟩
            · rw [if_neg hirr] at h
              cases hrec : processContentF ctx ctxSet labels fuel rest with
              | none => rw [hrec] at h; exact absurd h (by simp)
              | some r2 =>
                rw [hrec] at h
                injection h with h2
                subst h2
                obtain ⟨t2, ht2, hf2⟩ := ih rest r2 hrec hfalse
                exact ⟨t2, List.mem_cons_of_mem _ ht2, hf2⟩
        | .ncond f l inner =>
          simp only [processContentF] at h
          by_cases hra : objRequiresAction (.ncond f l inner) ctx ctxSet labels = true
          · rw [if_pos hra] at h
            cases hin : processContentF ctx ctxSet labels fuel inner with
            | none => rw [hin] at h; exact absurd h (by simp)
            | some rin =>
              obtain ⟨ok2, nc2, in2, dir2⟩ := rin
              rw [hin] at h
              simp only [] at h
              by_cases hok : ok2 = true
              · rw [if_pos hok] at h
                cases hrec : processContentF ctx ctxSet labels fuel rest with
                | none => rw [hrec] at h; exact absurd h (by simp)
                | some r2 =>
                  rw [hrec] at h
                  injection h with h2
                  subst h2
                  obtain ⟨t2, ht2, hf2⟩ := ih rest r2 hrec hfalse
                  exact ⟨t2, List.mem_cons_of_mem _ ht2, hf2⟩
              · have hokF : ok2 = false := by
                  cases ok2
                  · rfl
                  · exact absurd rfl hok
                refine ⟨.mk fn ln (.ncond f l inner), List.mem_cons_self _ _, ?_⟩
                have hfull := processContentF_to_full ctx ctxSet labels hin
                show (objRequiresAction (.ncond f l inner) ctx ctxSet labels &&
                  (match processContent ctx ctxSet labels inner with
                   | some r => !r.1
                   | none => false)) = true
                rw [hfull, hra, hokF]
                rfl
          · rw [if_neg hra] at h
            by_cases hirr : objIsIrrelevant (.ncond f l inner) ctx ctxSet labels = true
            · rw [if_pos hirr] at h
              obtain ⟨t2, ht2, hf2⟩ := ih rest r h hfalse
              exact ⟨t2, List.mem_cons_of_mem _ ht2, hf2⟩
            · rw [if_neg hirr] at h
              cases hrec : processContentF ctx ctxSet labels fuel rest with
              | none => rw [hrec] at h; exact absurd h (by simp)
              | some r2 =>
                rw [hrec] at h
                injection h with h2
                subst h2
                obtain ⟨t2, ht2, hf2⟩ := ih rest r2 hrec hfalse
                exact ⟨t2, List.mem_cons_of_mem _ ht2, hf2⟩

theorem processContent_false_mem {ctx ctxSet labels : List MLabel}
    {items : List CItem} {r : Bool × List CItem × List CItem × List CItem}
    (h : processContent ctx ctxSet labels items = some r) (hf : r.1 = false) :
    ∃ t ∈ items, itemFails t ctx ctxSet labels = true :=
  processContentF_false_mem ctx ctxSet labels (clistSize items + 1) items r h hf

/-- Inserting extra `Only` triples into a content list leaves the kept part
of two successful `process_content` runs related by the same insertion. -/
theorem processContentF_ExtL (ctx ctxSet labels : List MLabel) :
    ∀ {l1 l2 : List CItem}, ExtL l1 l2 →
    ∀ (f1 f2 : ℕ) (r1 r2 : Bool × List CItem × List CItem × List CItem),
    processContentF ctx ctxSet labels f1 l1 = some r1 →
    processContentF ctx ctxSet labels f2 l2 = some r2 →
    r1.1 = true → r2.1 = true →
    ExtL r1.2.1 r2.2.1 := by
  intro l1 l2 hext
  induction hext with
  | nil =>
    intro f1 f2 r1 r2 h1 h2 _ _
    match f1, f2 with
    | 0, _ => exact absurd h1 (by simp [processContentF])
    | g1 + 1, 0 => exact absurd h2 (by simp [processContentF])
    | g1 + 1, g2 + 1 =>
      simp only [processContentF] at h1 h2
      injection h1 with e1
      injection h2 with e2
      subst e1
      subst e2
      exact ExtL.nil
  | keep t hrec ih =>
    intro f1 f2 r1 r2 h1 h2 hok1 hok2
    match f1, f2 with
    | 0, _ => exact absurd h1 (by simp [processContentF])
    | g1 + 1, 0 => exact absurd h2 (by simp [processContentF])
    | g1 + 1, g2 + 1 =>
      match t with
      | .mk fn ln obj =>
        match obj with
        | .op o =>
          simp only [processContentF] at h1 h2
          cases hr1 : processContentF ctx ctxSet labels g1 _ with
          | none => rw [hr1] at h1; exact absurd h1 (by simp)
          | some r1x =>
            rw [hr1] at h1
            cases hr2 : processContentF ctx ctxSet labels g2 _ with
            | none => rw [hr2] at h2; exact absurd h2 (by simp)
            | some r2x =>
              rw [hr2] at h2
              injection h1 with e1
              injection h2 with e2
              subst e1
              subst e2
              exact ExtL.keep _ (ih g1 g2 r1x r2x hr1 hr2 hok1 hok2)
        | .fJoin f l =>
          simp only [processContentF] at h1
          exact absurd h1 (by simp)
        | .fOnly f l =>
          simp only [processContentF] at h1 h2
          by_cases hra : objRequiresAction (.fOnly f l) ctx ctxSet labels = true
          · rw [if_pos hra] at h1
            injection h1 with e1
            subst e1
            exact absurd hok1 (by simp)
          · rw [if_neg hra] at h1 h2
            by_cases hirr : objIsIrrelevant (.fOnly f l) ctx ctxSet labels = true
            · rw [if_pos hirr] at h1 h2
              exact ih g1 g2 r1 r2 h1 h2 hok1 hok2
            · rw [if_neg hirr] at h1 h2
              cases hr1 : processContentF ctx ctxSet labels g1 _ with
              | none => rw [hr1] at h1; exact absurd h1 (by simp)
              | some r1x =>
                rw [hr1] at h1
                cases hr2 : processContentF ctx ctxSet labels g2 _ with
                | none => rw [hr2] at h2; exact absurd h2 (by simp)
                | some r2x =>
                  rw [hr2] at h2
                  injection h1 with e1
                  injection h2 with e2
                  subst e1
                  subst e2
                  exact ExtL.keep _ (ih g1 g2 r1x r2x hr1 hr2 hok1 hok2)
        | .fNo f l =>
          simp only [processContentF] at h1 h2
          by_cases hra : objRequiresAction (.fNo f l) ctx ctxSet labels = true
          · rw [if_pos hra] at h1
            injection h1 with e1
            subst e1
            exact absurd hok1 (by simp)
          · rw [if_neg hra] at h1 h2
            by_cases hirr : objIsIrrelevant (.fNo f l) ctx ctxSet labels = true
            · rw [if_pos hirr] at h1 h2
              exact ih g1 g2 r1 r2 h1 h2 hok1 hok2
            · rw [if_neg hirr] at h1 h2
              cases hr1 : processContentF ctx ctxSet labels g1 _ with
              | none => rw [hr1] at h1; exact absurd h1 (by simp)
              | some r1x =>
                rw [hr1] at h1
                cases hr2 : processContentF ctx ctxSet labels g2 _ with
                | none => rw [hr2] at h2; exact absurd h2 (by simp)
                | some r2x =>
                  rw [hr2] at h2
                  injection h1 with e1
                  injection h2 with e2
                  subst e1
                  subst e2
                  exact ExtL.keep _ (ih g1 g2 r1x r2x hr1 hr2 hok1 hok2)
        | .cond f l inner =>
          simp only [processContentF] at h1 h2
          by_cases hra : objRequiresAction (.cond f l inner) ctx ctxSet labels = true
          · rw [if_pos hra] at h1 h2
            cases hin1 : processContentF ctx ctxSet labels g1 inner with
            | none => rw [hin1] at h1; exact absurd h1 (by simp)
            | some rin1 =>
              cases hin2 : processContentF ctx ctxSet labels g2 inner with
              | none => rw [hin2] at h2; exact absurd h2 (by simp)
              | some rin2 =>
                have hineq : rin1 = rin2 := by
                  have hfull1 := processContentF_to_full ctx ctxSet labels hin1
                  have hfull2 := processContentF_to_full ctx ctxSet labels hin2
                  exact Option.some.inj (hfull1.symm.trans hfull2)
                subst hineq
                obtain ⟨okIn, ncIn, innerIn, directIn⟩ := rin1
                rw [hin1] at h1
                rw [hin2] at h2
                simp only [] at h1 h2
                by_cases hok : okIn = true
                · rw [if_pos hok] at h1 h2
                  cases hr1 : processContentF ctx ctxSet labels g1 _ with
                  | none => rw [hr1] at h1; exact absurd h1 (by simp)
                  | some r1x =>
                    rw [hr1] at h1
                    cases hr2 : processContentF ctx ctxSet labels g2 _ with
                    | none => rw [hr2] at h2; exact absurd h2 (by simp)
                    | some r2x =>
                      rw [hr2] at h2
                      injection h1 with e1
                      injection h2 with e2
                      subst e1
                      subst e2
                      exact ExtL_append_both (ExtL_refl ncIn)
                        (ih g1 g2 r1x r2x hr1 hr2 hok1 hok2)
                · rw [if_neg hok] at h1
                  injection h1 with e1
                  subst e1
                  exact absurd hok1 (by simp)
          · rw [if_neg hra] at h1 h2
            by_cases hirr : objIsIrrelevant (.cond f l inner) ctx ctxSet labels = true
            · rw [if_pos hirr] at h1 h2
              exact ih g1 g2 r1 r2 h1 h2 hok1 hok2
            · rw [if_neg hirr] at h1 h2
              cases hr1 : processContentF ctx ctxSet labels g1 _ with
              | none => rw [hr1] at h1; exact absurd h1 (by simp)
              | some r1x =>
                rw [hr1] at h1
                cases hr2 : processContentF ctx ctxSet labels g2 _ with
                | none => rw [hr2] at h2; exact absurd h2 (by simp)
                | some r2x =>
                  rw [hr2] at h2
                  injection h1 with e1
                  injection h2 with e2
                  subst e1
                  subst e2
                  exact ExtL.keep _ (ih g1 g2 r1x r2x hr1 hr2 hok1 hok2)
        | .ncond f l inner =>
          simp only [processContentF] at h1 h2
          by_cases hra : objRequiresAction (.ncond f l inner) ctx ctxSet labels = true
          · rw [if_pos hra] at h1 h2
            cases hin1 : processContentF ctx ctxSet labels g1 inner with
            | none => rw [hin1] at h1; exact absurd h1 (by simp)
            | some rin1 =>
              cases hin2 : processContentF ctx ctxSet labels g2 inner with
              | none => rw [hin2] at h2; exact absurd h2 (by simp)
              | some rin2 =>
                have hineq : rin1 = rin2 := by
                  have hfull1 := processContentF_to_full ctx ctxSet labels hin1
                  have hfull2 := processContentF_to_full ctx ctxSet labels hin2
                  exact Option.some.inj (hfull1.symm.trans hfull2)
                subst hineq
                obtain ⟨okIn, ncIn, innerIn, directIn⟩ := rin1
                rw [hin1] at h1
                rw [hin2] at h2
                simp only [] at h1 h2
                by_cases hok : okIn = true
                · rw [if_pos hok] at h1 h2
                  cases hr1 : processContentF ctx ctxSet labels g1 _ with
                  | none => rw [hr1] at h1; exact absurd h1 (by simp)
                  | some r1x =>
                    rw [hr1] at h1
                    cases hr2 : processContentF ctx ctxSet labels g2 _ with
                    | none => rw [hr2] at h2; exact absurd h2 (by simp)
                    | some r2x =>
                      rw [hr2] at h2
                      injection h1 with e1
                      injection h2 with e2
                      subst e1
                      subst e2
                      exact ExtL_append_both (ExtL_refl ncIn)
                        (ih g1 g2 r1x r2x hr1 hr2 hok1 hok2)
                · rw [if_neg hok] at h1
                  injection h1 with e1
                  subst e1
                  exact absurd hok1 (by simp)
          · rw [if_neg hra] at h1 h2
            by_cases hirr : objIsIrrelevant (.ncond f l inner) ctx ctxSet labels = true
            · rw [if_pos hirr] at h1 h2
              exact ih g1 g2 r1 r2 h1 h2 hok1 hok2
            · rw [if_neg hirr] at h1 h2
              cases hr1 : processContentF ctx ctxSet labels g1 _ with
              | none => rw [hr1] at h1; exact absurd h1 (by simp)
              | some r1x =>
                rw [hr1] at h1
                cases hr2 : processContentF ctx ctxSet labels g2 _ with
                | none => rw [hr2] at h2; exact absurd h2 (by simp)
                | some r2x =>
                  rw [hr2] at h2
                  injection h1 with e1
                  injection h2 with e2
                  subst e1
                  subst e2
                  exact ExtL.keep _ (ih g1 g2 r1x r2x hr1 hr2 hok1 hok2)
  | ins o hpure hrec ih =>
    intro f1 f2 r1 r2 h1 h2 hok1 hok2
    match f2 with
    | 0 => exact absurd h2 (by simp [processContentF])
    | g2 + 1 =>
      match o with
      | .mk fn ln obj =>
        match obj with
        | .op x => exact Bool.noConfusion hpure
        | .fJoin f l => exact Bool.noConfusion hpure
        | .fNo f l => exact Bool.noConfusion hpure
        | .cond f l i => exact Bool.noConfusion hpure
        | .ncond f l i => exact Bool.noConfusion hpure
        | .fOnly f l =>
          simp only [processContentF] at h2
          by_cases hra : objRequiresAction (.fOnly f l) ctx ctxSet labels = true
          · rw [if_pos hra] at h2
            injection h2 with e2
            subst e2
            exact absurd hok2 (by simp)
          · rw [if_neg hra] at h2
            by_cases hirr : objIsIrrelevant (.fOnly f l) ctx ctxSet labels = true
            · rw [if_pos hirr] at h2
              exact ih f1 g2 r1 r2 h1 h2 hok1 hok2
            · rw [if_neg hirr] at h2
              cases hr2 : processContentF ctx ctxSet labels g2 _ with
              | none => rw [hr2] at h2; exact absurd h2 (by simp)
              | some r2x =>
                rw [hr2] at h2
                injection h2 with e2
                subst e2
                exact ExtL.ins _ hpure (ih f1 g2 r1 r2x h1 hr2 hok1 hok2)

/-- `processContentF_ExtL` at the always-sufficient fuel of
`process_content`. -/
theorem processContent_ExtL {ctx ctxSet labels : List MLabel}
    {l1 l2 : List CItem} (hext : ExtL l1 l2)
    {r1 r2 : Bool × List CItem × List CItem × List CItem}
    (h1 : processContent ctx ctxSet labels l1 = some r1)
    (h2 : processContent ctx ctxSet labels l2 = some r2)
    (hok1 : r1.1 = true) (hok2 : r2.1 = true) : ExtL r1.2.1 r2.2.1 :=
  processContentF_ExtL ctx ctxSet labels hext (clistSize l1 + 1)
    (clistSize l2 + 1) r1 r2 h1 h2 hok1 hok2

/-- A visit whose current contents hold a genuinely failing triple emits no
dictionary, whatever the failure deque holds and whatever the fuel. -/
theorem plain_fails_dicts_nil (fuel : ℕ) (cfg : PCfg) (n : MNode)
    (ctx : List MLabel) (content : List CItem) (shortname : List MLabel)
    (dep : List String) (t : CItem) (ht : t ∈ content ++ n.content)
    (hfail : itemFails t (ctx ++ n.name) (ctx ++ n.name) n.labels = true) :
    (getDictsPlain fuel cfg n ctx content shortname dep).dicts = [] := by
  match fuel with
  | 0 => rfl
  | fuel + 1 =>
    simp only [getDictsPlain]
    cases hfind : n.failedCases.findIdx? (fun fc =>
        ¬ failedCaseMightPass fc content n.content (ctx ++ n.name)
          (ctx ++ n.name) n.labels) with
    | some i => rfl
    | none =>
      simp only []
      cases hInt : processContent (ctx ++ n.name) (ctx ++ n.name) n.labels
          n.content with
      | none => rfl
      | some rInt =>
        obtain ⟨okInt, ncInt, innerInt, directInt⟩ := rInt
        simp only []
        by_cases hok : okInt = true
        · rw [if_neg (not_not_intro hok)]
          have htc : t ∈ content := by
            rcases List.mem_append.mp ht with h1 | h1
            · exact h1
            · have h2 := processContent_fails h1 hfail hInt
              rw [hok] at h2
              exact absurd h2 (by simp)
          cases hExt : processContent (ctx ++ n.name) (ctx ++ n.name) n.labels
              content with
          | none => rfl
          | some rExt =>
            obtain ⟨okExt, ncExt, innerExt, directExt⟩ := rExt
            simp only []
            have hokE : okExt = false := processContent_fails htc hfail hExt
            rw [if_pos (show ¬ okExt = true by simp [hokE])]
        · have hokF : okInt = false := by
            cases okInt
            · rfl
            · exact absurd rfl hok
          rw [if_pos (show ¬ okInt = true by simp [hokF])]

/-- The operation fold of the leaf build hits a non-operation triple:
Python's `AttributeError`. -/
theorem buildLeafDict_fold_none : ∀ (l : List CItem) (d : Dict),
    (∃ o ∈ l, isPureOnly o = true) →
    l.foldlM (fun d (t : CItem) =>
      match t.obj with
      | .op o => applyOp o d
      | _ => (none : Option Dict)) d = none := by
  intro l
  induction l with
  | nil =>
    intro d h
    obtain ⟨o, ho, -⟩ := h
    exact absurd ho (by simp)
  | cons t rest ih =>
    intro d h
    obtain ⟨o, ho, hp⟩ := h
    rw [List.foldlM_cons]
    rcases List.mem_cons.mp ho with rfl | ho2
    · have hbody : (match o.obj with
          | .op op => applyOp op d
          | _ => (none : Option Dict)) = none := by
        match o with
        | .mk fn ln obj =>
          match obj with
          | .fOnly f l2 => rfl
          | .op x => exact Bool.noConfusion hp
          | .fNo f l2 => exact Bool.noConfusion hp
          | .fJoin f l2 => exact Bool.noConfusion hp
          | .cond f l2 i => exact Bool.noConfusion hp
          | .ncond f l2 i => exact Bool.noConfusion hp
      rw [hbody]
      rfl
    · cases hb : (match t.obj with
          | .op op => applyOp op d
          | _ => (none : Option Dict)) with
      | none => rfl
      | some d2 =>
        exact ih d2 ⟨o, ho2, hp⟩

/-- A leaf whose processed content still holds an `Only` filter fails to
build its dictionary. -/
theorem buildLeafDict_none_of_only {name : String} {dep : List String}
    {short : String} {nc : List CItem} (h : ∃ o ∈ nc, isPureOnly o = true) :
    buildLeafDict name dep short nc = none := by
  simp only [buildLeafDict]
  rw [buildLeafDict_fold_none nc _ h]
  rfl

/-- Folding the pairwise join over a subsequence of the second factors (and
a subsequence accumulator) succeeds whenever the full fold does, producing a
subsequence of the merged dictionaries. -/
theorem mergeFold_sublist (d1 : Dict) :
    ∀ (l1 l2 : List Dict) (acc1 acc2 m1 : List Dict),
    List.Sublist l2 l1 → List.Sublist acc2 acc1 →
    l1.foldlM (fun acc d2 => (mergeJoin d1 d2).map (fun d => acc ++ [d]))
      acc1 = some m1 →
    ∃ m2, l2.foldlM (fun acc d2 => (mergeJoin d1 d2).map (fun d => acc ++ [d]))
      acc2 = some m2 ∧ List.Sublist m2 m1 := by
  intro l1
  induction l1 with
  | nil =>
    intro l2 acc1 acc2 m1 hsub hacc h1
    have hl2 : l2 = [] := List.sublist_nil.mp hsub
    subst hl2
    have h2 : some acc1 = some m1 := h1
    have hm : m1 = acc1 := (Option.some.inj h2).symm
    subst hm
    exact ⟨acc2, rfl, hacc⟩
  | cons d rest ih =>
    intro l2 acc1 acc2 m1 hsub hacc h1
    rw [List.foldlM_cons] at h1
    cases hmj : mergeJoin d1 d with
    | none =>
      rw [hmj] at h1
      exact absurd h1 (by simp)
    | some dm =>
      rw [hmj] at h1
      simp only [Option.map_some', Option.some_bind] at h1
      cases hsub with
      | cons _ h =>
        exact ih l2 (acc1 ++ [dm]) acc2 m1 h
          (hacc.trans (List.sublist_append_left acc1 [dm])) h1
      | cons₂ _ h =>
        rename_i l2x
        rw [List.foldlM_cons, hmj]
        simp only [Option.map_some', Option.some_bind]
        exact ih l2x (acc1 ++ [dm]) (acc2 ++ [dm]) m1 h
          (hacc.append (List.Sublist.refl [dm])) h1

theorem joinProducts_nil_dicts (fuel : ℕ) (cfg : PCfg) (remains : List CItem)
    (n : MNode) (ctx : List MLabel) (c : List CItem) (s : List MLabel)
    (d : List String) (co : List CItem) :
    (joinProducts fuel cfg remains n ctx c s d co []).dicts = [] := by
  cases fuel <;> rfl

theorem runChildren_nil_dicts (fuel : ℕ) (cfg : PCfg) (ctx : List MLabel)
    (c : List CItem) (s : List MLabel) (d : List String) (sd : Bool) (cnt : ℕ) :
    (runChildren fuel cfg ctx c s d sd [] cnt).1 = [] := by
  cases fuel <;> rfl

/-- One step of the only-monotonicity relation for `get_dicts_plain`. -/
theorem sub_plain_step (f1 : ℕ) (ihR : SubChildrenAt f1) : SubPlainAt (f1 + 1) := by
  intro f2 cfg n1 n2 ctx c1 c2 shortname dep hdef hsk hchc hextN hextC hs1 hb1
    hnj hch1 hcnj hok1
  obtain ⟨hv, hn, hd, hchl, hl, ha, hdf⟩ := skel_fields hsk
  match f2 with
  | 0 => exact List.nil_sublist _
  | g2 + 1 =>
    cases hfind1 : n1.failedCases.findIdx? (fun fc =>
        ¬ failedCaseMightPass fc c1 n1.content (ctx ++ n1.name)
          (ctx ++ n1.name) n1.labels) with
    | some i1 =>
      obtain ⟨-, -, -, t, htm, htf⟩ := plain_find_prunes f1 cfg n1 ctx c1
        shortname dep i1 hfind1 hs1 hb1
      rw [hn, hl] at htf
      rw [plain_fails_dicts_nil (g2 + 1) cfg n2 ctx c2 shortname dep t
        (ExtL_mem_append hextC hextN htm) htf]
      exact List.nil_sublist _
    | none =>
      obtain ⟨rInt, hInt⟩ := processContent_total (ctx ++ n1.name)
        (ctx ++ n1.name) n1.labels n1.content hnj
      obtain ⟨okInt, ncInt, innerInt, directInt⟩ := rInt
      by_cases hok : okInt = true
      · obtain ⟨rExt, hExt⟩ := processContent_total (ctx ++ n1.name)
          (ctx ++ n1.name) n1.labels c1 hcnj
        obtain ⟨okExt, ncExt, innerExt, directExt⟩ := rExt
        by_cases hokE : okExt = true
        · -- the unfiltered run reaches its children: unfold both sides
          simp only [getDictsPlain] at hok1 ⊢
          rw [← hv, ← hn, ← hd, ← hl, ← ha]
          rw [hfind1] at hok1 ⊢
          simp only [] at hok1 ⊢
          rw [hInt] at hok1 ⊢
          simp only [] at hok1 ⊢
          rw [if_neg (not_not_intro hok)] at hok1 ⊢
          rw [hExt] at hok1 ⊢
          simp only [] at hok1 ⊢
          rw [if_neg (not_not_intro hokE)] at hok1 ⊢
          cases hfind2 : n2.failedCases.findIdx? (fun fc =>
              ¬ failedCaseMightPass fc c2 n2.content (ctx ++ n1.name)
                (ctx ++ n1.name) n1.labels) with
          | some i2 => exact List.nil_sublist _
          | none =>
            simp only []
            cases hInt2 : processContent (ctx ++ n1.name) (ctx ++ n1.name)
                n1.labels n2.content with
            | none => exact List.nil_sublist _
            | some rInt2 =>
              obtain ⟨okInt2, ncInt2, innerInt2, directInt2⟩ := rInt2
              simp only []
              by_cases hok2 : okInt2 = true
              · rw [if_neg (not_not_intro hok2)]
                cases hExt2 : processContent (ctx ++ n1.name) (ctx ++ n1.name)
                    n1.labels c2 with
                | none => exact List.nil_sublist _
                | some rExt2 =>
                  obtain ⟨okExt2, ncExt2, innerExt2, directExt2⟩ := rExt2
                  simp only []
                  by_cases hokE2 : okExt2 = true
                  · rw [if_neg (not_not_intro hokE2)]
                    -- both runs succeed: compare children loops
                    have hextInt : ExtL ncInt ncInt2 :=
                      processContent_ExtL hextN hInt hInt2 hok hok2
                    have hextExt : ExtL ncExt ncExt2 :=
                      processContent_ExtL hextC hExt hExt2 hokE hokE2
                    have hextNC := ExtL_append_both hextInt hextExt
                    have hncnj : listNoJoin (ncInt ++ ncExt) = true :=
                      listNoJoin_append (processContent_noJoin hnj hInt)
                        (processContent_noJoin hcnj hExt)
                    have hscc1 := ((soundNode_iff n1 ctx).mp hs1).2
                    have hbcc1 := ((boundedFC_iff n1).mp hb1).2
                    have hsd : (cfg.defaults && match n1.varName with
                        | none => true
                        | some v => !(decide (v ∈ cfg.expandDefaults))) =
                        false := by
                      rw [hdef]
                      exact Bool.false_and _
                    have hSub := ihR g2 cfg (ctx ++ n1.name) (ncInt ++ ncExt)
                      (ncInt2 ++ ncExt2)
                      (shortname ++ if n1.appendToShortname = true then n1.name
                        else [])
                      (dep ++ renderDeps ctx n1.dep)
                      (cfg.defaults && match n1.varName with
                        | none => true
                        | some v => !(decide (v ∈ cfg.expandDefaults)))
                      n1.children n2.children 0 0 hdef hsd hchc hextNC hscc1
                      hbcc1 hch1 hncnj
                    by_cases hrc : (runChildren f1 cfg (ctx ++ n1.name)
                        (ncInt ++ ncExt)
                        (shortname ++ if n1.appendToShortname = true then
                          n1.name else [])
                        (dep ++ renderDeps ctx n1.dep)
                        (cfg.defaults && match n1.varName with
                          | none => true
                          | some v => !(decide (v ∈ cfg.expandDefaults)))
                        n1.children 0).2.2 = true
                    · rw [if_neg (not_not_intro hrc)] at hok1 ⊢
                      have hdsub := hSub hrc
                      have hlench : n1.children.length = n2.children.length := by
                        have h1 := congrArg List.length hchl
                        rwa [skelList_length, skelList_length] at h1
                      have hemp : n2.children.isEmpty = n1.children.isEmpty := by
                        rcases h1 : n1.children with _ | ⟨b, bs⟩
                        · rcases h2 : n2.children with _ | ⟨a, as1⟩
                          · rfl
                          · rw [h1, h2] at hlench
                            simp at hlench
                        · rcases h2 : n2.children with _ | ⟨a, as1⟩
                          · rw [h1, h2] at hlench
                            simp at hlench
                          · rfl
                      rw [hemp]
                      by_cases hle : n1.children.isEmpty = true
                      · rw [if_pos hle] at hok1 ⊢
                        rw [if_pos hle]
                        by_cases hrc2 : (runChildren g2 cfg (ctx ++ n1.name)
                            (ncInt2 ++ ncExt2)
                            (shortname ++ if n1.appendToShortname = true then
                              n1.name else [])
                            (dep ++ renderDeps ctx n1.dep)
                            (cfg.defaults && match n1.varName with
                              | none => true
                              | some v => !(decide (v ∈ cfg.expandDefaults)))
                            n2.children 0).2.2 = true
                        · rw [if_neg (not_not_intro hrc2)]
                          rcases ExtL_eq_or_mem hextNC with heqc | hexo
                          · rw [← heqc]
                            cases hbld : buildLeafDict (dotJoin (ctx ++ n1.name))
                                (dep ++ renderDeps ctx n1.dep)
                                (".".intercalate (List.map (fun sn => sn.name)
                                  (shortname ++ if n1.appendToShortname = true
                                    then n1.name else [])))
                                (ncInt ++ ncExt) with
                            | some d => exact List.Sublist.refl _
                            | none => exact List.Sublist.refl _
                          · rw [buildLeafDict_none_of_only hexo]
                            exact List.nil_sublist _
                        · rw [if_pos hrc2]
                          have hch1nil : n1.children = [] :=
                            List.isEmpty_iff.mp hle
                          have hch2nil : n2.children = [] := by
                            rw [hch1nil] at hlench
                            exact List.length_eq_zero.mp hlench.symm
                          rw [hch2nil, runChildren_nil_dicts]
                          exact List.nil_sublist _
                      · rw [if_neg hle] at hok1 ⊢
                        rw [if_neg hle]
                        by_cases hrc2 : (runChildren g2 cfg (ctx ++ n1.name)
                            (ncInt2 ++ ncExt2)
                            (shortname ++ if n1.appendToShortname = true then
                              n1.name else [])
                            (dep ++ renderDeps ctx n1.dep)
                            (cfg.defaults && match n1.varName with
                              | none => true
                              | some v => !(decide (v ∈ cfg.expandDefaults)))
                            n2.children 0).2.2 = true
                        · rw [if_neg (not_not_intro hrc2)]
                          exact hdsub
                        · rw [if_pos hrc2]
                          exact hdsub
                    · rw [if_pos hrc] at hok1
                      exact absurd hok1 (by simp)
                  · rw [if_pos hokE2]
                    exact List.nil_sublist _
              · rw [if_pos hok2]
                exact List.nil_sublist _
        · have hokEF : okExt = false := Bool.eq_false_iff.mpr hokE
          obtain ⟨t, htm, htf⟩ := processContent_false_mem hExt hokEF
          rw [hn, hl] at htf
          rw [plain_fails_dicts_nil (g2 + 1) cfg n2 ctx c2 shortname dep t
            (ExtL_mem_append hextC hextN (List.mem_append_left _ htm)) htf]
          exact List.nil_sublist _
      · have hokF : okInt = false := Bool.eq_false_iff.mpr hok
        obtain ⟨t, htm, htf⟩ := processContent_false_mem hInt hokF
        rw [hn, hl] at htf
        rw [plain_fails_dicts_nil (g2 + 1) cfg n2 ctx c2 shortname dep t
          (ExtL_mem_append hextC hextN (List.mem_append_right _ htm)) htf]
        exact List.nil_sublist _

theorem withContent_withContent (n : MNode) (a b : List CItem) :
    (n.withContent a).withContent b = n.withContent b := by cases n; rfl

theorem withContent_self (n : MNode) : n.withContent n.content = n := by
  cases n; rfl

theorem clearFC_withChildren_self (n : MNode) :
    (clearFC n).withChildren (clearFCList n.children) = clearFC n := by
  cases n; rfl

/-- Trees equal after deque clearing share their skeleton. -/
theorem clearFC_skel_aux : ∀ k : ℕ,
    (∀ n1 n2 : MNode, mnodeSize n1 ≤ k → clearFC n1 = clearFC n2 →
      skel n1 = skel n2) ∧
    (∀ l1 l2 : List MNode, mlistSize l1 ≤ k → clearFCList l1 = clearFCList l2 →
      skelList l1 = skelList l2) := by
  intro k
  induction k using Nat.strong_induction_on with
  | _ k IH =>
    constructor
    · intro n1 n2 hk h
      match n1, n2 with
      | .mk v1 nm1 d1 c1 ch1 l1 a1 df1 fc1, .mk v2 nm2 d2 c2 ch2 l2 a2 df2 fc2 =>
        simp only [clearFC] at h
        injection h with e1 e2 e3 e4 e5 e6 e7 e8 e9
        have hsz : mnodeSize (.mk v1 nm1 d1 c1 ch1 l1 a1 df1 fc1) =
            1 + mlistSize ch1 := rfl
        rw [hsz] at hk
        have hch := (IH (mlistSize ch1) (by omega)).2 ch1 ch2 le_rfl e5
        show MNode.mk v1 nm1 d1 [] (skelList ch1) l1 a1 df1 [] =
          MNode.mk v2 nm2 d2 [] (skelList ch2) l2 a2 df2 []
        rw [e1, e2, e3, hch, e6, e7, e8]
    · intro l1 l2 hk h
      match l1, l2 with
      | [], [] => rfl
      | [], n2 :: r2 => exact absurd h (by simp [clearFCList])
      | n1 :: r1, [] => exact absurd h (by simp [clearFCList])
      | n1 :: r1, n2 :: r2 =>
        simp only [clearFCList] at h
        injection h with hh ht
        have hsz : mlistSize (n1 :: r1) = mnodeSize n1 + mlistSize r1 := rfl
        rw [hsz] at hk
        have h1 := (IH (mnodeSize n1)
          (by have := mlistSize_pos r1; omega)).1 n1 n2 le_rfl hh
        have h2 := (IH (mlistSize r1)
          (by have := mnodeSize_pos n1; omega)).2 r1 r2 le_rfl ht
        show skel n1 :: skelList r1 = skel n2 :: skelList r2
        rw [h1, h2]

theorem clearFC_skel {n1 n2 : MNode} (h : clearFC n1 = clearFC n2) :
    skel n1 = skel n2 :=
  (clearFC_skel_aux (mnodeSize n1)).1 n1 n2 le_rfl h

/-- A single enumeration pass restores every node of the tree up to its
failure deques: `get_dicts_joined` (and the plain visit) leave the cleared
tree unchanged, and the join stages change the node only up to the content
their caller overwrites. -/
theorem enum_restore : ∀ (fuel : ℕ),
    (∀ cfg n ctx content shortname dep,
      clearFC (getDictsPlain fuel cfg n ctx content shortname dep).node =
        clearFC n) ∧
    (∀ cfg ctx content shortname dep sd ch count,
      clearFCList (runChildren fuel cfg ctx content shortname dep sd
        ch count).2.1 = clearFCList ch) ∧
    (∀ cfg n ctx content shortname dep sk pg,
      clearFC (getDictsJoined fuel cfg n ctx content shortname dep sk pg).node =
        clearFC n) ∧
    (∀ cfg onlys n ctx content shortname dep X,
      clearFC ((joinFilters fuel cfg onlys n ctx content shortname
        dep).node.withContent X) = clearFC (n.withContent X)) ∧
    (∀ cfg remains n ctx content shortname dep co d1s X,
      clearFC ((joinProducts fuel cfg remains n ctx content shortname dep
        co d1s).node.withContent X) = clearFC (n.withContent X)) := by
  intro fuel
  induction fuel with
  | zero => refine ⟨?_, ?_, ?_, ?_, ?_⟩ <;> intros <;> rfl
  | succ fuel ih =>
    obtain ⟨ihP, ihR, ihJ, ihF, ihPr⟩ := ih
    refine ⟨?_, ?_, ?_, ?_, ?_⟩
    · intro cfg n ctx content shortname dep
      simp only [getDictsPlain]
      repeat' split
      all_goals first
        | rfl
        | exact clearFC_withFailedCases _ _
        | (rw [clearFC_withChildren, ihR, clearFC_withChildren_self])
    · intro cfg ctx content shortname dep sd ch count
      simp only [runChildren]
      match ch with
      | [] => rfl
      | nH :: rest =>
        simp only []
        repeat' split
        all_goals simp only [clearFCList]
        · rw [ihJ]
        · rw [ihJ]
        · rw [ihJ, ihR]
    · intro cfg n ctx content shortname dep sk pg
      simp only [getDictsJoined]
      split
      · exact ihP _ _ _ _ _ _
      · show clearFC ((joinFilters fuel cfg _ _ ctx content shortname
          dep).node.withContent n.content) = clearFC n
        rw [ihF, withContent_withContent, withContent_self]
    · intro cfg onlys n ctx content shortname dep X
      simp only [joinFilters]
      split
      · rw [clearFC_withContent, ihP, ← clearFC_withContent,
          withContent_withContent]
      · split
        · rw [ihPr, withContent_withContent, clearFC_withContent, ihP,
            ← clearFC_withContent, withContent_withContent]
        · rw [ihPr, withContent_withContent, clearFC_withContent, ihP,
            ← clearFC_withContent, withContent_withContent]
    · intro cfg remains n ctx content shortname dep co d1s X
      simp only [joinProducts]
      match d1s with
      | [] => rfl
      | d1 :: d1rest =>
        simp only []
        split
        · rw [ihF, withContent_withContent]
        · split
          · rw [ihF, withContent_withContent]
          · rw [ihPr, ihF, withContent_withContent]

/-- One step of the only-monotonicity relation for the children loop, with
default-variant mode off. -/
theorem sub_children_step (f1 : ℕ) (ihJ : SubJoinedAt f1) (ihR : SubChildrenAt f1) :
    SubChildrenAt (f1 + 1) := by
  intro f2 cfg ctx c1 c2 shortname dep sd ch1 ch2 count1 count2 hdef hsd hchc
    hext hsc1 hbc1 hw1 hcnj hok1
  subst hsd
  match f2 with
  | 0 => exact List.nil_sublist _
  | g2 + 1 =>
    match ch1, ch2 with
    | [], [] => exact List.nil_sublist _
    | [], nH2 :: rest2 => exact absurd hchc (by simp [clearFCList])
    | nH1 :: rest1, [] => exact absurd hchc (by simp [clearFCList])
    | nH1 :: rest1, nH2 :: rest2 =>
      simp only [clearFCList] at hchc
      injection hchc with hne hreste
      obtain ⟨hsn1, hsr1⟩ := hsc1
      obtain ⟨hbn1, hbr1⟩ := hbc1
      obtain ⟨hwn1, hwr1⟩ := treeListNoNestJoin_parts hw1
      obtain ⟨-, -, -, hcEq, hchch, -, -, -⟩ := clearFC_fields hne
      have hskH : skel nH1 = skel nH2 := clearFC_skel hne
      have hextH : ExtL nH1.content nH2.content := by
        rw [hcEq]
        exact ExtL_refl _
      have hHead := ihJ g2 cfg nH1 nH2 ctx c1 c2 shortname dep true false hdef
        hskH hchch hextH hext hsn1 hbn1 hwn1 hcnj
      have hff : ¬ (false = true) := by simp
      simp only [runChildren] at hok1 ⊢
      simp only [Bool.false_and] at hok1 ⊢
      by_cases hHok : (getDictsJoined g2 cfg nH2 ctx c2 shortname dep
          true false).ok = true
      all_goals by_cases hH1ok : (getDictsJoined f1 cfg nH1 ctx c1 shortname dep
          true false).ok = true
      · -- both heads ok
        rw [if_neg (not_not_intro hH1ok), if_neg hff] at hok1 ⊢
        rw [if_neg (not_not_intro hHok), if_neg hff]
        have hrr1ok : (runChildren f1 cfg ctx c1 shortname dep false rest1
            (count1 + (getDictsJoined f1 cfg nH1 ctx c1 shortname dep
              true false).dicts.length)).2.2 = true := hok1
        exact List.Sublist.append (hHead hH1ok)
          (ihR g2 cfg ctx c1 c2 shortname dep false rest1 rest2 _ _ hdef rfl
            hreste hext hsr1 hbr1 hwr1 hcnj hrr1ok)
      · -- side-1 head fails: the unfiltered loop aborts
        rw [if_pos hH1ok] at hok1
        exact absurd hok1 (by simp)
      · -- side-2 head fails midway, side-1 ok
        rw [if_neg (not_not_intro hH1ok), if_neg hff] at hok1 ⊢
        rw [if_pos hHok]
        exact (hHead hH1ok).trans (List.sublist_append_left _ _)
      · rw [if_pos hH1ok] at hok1
        exact absurd hok1 (by simp)

/-- One step of the only-monotonicity relation for `get_dicts_joined`. -/
theorem sub_joined_step (f1 : ℕ) (ihP : SubPlainAt f1) (ihF : SubFiltersAt f1) :
    SubJoinedAt (f1 + 1) := by
  intro f2 cfg n1 n2 ctx c1 c2 shortname dep sk pg hdef hsk hchc hextN hextC
    hs1 hb1 hw1 hcnj hok1
  match f2 with
  | 0 => exact List.nil_sublist _
  | g2 + 1 =>
    have hjoins : n2.content.filter isJoinItem = n1.content.filter isJoinItem :=
      ExtL_filter_join hextN
    simp only [getDictsJoined] at hok1 ⊢
    rw [hjoins]
    by_cases hj : ((n1.content.filter isJoinItem).isEmpty : Prop)
    · rw [if_pos hj] at hok1 ⊢
      rw [if_pos hj]
      have hnj1 : listNoJoin n1.content = true :=
        listNoJoin_of_no_top_joins _ (List.isEmpty_iff.mp hj)
          (treeNoNestJoin_parts hw1).1
      have hok1p : (getDictsPlain f1 cfg n1 ctx c1 shortname dep).ok = true :=
        hok1
      have hsubP := ihP g2 cfg n1 n2 ctx c1 c2 shortname dep hdef hsk hchc
        hextN hextC hs1 hb1 hnj1 (treeNoNestJoin_parts hw1).2 hcnj hok1p
      by_cases hpg : pg = true
      · rw [if_pos hpg, if_pos hpg]
        exact hsubP.map _
      · rw [if_neg hpg, if_neg hpg]
        exact hsubP
    · rw [if_neg hj] at hok1 ⊢
      rw [if_neg hj]
      have hskW : skel (n1.withContent
            (n1.content.filter (fun t => ¬ isJoinItem t))) =
          skel (n2.withContent
            (n2.content.filter (fun t => ¬ isJoinItem t))) := by
        rw [skel_withContent, skel_withContent, hsk]
      have hchcW : clearFCList (n1.withContent
            (n1.content.filter (fun t => ¬ isJoinItem t))).children =
          clearFCList (n2.withContent
            (n2.content.filter (fun t => ¬ isJoinItem t))).children := by
        rw [children_withContent, children_withContent]
        exact hchc
      have hextW : ExtL (n1.withContent
            (n1.content.filter (fun t => ¬ isJoinItem t))).content
          (n2.withContent
            (n2.content.filter (fun t => ¬ isJoinItem t))).content := by
        rw [content_withContent, content_withContent]
        exact ExtL_filter_not_join hextN
      have hok1f : (joinFilters f1 cfg
          (joinsToOnlys (n1.content.filter isJoinItem))
          (n1.withContent (n1.content.filter (fun t => ¬ isJoinItem t)))
          ctx c1 shortname dep).ok = true := hok1
      have hsubF := ihF g2 cfg (joinsToOnlys (n1.content.filter isJoinItem))
        (n1.withContent (n1.content.filter (fun t => ¬ isJoinItem t)))
        (n2.withContent (n2.content.filter (fun t => ¬ isJoinItem t)))
        ctx c1 c2 shortname dep hdef hskW hchcW hextW hextC
        ((soundNode_withContent _ _ _).mpr hs1)
        ((boundedFC_withContent _ _).mpr hb1)
        (by rw [content_withContent]
            exact listNoJoin_filter_not_join _ (treeNoNestJoin_parts hw1).1)
        (by rw [children_withContent]
            exact (treeNoNestJoin_parts hw1).2)
        hcnj (listNoJoin_joinsToOnlys _) hok1f
      by_cases hpg : pg = true
      · rw [if_pos hpg, if_pos hpg]
        exact hsubF.map _
      · rw [if_neg hpg, if_neg hpg]
        exact hsubF

/-- One step of the only-monotonicity relation for `join_filters`. -/
theorem sub_filters_step (f1 : ℕ) (ihP : SubPlainAt f1) (ihPr : SubProductsAt f1) :
    SubFiltersAt (f1 + 1) := by
  intro f2 cfg onlys n1 n2 ctx c1 c2 shortname dep hdef hsk hchc hextN hextC
    hs1 hb1 hnj hch1 hcnj honly hok1
  match f2 with
  | 0 => exact List.nil_sublist _
  | g2 + 1 =>
    have hskW : skel (n1.withContent (n1.content ++ onlys.take 1)) =
        skel (n2.withContent (n2.content ++ onlys.take 1)) := by
      rw [skel_withContent, skel_withContent, hsk]
    have hchcW : clearFCList (n1.withContent
          (n1.content ++ onlys.take 1)).children =
        clearFCList (n2.withContent (n2.content ++ onlys.take 1)).children := by
      rw [children_withContent, children_withContent]
      exact hchc
    have hextW : ExtL (n1.withContent (n1.content ++ onlys.take 1)).content
        (n2.withContent (n2.content ++ onlys.take 1)).content := by
      rw [content_withContent, content_withContent]
      exact ExtL_append_both hextN (ExtL_refl _)
    have hs1W := (soundNode_withContent n1 (n1.content ++ onlys.take 1) ctx).mpr hs1
    have hb1W := (boundedFC_withContent n1 (n1.content ++ onlys.take 1)).mpr hb1
    have hnjW : listNoJoin (n1.withContent
        (n1.content ++ onlys.take 1)).content = true := by
      rw [content_withContent]
      exact listNoJoin_append hnj (listNoJoin_take _ _ honly)
    have hch1W : treeListNoNestJoin (n1.withContent
        (n1.content ++ onlys.take 1)).children = true := by
      rw [children_withContent]
      exact hch1
    have hsubP := ihP g2 cfg (n1.withContent (n1.content ++ onlys.take 1))
      (n2.withContent (n2.content ++ onlys.take 1)) ctx c1 c2 shortname dep
      hdef hskW hchcW hextW hextC hs1W hb1W hnjW hch1W hcnj
    simp only [joinFilters] at hok1 ⊢
    cases hdrop : onlys.drop 1 with
    | nil =>
      rw [hdrop] at hok1
      simp only [] at hok1
      exact hsubP hok1
    | cons r0 rrest =>
      simp only []
      rw [hdrop] at hok1
      simp only [] at hok1
      by_cases hpok : (getDictsPlain f1 cfg
          (n1.withContent (n1.content ++ onlys.take 1))
          ctx c1 shortname dep).ok = true
      · rw [if_neg (not_not_intro hpok)] at hok1 ⊢
        have hd1sub := hsubP hpok
        have hskPr : skel ((getDictsPlain f1 cfg
              (n1.withContent (n1.content ++ onlys.take 1))
              ctx c1 shortname dep).node.withContent n1.content) =
            skel ((getDictsPlain g2 cfg
              (n2.withContent (n2.content ++ onlys.take 1))
              ctx c2 shortname dep).node.withContent n2.content) := by
          rw [skel_withContent, skel_withContent, (enum_skel f1).1,
            (enum_skel g2).1, skel_withContent, skel_withContent, hsk]
        have e1 := (clearFC_fields ((enum_restore f1).1 cfg
          (n1.withContent (n1.content ++ onlys.take 1))
          ctx c1 shortname dep)).2.2.2.2.1
        have e2 := (clearFC_fields ((enum_restore g2).1 cfg
          (n2.withContent (n2.content ++ onlys.take 1))
          ctx c2 shortname dep)).2.2.2.2.1
        rw [children_withContent] at e1 e2
        have hchcPr : clearFCList ((getDictsPlain f1 cfg
              (n1.withContent (n1.content ++ onlys.take 1))
              ctx c1 shortname dep).node.withContent n1.content).children =
            clearFCList ((getDictsPlain g2 cfg
              (n2.withContent (n2.content ++ onlys.take 1))
              ctx c2 shortname dep).node.withContent n2.content).children := by
          rw [children_withContent, children_withContent, e1, e2]
          exact hchc
        have hBR := (enum_cacheEq f1).1 cfg
          (n1.withContent (n1.content ++ onlys.take 1))
          (n1.withContent (n1.content ++ onlys.take 1))
          ctx c1 shortname dep rfl hs1W hs1W hb1W hb1W hnjW hch1W hch1W hcnj
        obtain ⟨-, -, -, hps1, -, hpb1, -, -, -, hpw1, -⟩ := hBR
        have hremnj : listNoJoin (r0 :: rrest) = true := by
          rw [← hdrop]
          exact listNoJoin_drop onlys 1 honly
        have hsubPr := ihPr g2 cfg (r0 :: rrest)
          ((getDictsPlain f1 cfg (n1.withContent (n1.content ++ onlys.take 1))
            ctx c1 shortname dep).node.withContent n1.content)
          ((getDictsPlain g2 cfg (n2.withContent (n2.content ++ onlys.take 1))
            ctx c2 shortname dep).node.withContent n2.content)
          ctx c1 c2 shortname dep n1.content n2.content
          (getDictsPlain f1 cfg (n1.withContent (n1.content ++ onlys.take 1))
            ctx c1 shortname dep).dicts
          (getDictsPlain g2 cfg (n2.withContent (n2.content ++ onlys.take 1))
            ctx c2 shortname dep).dicts
          hdef hskPr hchcPr hextN hextC
          ((soundNode_withContent _ _ _).mpr hps1)
          ((boundedFC_withContent _ _).mpr hpb1)
          (by rw [children_withContent]; exact hpw1)
          hcnj hnj hremnj hd1sub hok1
        by_cases hp2 : (getDictsPlain g2 cfg
            (n2.withContent (n2.content ++ onlys.take 1))
            ctx c2 shortname dep).ok = true
        · rw [if_neg (not_not_intro hp2)]
          exact hsubPr
        · rw [if_pos hp2]
          exact hsubPr
      · rw [if_pos hpok] at hok1
        exact absurd hok1 (by simp)

/-- One step of the only-monotonicity relation for the join product loop. -/
theorem sub_products_step (f1 : ℕ) (ihF : SubFiltersAt f1)
    (ihPr : SubProductsAt f1) : SubProductsAt (f1 + 1) := by
  intro f2 cfg remains n1 n2 ctx c1 c2 shortname dep co1 co2 d1s1 d1s2 hdef hsk
    hchc hextCo hextC hs1 hb1 hw1 hcnj hconj hremnj hd1sub hok1
  -- side-1 invariants of the inner `join_filters` run, and its restored shape
  have hBRF := (enum_cacheEq f1).2.2.2.1 cfg remains (n1.withContent co1)
    (n1.withContent co1) ctx c1 shortname dep rfl
    ((soundNode_withContent _ _ _).mpr hs1) ((soundNode_withContent _ _ _).mpr hs1)
    ((boundedFC_withContent _ _).mpr hb1) ((boundedFC_withContent _ _).mpr hb1)
    (by rw [content_withContent]; exact hconj)
    (by rw [children_withContent]; exact hw1)
    (by rw [children_withContent]; exact hw1)
    hcnj hremnj
  obtain ⟨-, -, -, hfs1, -, hfb1, -, hfw1, -⟩ := hBRF
  have er1 := (clearFC_fields ((enum_restore f1).2.2.2.1 cfg remains
    (n1.withContent co1) ctx c1 shortname dep [])).2.2.2.2.1
  rw [children_withContent, children_withContent, children_withContent] at er1
  match d1s1 with
  | [] =>
    have h2 : d1s2 = [] := List.sublist_nil.mp hd1sub
    subst h2
    rw [joinProducts_nil_dicts]
    exact List.nil_sublist _
  | d1 :: rest1 =>
    cases hd1sub with
    | cons _ hsubrest =>
      -- the filtered run never multiplies with `d1`: compare it with the
      -- unfiltered continuation on `rest1`
      simp only [joinProducts] at hok1 ⊢
      revert hok1
      split
      · intro hok1
        exact absurd hok1 (by simp)
      · rename_i merged1 hfold1
        intro hok1
        by_cases hjf1 : (joinFilters f1 cfg remains (n1.withContent co1) ctx c1
            shortname dep).ok = true
        · rw [if_neg (not_not_intro hjf1)] at hok1 ⊢
          have hskR : skel (joinFilters f1 cfg remains (n1.withContent co1)
              ctx c1 shortname dep).node = skel n2 := by
            rw [(enum_skel f1).2.2.2.1, skel_withContent, hsk]
          have hchcR : clearFCList (joinFilters f1 cfg remains
                (n1.withContent co1) ctx c1 shortname dep).node.children =
              clearFCList n2.children := by
            rw [er1]
            exact hchc
          have hconc := ihPr f2 cfg remains
            (joinFilters f1 cfg remains (n1.withContent co1) ctx c1
              shortname dep).node n2 ctx c1 c2 shortname dep co1 co2
            rest1 d1s2 hdef hskR hchcR hextCo hextC hfs1 hfb1 hfw1 hcnj hconj
            hremnj hsubrest hok1
          exact hconc.trans
            (((List.nil_sublist merged1).append (List.Sublist.refl _)))
        · rw [if_pos hjf1] at hok1
          exact absurd hok1 (by simp)
    | cons₂ _ hsubrest =>
      rename_i rest2
      match f2 with
      | 0 => exact List.nil_sublist _
      | g2 + 1 =>
        simp only [joinProducts] at hok1 ⊢
        revert hok1
        split
        · intro hok1
          exact absurd hok1 (by simp)
        · rename_i merged1 hfold1
          intro hok1
          by_cases hjf1 : (joinFilters f1 cfg remains (n1.withContent co1)
              ctx c1 shortname dep).ok = true
          · rw [if_neg (not_not_intro hjf1)] at hok1 ⊢
            -- relate the two inner `join_filters` runs
            have hsubJF := ihF g2 cfg remains (n1.withContent co1)
              (n2.withContent co2) ctx c1 c2 shortname dep hdef
              (by rw [skel_withContent, skel_withContent, hsk])
              (by rw [children_withContent, children_withContent]; exact hchc)
              (by rw [content_withContent, content_withContent]; exact hextCo)
              hextC
              ((soundNode_withContent _ _ _).mpr hs1)
              ((boundedFC_withContent _ _).mpr hb1)
              (by rw [content_withContent]; exact hconj)
              (by rw [children_withContent]; exact hw1)
              hcnj hremnj hjf1
            obtain ⟨merged2, hfold2, hmsub⟩ := mergeFold_sublist d1
              (joinFilters f1 cfg remains (n1.withContent co1) ctx c1
                shortname dep).dicts
              (joinFilters g2 cfg remains (n2.withContent co2) ctx c2
                shortname dep).dicts
              [] [] merged1 hsubJF (List.Sublist.refl []) hfold1
            split
            · rename_i hf2
              rw [hfold2] at hf2
              exact absurd hf2 (by simp)
            · rename_i m2 hf2
              rw [hfold2] at hf2
              injection hf2 with hf2e
              subst hf2e
              by_cases hjf2 : (joinFilters g2 cfg remains (n2.withContent co2)
                  ctx c2 shortname dep).ok = true
              · rw [if_neg (not_not_intro hjf2)]
                have er2 := (clearFC_fields ((enum_restore g2).2.2.2.1 cfg
                  remains (n2.withContent co2) ctx c2 shortname dep
                  [])).2.2.2.2.1
                rw [children_withContent, children_withContent,
                  children_withContent] at er2
                have hskR : skel (joinFilters f1 cfg remains
                    (n1.withContent co1) ctx c1 shortname dep).node =
                    skel (joinFilters g2 cfg remains (n2.withContent co2)
                      ctx c2 shortname dep).node := by
                  rw [(enum_skel f1).2.2.2.1, (enum_skel g2).2.2.2.1,
                    skel_withContent, skel_withContent, hsk]
                have hchcR : clearFCList (joinFilters f1 cfg remains
                      (n1.withContent co1) ctx c1 shortname
                      dep).node.children =
                    clearFCList (joinFilters g2 cfg remains
                      (n2.withContent co2) ctx c2 shortname
                      dep).node.children := by
                  rw [er1, er2]
                  exact hchc
                have hconc := ihPr g2 cfg remains
                  (joinFilters f1 cfg remains (n1.withContent co1) ctx c1
                    shortname dep).node
                  (joinFilters g2 cfg remains (n2.withContent co2) ctx c2
                    shortname dep).node
                  ctx c1 c2 shortname dep co1 co2 rest1 rest2 hdef hskR hchcR
                  hextCo hextC hfs1 hfb1 hfw1 hcnj hconj hremnj hsubrest hok1
                exact List.Sublist.append hmsub hconc
              · rw [if_pos hjf2]
                exact hmsub.trans (List.sublist_append_left _ _)
          · rw [if_pos hjf1] at hok1
            exact absurd hok1 (by simp)

/-- The full only-monotonicity relation, by induction on the unfiltered
run's fuel. -/
theorem sub_enum : ∀ (f1 : ℕ), SubPlainAt f1 ∧ SubChildrenAt f1 ∧
    SubJoinedAt f1 ∧ SubFiltersAt f1 ∧ SubProductsAt f1 := by
  intro f1
  induction f1 with
  | zero =>
    refine ⟨?_, ?_, ?_, ?_, ?_⟩
    · intro f2 cfg n1 n2 ctx c1 c2 shortname dep _ _ _ _ _ _ _ _ _ _ hok1
      exact absurd hok1 (by simp [getDictsPlain])
    · intro f2 cfg ctx c1 c2 shortname dep sd ch1 ch2 count1 count2 _ _ _ _ _
        _ _ _ hok1
      exact absurd hok1 (by simp [runChildren])
    · intro f2 cfg n1 n2 ctx c1 c2 shortname dep sk pg _ _ _ _ _ _ _ _ _ hok1
      exact absurd hok1 (by simp [getDictsJoined])
    · intro f2 cfg onlys n1 n2 ctx c1 c2 shortname dep _ _ _ _ _ _ _ _ _ _ _
        hok1
      exact absurd hok1 (by simp [joinFilters])
    · intro f2 cfg remains n1 n2 ctx c1 c2 shortname dep co1 co2 d1s1 d1s2 _ _
        _ _ _ _ _ _ _ _ _ _ hok1
      exact Bool.noConfusion hok1
  | succ f1 ih =>
    obtain ⟨ihP, ihR, ihJ, ihF, ihPr⟩ := ih
    exact ⟨sub_plain_step f1 ihR, sub_children_step f1 ihJ ihR,
      sub_joined_step f1 ihP ihF, sub_filters_step f1 ihP ihPr,
      sub_products_step f1 ihF ihPr⟩

/-- **C8** (corrected; the unrestricted claim is refuted above).  With
default-variant mode off (`defaults=False`, the `get_dicts` default), adding
extra root-level `only X` lines to a parsed tree — extra `OnlyFilter`
triples inserted into the root's content — only removes variants: whenever
the unfiltered enumeration ends without raising, the filtered enumeration
emits a subsequence of its dictionaries.  The tree's failure deques must be
sound and bounded (true of every parser-built tree, whose deques start
empty) and its conditional blocks must not nest a `join`.  With
`defaults=True` the claim is false: the stop-after-default rule counts
emitted dictionaries, so an `only` clause that silences the default child
unblocks its siblings and adds variants. -/
theorem c8_amended (fuel : ℕ) (cfg : PCfg) (tree : MNode) (c2 : List CItem)
    (sk pg : Bool) (hdef : cfg.defaults = false)
    (hext : ExtL tree.content c2)
    (hs : soundNode tree []) (hb : boundedFC tree)
    (hwf : treeNoNestJoin tree = true)
    (hok : (getDicts fuel cfg ⟨tree, pg⟩ sk).1.ok = true) :
    List.Sublist (getDicts fuel cfg ⟨tree.withContent c2, pg⟩ sk).1.dicts
      (getDicts fuel cfg ⟨tree, pg⟩ sk).1.dicts := by
  have h := (sub_enum fuel).2.2.1 fuel cfg tree (tree.withContent c2) [] []
    [] [] [] sk pg hdef (skel_withContent tree c2).symm
    (by rw [children_withContent])
    (by rw [content_withContent]; exact hext)
    ExtL.nil hs hb hwf rfl hok
  exact h

/-- Witness for the corrected C8 on the two-child example tree with
default-variant mode off: adding the root-level `only b` yields a
subsequence of the unfiltered enumeration. -/
theorem c8_amended_witness :
    cfgDefault.defaults = false ∧
    treeNoNestJoin (clearFC exC8Root1) = true ∧
    (getDicts 10 cfgDefault ⟨clearFC exC8Root1, true⟩ true).1.ok = true ∧
    List.Sublist
      (getDicts 10 cfgDefault ⟨(clearFC exC8Root1).withContent [exC8Only],
        true⟩ true).1.dicts
      (getDicts 10 cfgDefault ⟨clearFC exC8Root1, true⟩ true).1.dicts :=
  ⟨rfl, by decide, by decide,
    c8_amended 10 cfgDefault (clearFC exC8Root1) [exC8Only] true true rfl
      (ExtL.ins exC8Only rfl ExtL.nil)
      (((clearFC_facts (mnodeSize exC8Root1)).1 exC8Root1 le_rfl).2.1 [])
      (((clearFC_facts (mnodeSize exC8Root1)).1 exC8Root1 le_rfl).2.2.1)
      (by decide) (by decide)⟩

end Cartconf
